import Mathlib

/-!
# bencode: value model, parser and decoder

A shallow embedding of `values.go`, `parser.go` and `decode.go`.

* A Go `byte` is the natural number of its value (below 256); the package only ever compares
  bytes, so the bound is not carried around. A Go `string` / `[]byte` is a `List Nat`.
* `int64` values are `Int`s; the range `-2^63 ≤ n < 2^63` is stated where it matters.
* The `bufio.Reader` of the parser is the list of bytes not read yet.
* Go's `(Value, error)` results, together with the parser state after the call, are an
  `Outcome`.
* The recursive descent is driven by a call budget (`fuel`); `Parser.Parse` supplies a budget
  that is proved sufficient for every input.
* A destination of the decoder is a `GoType` (what `reflect` reports of its type) together
  with a `GoValue`; a method that writes through `reflect` returns the value the destination
  holds afterwards. A `GoValue` is a destination without shared storage.
* The decoder is embedded a second time over a memory of backing arrays and map objects
  (`Decoder.putAt`), in which two slices can share an array and two map values can be one
  map. On a destination that shares no storage the two embeddings agree (`putAt_Refines`).
-/

namespace Bencode

/-- The bytes of an ASCII literal. -/
def bytes (s : String) : List Nat := s.toList.map Char.toNat

/-! ## The parts of `strconv` the package uses -/

namespace strconv

/-- The test `'0' <= b && b <= '9'`. -/
def isDigit (b : Nat) : Bool := decide (48 ≤ b ∧ b ≤ 57)

/-- The value of a decimal digit byte. -/
def digitVal (b : Nat) : Nat := b - 48

/-- The byte of a decimal digit. -/
def digitByte (d : Nat) : Nat := 48 + d

/-- The digit loop of `strconv.ParseUint(s, 10, 64)`: every byte has to be a decimal digit.
The accumulator is unbounded here; the caller compares it with the 64-bit cutoff. -/
def parseDigits : List Nat → Nat → Option Nat
  | [], acc => some acc
  | b :: bs, acc => if isDigit b then parseDigits bs (acc * 10 + digitVal b) else none

/-- Model of `strconv.ParseInt(s, 10, 64)`; `none` stands for a non-nil error (syntax or range).
An optional leading `+` or `-`, then at least one decimal digit and nothing else; the value has
to fit a signed 64-bit integer. -/
def ParseInt (s : List Nat) : Option Int :=
  match s with
  | [] => none
  | b :: rest =>
    let body := if b = 43 ∨ b = 45 then rest else s
    match body with
    | [] => none
    | _ :: _ =>
      match parseDigits body 0 with
      | none => none
      | some un =>
        if b = 45 then (if un ≤ 2 ^ 63 then some (-(un : Int)) else none)
        else (if un < 2 ^ 63 then some (un : Int) else none)

/-- Decimal digits of `n`, least significant first. -/
def digitsRev : Nat → Nat → List Nat
  | 0, _ => []
  | fuel + 1, n =>
    if n < 10 then [digitByte n] else digitByte (n % 10) :: digitsRev fuel (n / 10)

/-- Decimal text of a natural number (`strconv.FormatUint(n, 10)`). -/
def FormatUint (n : Nat) : List Nat := (digitsRev (n + 1) n).reverse

/-- Model of `strconv.FormatInt(i, 10)`: a `-` for a negative value, then the decimal text of
the magnitude. -/
def FormatInt (i : Int) : List Nat :=
  if i < 0 then 45 :: FormatUint i.natAbs else FormatUint i.toNat

/-- Model of `strconv.AppendInt(dst, i, 10)`. -/
def AppendInt (dst : List Nat) (i : Int) : List Nat := dst ++ FormatInt i

end strconv

/-! ## values.go -/

/-- Go's `map[String]V` as an association list with at most one binding per key. -/
abbrev GoMap (α : Type) := List (List Nat × α)

/-- The lookup `m[key]`, with `none` for an absent key. -/
def GoMap.get {α : Type} : GoMap α → List Nat → Option α
  | [], _ => none
  | (k, v) :: rest, key => if k = key then some v else GoMap.get rest key

/-- The assignment `m[key] = val`: any binding of `key` is dropped and the new one added. -/
def GoMap.set {α : Type} (m : GoMap α) (key : List Nat) (val : α) : GoMap α :=
  m.filter (fun e => decide (e.1 ≠ key)) ++ [(key, val)]

/-- The struct `Dict`: the key-order sequence `keys` and the lookup mapping `m`. -/
structure DictOf (α : Type) where
  keys : List (List Nat)
  m : List (List Nat × α)

/-- A tree node (`Value`), one constructor per implementing type: `Int`, `String`, `List`
and `*Dict`. -/
inductive Value where
  | int (i : Int)
  | string (s : List Nat)
  | list (l : List Value)
  | dict (d : DictOf Value)

mutual
/-- Equality of trees is decidable. -/
def Value.decEq : (a b : Value) → Decidable (a = b)
  | .int i, .int j =>
    if h : i = j then isTrue (by rw [h]) else isFalse (by intro e; cases e; exact h rfl)
  | .string s, .string t =>
    if h : s = t then isTrue (by rw [h]) else isFalse (by intro e; cases e; exact h rfl)
  | .list l, .list l2 =>
    match Value.decEqList l l2 with
    | isTrue h => isTrue (by rw [h])
    | isFalse h => isFalse (by intro e; cases e; exact h rfl)
  | .dict ⟨k, m⟩, .dict ⟨k2, m2⟩ =>
    if hk : k = k2 then
      match Value.decEqMap m m2 with
      | isTrue h => isTrue (by rw [hk, h])
      | isFalse h => isFalse (by intro e; cases e; exact h rfl)
    else isFalse (by intro e; cases e; exact hk rfl)
  | .int _, .string _ => isFalse (by intro e; cases e)
  | .int _, .list _ => isFalse (by intro e; cases e)
  | .int _, .dict _ => isFalse (by intro e; cases e)
  | .string _, .int _ => isFalse (by intro e; cases e)
  | .string _, .list _ => isFalse (by intro e; cases e)
  | .string _, .dict _ => isFalse (by intro e; cases e)
  | .list _, .int _ => isFalse (by intro e; cases e)
  | .list _, .string _ => isFalse (by intro e; cases e)
  | .list _, .dict _ => isFalse (by intro e; cases e)
  | .dict _, .int _ => isFalse (by intro e; cases e)
  | .dict _, .string _ => isFalse (by intro e; cases e)
  | .dict _, .list _ => isFalse (by intro e; cases e)
/-- Equality of lists of trees is decidable. -/
def Value.decEqList : (a b : List Value) → Decidable (a = b)
  | [], [] => isTrue rfl
  | [], _ :: _ => isFalse (by intro e; cases e)
  | _ :: _, [] => isFalse (by intro e; cases e)
  | a :: as, b :: bs =>
    match Value.decEq a b with
    | isTrue h =>
      match Value.decEqList as bs with
      | isTrue h2 => isTrue (by rw [h, h2])
      | isFalse h2 => isFalse (by intro e; cases e; exact h2 rfl)
    | isFalse h => isFalse (by intro e; cases e; exact h rfl)
/-- Equality of mappings of trees is decidable. -/
def Value.decEqMap : (a b : List (List Nat × Value)) → Decidable (a = b)
  | [], [] => isTrue rfl
  | [], _ :: _ => isFalse (by intro e; cases e)
  | _ :: _, [] => isFalse (by intro e; cases e)
  | (k, a) :: as, (k2, b) :: bs =>
    if hk : k = k2 then
      match Value.decEq a b with
      | isTrue h =>
        match Value.decEqMap as bs with
        | isTrue h2 => isTrue (by rw [hk, h, h2])
        | isFalse h2 => isFalse (by intro e; cases e; exact h2 rfl)
      | isFalse h => isFalse (by intro e; cases e; exact h rfl)
    else isFalse (by intro e; cases e; exact hk rfl)
end

instance : DecidableEq Value := Value.decEq

abbrev Dict := DictOf Value

/-- The pair `DictItem`. -/
structure DictItem where
  Key : List Nat
  Value : Value

/-- `Dict.Get`: the value stored under `key`, `none` (Go's nil) if there is none. -/
def Dict.Get (d : Dict) (key : List Nat) : Option Value := GoMap.get d.m key

/-- `Dict.Set`: when the mapping already has `key`, its first occurrence is deleted from the
key sequence; then `key` is appended to the sequence and bound to `val` in the mapping. -/
def Dict.Set (d : Dict) (key : List Nat) (val : Value) : Dict :=
  let keys := if (GoMap.get d.m key).isSome then d.keys.erase key else d.keys
  { keys := keys ++ [key], m := GoMap.set d.m key val }

/-- `NewDict(items...)`: `Set` for each item in turn, from the empty `Dict`. -/
def NewDict (items : List DictItem) : Dict :=
  items.foldl (fun d item => d.Set item.Key item.Value) { keys := [], m := [] }

/-- `Int.Bencode`. -/
def Int.Bencode (i : Int) : List Nat :=
  strconv.AppendInt [105] i ++ [101]

/-- `String.Bencode`. -/
def String.Bencode (s : List Nat) : List Nat :=
  strconv.AppendInt [] (s.length : Int) ++ [58] ++ s

/-- The body of the loop of `Dict.Bencode`, over the already encoded values of the mapping:
for each key of the sequence, the encoded key and the encoded `d.m[key]`. A key without a
binding (a nil `Value` in Go, whose `Bencode` call cannot return) contributes no value bytes. -/
def Dict.bencodeItems (keys : List (List Nat)) (em : GoMap (List Nat)) : List Nat :=
  match keys with
  | [] => []
  | key :: rest =>
    String.Bencode key ++ (match GoMap.get em key with | some bval => bval | none => []) ++
      Dict.bencodeItems rest em

mutual
/-- `Value.Bencode`, dispatching to the `Bencode` method of each variant. -/
def Value.Bencode : Value → List Nat
  | .int i => Int.Bencode i
  | .string s => String.Bencode s
  | .list l => [108] ++ List.bencodeItems l ++ [101]
  | .dict d => [100] ++ Dict.bencodeItems d.keys (Dict.bencodeMap d.m) ++ [101]
/-- The loop of `List.Bencode`. -/
def List.bencodeItems : List Value → List Nat
  | [] => []
  | v :: vs => v.Bencode ++ List.bencodeItems vs
/-- The `Bencode()` of every value of a mapping. -/
def Dict.bencodeMap : GoMap Value → GoMap (List Nat)
  | [] => []
  | (k, v) :: rest => (k, v.Bencode) :: Dict.bencodeMap rest
end

/-- `List.Bencode`. -/
def List.Bencode (l : List Value) : List Nat := (Value.list l).Bencode

/-- `Dict.Bencode`. -/
def Dict.Bencode (d : Dict) : List Nat := (Value.dict d).Bencode

/-! ## parser.go -/

/-- The struct `ErrSyntax`. -/
structure ErrSyntax where
  msg : List Nat
  pos : Int
  deriving DecidableEq

/-- The errors the parser returns: `io.EOF` (from `Peek`), the internal `errValueEnd`, and
`*ErrSyntax`. -/
inductive Error where
  | EOF
  | errValueEnd
  | ErrSyntax (e : ErrSyntax)
  deriving DecidableEq

/-- The struct `Parser`: `reader` holds the bytes not read yet, `offset` the byte counter. -/
structure Parser where
  reader : List Nat
  offset : Int
  deriving DecidableEq

/-- `NewParser` over a source that yields the bytes `r`. -/
def NewParser (r : List Nat) : Parser := { reader := r, offset := 0 }

/-- What a parsing method does: it returns `(v, nil)` (`ok`), returns `(v, err)` with a non-nil
`err` (`fail`; `v` is `none` for a nil `Value`), or panics in `make` (`panic`); `p` is the
parser afterwards. `outOfFuel` is the exhausted call budget of the embedding. -/
inductive Outcome where
  | ok (v : Value) (p : Parser)
  | fail (v : Option Value) (err : Error) (p : Parser)
  | panic
  | outOfFuel
  deriving DecidableEq

/-- `bufio.Reader.ReadString(delim)` on the unread bytes: the bytes up to and including the
first `delim`, whether `delim` was found (otherwise the error is non-nil and everything was
read), and the bytes left. -/
def ReadString (delim : Nat) : List Nat → List Nat × Bool × List Nat
  | [] => ([], false, [])
  | b :: bs =>
    if b = delim then ([b], true, bs)
    else
      let r := ReadString delim bs
      (b :: r.1, r.2.1, r.2.2)

/-- `skipDelimeter`: the error it returns (`none` for nil) and the parser afterwards. -/
def Parser.skipDelimeter (p : Parser) : Option Error × Parser :=
  match p.reader with
  | [] => (some (.ErrSyntax { pos := p.offset, msg := bytes "unexpected end of data" }), p)
  | b :: rest =>
    if b ≠ 105 ∧ b ≠ 108 ∧ b ≠ 100 then
      (some (.ErrSyntax { pos := p.offset, msg := bytes "unexpected token" }),
        { p with reader := rest })
    else if b = 101 then (some .errValueEnd, { reader := rest, offset := p.offset + 1 })
    else (none, { reader := rest, offset := p.offset + 1 })

/-- `parseEndOfValue`. -/
def Parser.parseEndOfValue (p : Parser) : Outcome :=
  match p.reader with
  | [] => .fail none (.ErrSyntax { pos := p.offset, msg := bytes "unexpected end of data" }) p
  | b :: rest =>
    if b ≠ 101 then
      .fail none (.ErrSyntax { pos := p.offset, msg := bytes "unexpected token" })
        { p with reader := rest }
    else .fail none .errValueEnd { reader := rest, offset := p.offset + 1 }

/-- `parseInt`. -/
def Parser.parseInt (p : Parser) : Outcome :=
  match p.skipDelimeter with
  | (some err, p1) => .fail (some (.int 0)) err p1
  | (none, p1) =>
    let r := ReadString 101 p1.reader
    let s := r.1
    let p2 : Parser := { reader := r.2.2, offset := p1.offset + s.length }
    if r.2.1 = false then
      .fail (some (.int 0))
        (.ErrSyntax { pos := p2.offset,
                      msg := bytes "cannot find the end delimeter of the integer" }) p2
    else
      let s := s.dropLast
      match strconv.ParseInt s with
      | none =>
        .fail (some (.int 0))
          (.ErrSyntax { pos := p2.offset,
                        msg := bytes "cannot parse '" ++ s ++ bytes "' as integer" }) p2
      | some i => .ok (.int i) p2

/-- `parseString`. `maxAlloc` is the largest length `make([]byte, length)` provides: for a
longer (or a negative) length `make` panics. -/
def Parser.parseString (maxAlloc : Nat) (p : Parser) : Outcome :=
  let r := ReadString 58 p.reader
  let p1 : Parser := { p with reader := r.2.2 }
  if r.2.1 = false then
    .fail (some (.string []))
      (.ErrSyntax { pos := p1.offset, msg := bytes "cannot find string length delimeter" }) p1
  else
    let s := r.1.dropLast
    match strconv.ParseInt s with
    | none =>
      .fail (some (.string []))
        (.ErrSyntax { pos := p1.offset,
                      msg := bytes "cannot parse string length '" ++ s ++ bytes "' as integer" })
        p1
    | some length =>
      let p2 : Parser := { p1 with offset := p1.offset + ((s.length + 1 : Nat) : Int) }
      if length < 0 ∨ (maxAlloc : Int) < length then .panic
      else if p2.reader.length < length.toNat then
        .fail (some (.string []))
          (.ErrSyntax { pos := p2.offset, msg := bytes "string length is wrong" })
          { p2 with reader := [] }
      else
        .ok (.string (p2.reader.take length.toNat))
          { reader := p2.reader.drop length.toNat, offset := p2.offset + length.toNat }

mutual
/-- `parseValue`: peek one byte and dispatch on it. -/
def Parser.parseValue (maxAlloc : Nat) : Nat → Parser → Outcome
  | 0, _ => .outOfFuel
  | fuel + 1, p =>
    match p.reader with
    | [] => .fail none .EOF p
    | b :: _ =>
      if b = 105 then p.parseInt
      else if b = 108 then Parser.parseList maxAlloc fuel p
      else if b = 100 then Parser.parseDict maxAlloc fuel p
      else if b = 101 then p.parseEndOfValue
      else if 48 ≤ b ∧ b ≤ 57 then p.parseString maxAlloc
      else .fail none (.ErrSyntax { pos := 0, msg := bytes "unexpected token" }) p
/-- `parseList`. -/
def Parser.parseList (maxAlloc : Nat) : Nat → Parser → Outcome
  | 0, _ => .outOfFuel
  | fuel + 1, p =>
    match p.skipDelimeter with
    | (some err, p1) => .fail (some (.list [])) err p1
    | (none, p1) => Parser.parseListLoop maxAlloc fuel [] p1
/-- The loop `ParseValuesLoop` of `parseList`, with the list built so far. -/
def Parser.parseListLoop (maxAlloc : Nat) : Nat → List Value → Parser → Outcome
  | 0, _, _ => .outOfFuel
  | fuel + 1, list, p =>
    match Parser.parseValue maxAlloc fuel p with
    | .ok item p1 => Parser.parseListLoop maxAlloc fuel (list ++ [item]) p1
    | .fail _ .errValueEnd p1 => .ok (.list list) p1
    | .fail _ err p1 => .fail (some (.list list)) err p1
    | .panic => .panic
    | .outOfFuel => .outOfFuel
/-- `parseDict`. -/
def Parser.parseDict (maxAlloc : Nat) : Nat → Parser → Outcome
  | 0, _ => .outOfFuel
  | fuel + 1, p =>
    match p.skipDelimeter with
    | (some err, p1) => .fail (some (.dict (NewDict []))) err p1
    | (none, p1) => Parser.parseDictLoop maxAlloc fuel (NewDict []) p1
/-- The loop `ParseItemsLoop` of `parseDict`, with the dict built so far. -/
def Parser.parseDictLoop (maxAlloc : Nat) : Nat → Dict → Parser → Outcome
  | 0, _, _ => .outOfFuel
  | fuel + 1, dict, p =>
    match Parser.parseValue maxAlloc fuel p with
    | .ok (.string key) p1 =>
      match Parser.parseValue maxAlloc fuel p1 with
      | .ok value p2 => Parser.parseDictLoop maxAlloc fuel (dict.Set key value) p2
      | .fail _ err p2 => .fail (some (.dict dict)) err p2
      | .panic => .panic
      | .outOfFuel => .outOfFuel
    | .ok _ p1 =>
      .fail (some (.dict dict))
        (.ErrSyntax { pos := p1.offset, msg := bytes "dict key is not a string" }) p1
    | .fail _ .errValueEnd p1 => .ok (.dict dict) p1
    | .fail _ err p1 => .fail (some (.dict dict)) err p1
    | .panic => .panic
    | .outOfFuel => .outOfFuel
end

/-- `Parser.Parse`: `parseValue` with a call budget that every input stays within
(three calls per unread byte, see `Parser.parseValue_fuel`). -/
def Parser.Parse (maxAlloc : Nat) (p : Parser) : Outcome :=
  p.parseValue maxAlloc (3 * p.reader.length + 1)

/-! ## Predicates the statements use -/

/-- A string the Go runtime can hold: its length fits `int` and is within what can be
allocated. -/
def validString (maxAlloc : Nat) (s : List Nat) : Bool :=
  decide (s.length ≤ maxAlloc ∧ s.length < 2 ^ 63)

mutual
/-- The trees that exist as Go values. An `Int` is a signed 64-bit integer, a `String` is a
string the runtime can hold, and a `Dict` is as `NewDict` and `Set` build it: no key twice in
the key sequence, and the mapping binds exactly the keys of the sequence (in the embedding the
bindings are kept in the order of the sequence). -/
def Value.Valid (maxAlloc : Nat) : Value → Bool
  | .int i => decide (-(2 : Int) ^ 63 ≤ i ∧ i < 2 ^ 63)
  | .string s => validString maxAlloc s
  | .list l => Value.ValidList maxAlloc l
  | .dict d =>
    decide (d.keys = d.m.map Prod.fst) && decide d.keys.Nodup && Value.ValidMap maxAlloc d.m
/-- Every tree of the list is valid. -/
def Value.ValidList (maxAlloc : Nat) : List Value → Bool
  | [] => true
  | v :: vs => v.Valid maxAlloc && Value.ValidList maxAlloc vs
/-- Every key of the mapping is a valid string and every value a valid tree. -/
def Value.ValidMap (maxAlloc : Nat) : List (List Nat × Value) → Bool
  | [] => true
  | (k, v) :: rest => validString maxAlloc k && v.Valid maxAlloc && Value.ValidMap maxAlloc rest
end

/-- The bytes `enc(k1) ++ enc(v1) ++ ... ++ enc(kn) ++ enc(vn)` of a sequence of pairs. -/
def bencodePairs : List (List Nat × Value) → List Nat
  | [] => []
  | (k, v) :: rest => String.Bencode k ++ v.Bencode ++ bencodePairs rest

/-- The consistency of a `Dict`: no key twice in the key sequence, and a key is in the
sequence exactly when the mapping binds it. -/
def Dict.Consistent (d : Dict) : Prop :=
  d.keys.Nodup ∧ ∀ key, key ∈ d.keys ↔ (d.Get key).isSome = true

mutual
/-- Every `Dict` of the tree, at any depth, is consistent. -/
def Value.DictsConsistent : Value → Prop
  | .int _ => True
  | .string _ => True
  | .list l => Value.DictsConsistentList l
  | .dict d => Dict.Consistent d ∧ Value.DictsConsistentMap d.m
/-- Every `Dict` in the trees of the list is consistent. -/
def Value.DictsConsistentList : List Value → Prop
  | [] => True
  | v :: vs => v.DictsConsistent ∧ Value.DictsConsistentList vs
/-- Every `Dict` in the values of the mapping is consistent. -/
def Value.DictsConsistentMap : List (List Nat × Value) → Prop
  | [] => True
  | (_, v) :: rest => v.DictsConsistent ∧ Value.DictsConsistentMap rest
end

/-- Every `Dict` of the value an outcome returns, with or without an error, is consistent. -/
def Outcome.DictsConsistent : Outcome → Prop
  | .ok v _ => v.DictsConsistent
  | .fail (some v) _ _ => v.DictsConsistent
  | _ => True

/-- The outcome of a call that started with `n` unread bytes has consumed input: a returned
value or the end-of-value signal left fewer than `n` bytes unread, any other error at most
`n`. -/
def Outcome.Consumed (o : Outcome) (n : Nat) : Prop :=
  match o with
  | .ok _ p => p.reader.length < n
  | .fail _ .errValueEnd p => p.reader.length < n
  | .fail _ _ p => p.reader.length ≤ n
  | _ => True

/-- The outcome of a call that started with `n` unread bytes left at most `n` unread. -/
def Outcome.Within (o : Outcome) (n : Nat) : Prop :=
  match o with
  | .ok _ p => p.reader.length ≤ n
  | .fail _ _ p => p.reader.length ≤ n
  | _ => True

/-- The value a text of decimal digits denotes. -/
def decimalValue (ds : List Nat) : Nat := ds.foldl (fun acc b => acc * 10 + (b - 48)) 0

/-- A non-empty text of decimal digits. -/
def IsDecimal (ds : List Nat) : Prop := ds ≠ [] ∧ ∀ b ∈ ds, 48 ≤ b ∧ b ≤ 57

/-- A decimal text without a superfluous leading zero: `0` itself, or digits that do not
start with `0`. -/
def IsCanonicalDecimal (ds : List Nat) : Prop :=
  IsDecimal ds ∧ (ds.head? = some 48 → ds = [48])

/-- The integer texts of the grammar `['-'] digit+`. -/
def IsIntText (s : List Nat) : Prop := IsDecimal s ∨ ∃ ds, s = 45 :: ds ∧ IsDecimal ds

/-- The integer texts `strconv.ParseInt` accepts, with the value `n` they denote: an optional
sign `+` or `-`, then decimal digits, the value within the signed 64-bit range. -/
def SignedDecimal (s : List Nat) (n : Int) : Prop :=
  ∃ sign ds, s = sign ++ ds ∧ (sign = [] ∨ sign = [43] ∨ sign = [45]) ∧ IsDecimal ds ∧
    n = (if sign = [45] then -(decimalValue ds : Int) else (decimalValue ds : Int)) ∧
    -(2 : Int) ^ 63 ≤ n ∧ n < 2 ^ 63

/-- The canonical integer texts of the grammar `['-'] digit+`: no `+`, no superfluous leading
zero, no `-0`; `n` is the value, within the signed 64-bit range. -/
def CanonicalIntText (s : List Nat) (n : Int) : Prop :=
  -(2 : Int) ^ 63 ≤ n ∧ n < 2 ^ 63 ∧
    ((IsCanonicalDecimal s ∧ n = (decimalValue s : Int)) ∨
      (∃ ds, s = 45 :: ds ∧ IsCanonicalDecimal ds ∧ ds ≠ [48] ∧ n = -(decimalValue ds : Int)))

/-- The wire form `digit+ ':' byte{length}` of the string `payload`, with a canonical length
text and a length the runtime can hold. -/
def CanonicalString (maxAlloc : Nat) (b payload : List Nat) : Prop :=
  ∃ ds, b = ds ++ 58 :: payload ∧ IsCanonicalDecimal ds ∧ decimalValue ds = payload.length ∧
    payload.length ≤ maxAlloc ∧ payload.length < 2 ^ 63

/-- The byte sequences of the grammar of the wire format in canonical form: integer and length
texts are canonical, every dict key is followed by a value, and no dict has a key twice (an
entry of a dict is the bytes of its key, the key, and the bytes of its value). -/
inductive Canonical (maxAlloc : Nat) : List Nat → Prop where
  | int (s : List Nat) (n : Int) (h : CanonicalIntText s n) :
      Canonical maxAlloc (105 :: (s ++ [101]))
  | string (b payload : List Nat) (h : CanonicalString maxAlloc b payload) :
      Canonical maxAlloc b
  | list (items : List (List Nat)) (h : ∀ b ∈ items, Canonical maxAlloc b) :
      Canonical maxAlloc (108 :: (items.flatten ++ [101]))
  | dict (entries : List (List Nat × List Nat × List Nat))
      (hk : ∀ e ∈ entries, CanonicalString maxAlloc e.1 e.2.1)
      (hv : ∀ e ∈ entries, Canonical maxAlloc e.2.2)
      (hnodup : (entries.map (fun e => e.2.1)).Nodup) :
      Canonical maxAlloc (100 :: ((entries.map (fun e => e.1 ++ e.2.2)).flatten ++ [101]))

/-! ## decode.go -/

/-- A field of a struct type: `Tag` is the value under the key `bencode` of the field tag
(`none` when the tag has no such key), `Exported` says whether the field of an addressable
struct can be set (`CanSet`), `Typ` is the field type. -/
structure StructFieldOf (τ : Type) where
  Tag : Option (List Nat)
  Exported : Bool
  Typ : τ

/-- A `reflect.Type`, as far as the decoder looks at it: the empty interface, `int64`,
`string`, `uint8`, slices, maps, structs, pointers, and any other kind (`other`, which also
stands for interfaces with methods). Defined types with these underlying types are not in
the universe. -/
inductive GoType where
  | iface
  | int64
  | string
  | uint8
  | slice (elem : GoType)
  | map (key elem : GoType)
  | struct (fields : List (StructFieldOf GoType))
  | ptr (elem : GoType)
  | other (kind : Nat)

mutual
/-- Equality of `GoType` is decidable. -/
def GoType.decEq : (a b : GoType) → Decidable (a = b)
  | .iface, .iface => isTrue rfl
  | .int64, .int64 => isTrue rfl
  | .string, .string => isTrue rfl
  | .uint8, .uint8 => isTrue rfl
  | .slice a, .slice b =>
    match GoType.decEq a b with
    | isTrue h => isTrue (by rw [h])
    | isFalse h => isFalse (by intro e; cases e; exact h rfl)
  | .map k a, .map k2 b =>
    match GoType.decEq k k2 with
    | isTrue hk =>
      match GoType.decEq a b with
      | isTrue h => isTrue (by rw [hk, h])
      | isFalse h => isFalse (by intro e; cases e; exact h rfl)
    | isFalse hk => isFalse (by intro e; cases e; exact hk rfl)
  | .struct a, .struct b =>
    match GoType.decEqFields a b with
    | isTrue h => isTrue (by rw [h])
    | isFalse h => isFalse (by intro e; cases e; exact h rfl)
  | .ptr a, .ptr b =>
    match GoType.decEq a b with
    | isTrue h => isTrue (by rw [h])
    | isFalse h => isFalse (by intro e; cases e; exact h rfl)
  | .other a, .other b =>
    if h : a = b then isTrue (by rw [h]) else isFalse (by intro e; cases e; exact h rfl)
  | .iface, .int64 => isFalse (by intro e; cases e)
  | .iface, .string => isFalse (by intro e; cases e)
  | .iface, .uint8 => isFalse (by intro e; cases e)
  | .iface, .slice _ => isFalse (by intro e; cases e)
  | .iface, .map _ _ => isFalse (by intro e; cases e)
  | .iface, .struct _ => isFalse (by intro e; cases e)
  | .iface, .ptr _ => isFalse (by intro e; cases e)
  | .iface, .other _ => isFalse (by intro e; cases e)
  | .int64, .iface => isFalse (by intro e; cases e)
  | .int64, .string => isFalse (by intro e; cases e)
  | .int64, .uint8 => isFalse (by intro e; cases e)
  | .int64, .slice _ => isFalse (by intro e; cases e)
  | .int64, .map _ _ => isFalse (by intro e; cases e)
  | .int64, .struct _ => isFalse (by intro e; cases e)
  | .int64, .ptr _ => isFalse (by intro e; cases e)
  | .int64, .other _ => isFalse (by intro e; cases e)
  | .string, .iface => isFalse (by intro e; cases e)
  | .string, .int64 => isFalse (by intro e; cases e)
  | .string, .uint8 => isFalse (by intro e; cases e)
  | .string, .slice _ => isFalse (by intro e; cases e)
  | .string, .map _ _ => isFalse (by intro e; cases e)
  | .string, .struct _ => isFalse (by intro e; cases e)
  | .string, .ptr _ => isFalse (by intro e; cases e)
  | .string, .other _ => isFalse (by intro e; cases e)
  | .uint8, .iface => isFalse (by intro e; cases e)
  | .uint8, .int64 => isFalse (by intro e; cases e)
  | .uint8, .string => isFalse (by intro e; cases e)
  | .uint8, .slice _ => isFalse (by intro e; cases e)
  | .uint8, .map _ _ => isFalse (by intro e; cases e)
  | .uint8, .struct _ => isFalse (by intro e; cases e)
  | .uint8, .ptr _ => isFalse (by intro e; cases e)
  | .uint8, .other _ => isFalse (by intro e; cases e)
  | .slice _, .iface => isFalse (by intro e; cases e)
  | .slice _, .int64 => isFalse (by intro e; cases e)
  | .slice _, .string => isFalse (by intro e; cases e)
  | .slice _, .uint8 => isFalse (by intro e; cases e)
  | .slice _, .map _ _ => isFalse (by intro e; cases e)
  | .slice _, .struct _ => isFalse (by intro e; cases e)
  | .slice _, .ptr _ => isFalse (by intro e; cases e)
  | .slice _, .other _ => isFalse (by intro e; cases e)
  | .map _ _, .iface => isFalse (by intro e; cases e)
  | .map _ _, .int64 => isFalse (by intro e; cases e)
  | .map _ _, .string => isFalse (by intro e; cases e)
  | .map _ _, .uint8 => isFalse (by intro e; cases e)
  | .map _ _, .slice _ => isFalse (by intro e; cases e)
  | .map _ _, .struct _ => isFalse (by intro e; cases e)
  | .map _ _, .ptr _ => isFalse (by intro e; cases e)
  | .map _ _, .other _ => isFalse (by intro e; cases e)
  | .struct _, .iface => isFalse (by intro e; cases e)
  | .struct _, .int64 => isFalse (by intro e; cases e)
  | .struct _, .string => isFalse (by intro e; cases e)
  | .struct _, .uint8 => isFalse (by intro e; cases e)
  | .struct _, .slice _ => isFalse (by intro e; cases e)
  | .struct _, .map _ _ => isFalse (by intro e; cases e)
  | .struct _, .ptr _ => isFalse (by intro e; cases e)
  | .struct _, .other _ => isFalse (by intro e; cases e)
  | .ptr _, .iface => isFalse (by intro e; cases e)
  | .ptr _, .int64 => isFalse (by intro e; cases e)
  | .ptr _, .string => isFalse (by intro e; cases e)
  | .ptr _, .uint8 => isFalse (by intro e; cases e)
  | .ptr _, .slice _ => isFalse (by intro e; cases e)
  | .ptr _, .map _ _ => isFalse (by intro e; cases e)
  | .ptr _, .struct _ => isFalse (by intro e; cases e)
  | .ptr _, .other _ => isFalse (by intro e; cases e)
  | .other _, .iface => isFalse (by intro e; cases e)
  | .other _, .int64 => isFalse (by intro e; cases e)
  | .other _, .string => isFalse (by intro e; cases e)
  | .other _, .uint8 => isFalse (by intro e; cases e)
  | .other _, .slice _ => isFalse (by intro e; cases e)
  | .other _, .map _ _ => isFalse (by intro e; cases e)
  | .other _, .struct _ => isFalse (by intro e; cases e)
  | .other _, .ptr _ => isFalse (by intro e; cases e)
/-- Equality of lists of struct fields is decidable. -/
def GoType.decEqFields : (a b : List (StructFieldOf GoType)) → Decidable (a = b)
  | [], [] => isTrue rfl
  | [], _ :: _ => isFalse (by intro e; cases e)
  | _ :: _, [] => isFalse (by intro e; cases e)
  | ⟨t, x, a⟩ :: as, ⟨t2, x2, b⟩ :: bs =>
    if ht : t = t2 then
      if hx : x = x2 then
        match GoType.decEq a b with
        | isTrue h =>
          match GoType.decEqFields as bs with
          | isTrue h2 => isTrue (by rw [ht, hx, h, h2])
          | isFalse h2 => isFalse (by intro e; cases e; exact h2 rfl)
        | isFalse h => isFalse (by intro e; cases e; exact h rfl)
      else isFalse (by intro e; cases e; exact hx rfl)
    else isFalse (by intro e; cases e; exact ht rfl)
end

instance : DecidableEq GoType := GoType.decEq

abbrev StructField := StructFieldOf GoType

/-- A value of a destination: `ifaceNil`/`iface` are the empty interface without and with a
dynamic value, `mapNil` is the nil map, `map` holds the entries of an allocated map, `other`
is a value of a kind the decoder does not look into (a pointer, a number of another kind). A
nil slice is an empty `slice`. A slice holds its elements and a map its entries: the value
stands for a destination none of whose backing arrays and maps is shared (`MemValue` and
`Memory` are the destinations with sharing). -/
inductive GoValue where
  | ifaceNil
  | iface (dyn : GoValue)
  | int64 (n : Int)
  | string (s : List Nat)
  | uint8 (b : Nat)
  | slice (elems : List GoValue)
  | mapNil
  | map (entries : List (GoValue × GoValue))
  | struct (fields : List GoValue)
  | other (id : Nat)

mutual
/-- Equality of `GoValue` is decidable. -/
def GoValue.decEq : (a b : GoValue) → Decidable (a = b)
  | .ifaceNil, .ifaceNil => isTrue rfl
  | .mapNil, .mapNil => isTrue rfl
  | .iface a, .iface b =>
    match GoValue.decEq a b with
    | isTrue h => isTrue (by rw [h])
    | isFalse h => isFalse (by intro e; cases e; exact h rfl)
  | .int64 a, .int64 b =>
    if h : a = b then isTrue (by rw [h]) else isFalse (by intro e; cases e; exact h rfl)
  | .string a, .string b =>
    if h : a = b then isTrue (by rw [h]) else isFalse (by intro e; cases e; exact h rfl)
  | .uint8 a, .uint8 b =>
    if h : a = b then isTrue (by rw [h]) else isFalse (by intro e; cases e; exact h rfl)
  | .other a, .other b =>
    if h : a = b then isTrue (by rw [h]) else isFalse (by intro e; cases e; exact h rfl)
  | .slice a, .slice b =>
    match GoValue.decEqList a b with
    | isTrue h => isTrue (by rw [h])
    | isFalse h => isFalse (by intro e; cases e; exact h rfl)
  | .struct a, .struct b =>
    match GoValue.decEqList a b with
    | isTrue h => isTrue (by rw [h])
    | isFalse h => isFalse (by intro e; cases e; exact h rfl)
  | .map a, .map b =>
    match GoValue.decEqEntries a b with
    | isTrue h => isTrue (by rw [h])
    | isFalse h => isFalse (by intro e; cases e; exact h rfl)
  | .ifaceNil, .iface _ => isFalse (by intro e; cases e)
  | .ifaceNil, .int64 _ => isFalse (by intro e; cases e)
  | .ifaceNil, .string _ => isFalse (by intro e; cases e)
  | .ifaceNil, .uint8 _ => isFalse (by intro e; cases e)
  | .ifaceNil, .slice _ => isFalse (by intro e; cases e)
  | .ifaceNil, .mapNil => isFalse (by intro e; cases e)
  | .ifaceNil, .map _ => isFalse (by intro e; cases e)
  | .ifaceNil, .struct _ => isFalse (by intro e; cases e)
  | .ifaceNil, .other _ => isFalse (by intro e; cases e)
  | .iface _, .ifaceNil => isFalse (by intro e; cases e)
  | .iface _, .int64 _ => isFalse (by intro e; cases e)
  | .iface _, .string _ => isFalse (by intro e; cases e)
  | .iface _, .uint8 _ => isFalse (by intro e; cases e)
  | .iface _, .slice _ => isFalse (by intro e; cases e)
  | .iface _, .mapNil => isFalse (by intro e; cases e)
  | .iface _, .map _ => isFalse (by intro e; cases e)
  | .iface _, .struct _ => isFalse (by intro e; cases e)
  | .iface _, .other _ => isFalse (by intro e; cases e)
  | .int64 _, .ifaceNil => isFalse (by intro e; cases e)
  | .int64 _, .iface _ => isFalse (by intro e; cases e)
  | .int64 _, .string _ => isFalse (by intro e; cases e)
  | .int64 _, .uint8 _ => isFalse (by intro e; cases e)
  | .int64 _, .slice _ => isFalse (by intro e; cases e)
  | .int64 _, .mapNil => isFalse (by intro e; cases e)
  | .int64 _, .map _ => isFalse (by intro e; cases e)
  | .int64 _, .struct _ => isFalse (by intro e; cases e)
  | .int64 _, .other _ => isFalse (by intro e; cases e)
  | .string _, .ifaceNil => isFalse (by intro e; cases e)
  | .string _, .iface _ => isFalse (by intro e; cases e)
  | .string _, .int64 _ => isFalse (by intro e; cases e)
  | .string _, .uint8 _ => isFalse (by intro e; cases e)
  | .string _, .slice _ => isFalse (by intro e; cases e)
  | .string _, .mapNil => isFalse (by intro e; cases e)
  | .string _, .map _ => isFalse (by intro e; cases e)
  | .string _, .struct _ => isFalse (by intro e; cases e)
  | .string _, .other _ => isFalse (by intro e; cases e)
  | .uint8 _, .ifaceNil => isFalse (by intro e; cases e)
  | .uint8 _, .iface _ => isFalse (by intro e; cases e)
  | .uint8 _, .int64 _ => isFalse (by intro e; cases e)
  | .uint8 _, .string _ => isFalse (by intro e; cases e)
  | .uint8 _, .slice _ => isFalse (by intro e; cases e)
  | .uint8 _, .mapNil => isFalse (by intro e; cases e)
  | .uint8 _, .map _ => isFalse (by intro e; cases e)
  | .uint8 _, .struct _ => isFalse (by intro e; cases e)
  | .uint8 _, .other _ => isFalse (by intro e; cases e)
  | .slice _, .ifaceNil => isFalse (by intro e; cases e)
  | .slice _, .iface _ => isFalse (by intro e; cases e)
  | .slice _, .int64 _ => isFalse (by intro e; cases e)
  | .slice _, .string _ => isFalse (by intro e; cases e)
  | .slice _, .uint8 _ => isFalse (by intro e; cases e)
  | .slice _, .mapNil => isFalse (by intro e; cases e)
  | .slice _, .map _ => isFalse (by intro e; cases e)
  | .slice _, .struct _ => isFalse (by intro e; cases e)
  | .slice _, .other _ => isFalse (by intro e; cases e)
  | .mapNil, .ifaceNil => isFalse (by intro e; cases e)
  | .mapNil, .iface _ => isFalse (by intro e; cases e)
  | .mapNil, .int64 _ => isFalse (by intro e; cases e)
  | .mapNil, .string _ => isFalse (by intro e; cases e)
  | .mapNil, .uint8 _ => isFalse (by intro e; cases e)
  | .mapNil, .slice _ => isFalse (by intro e; cases e)
  | .mapNil, .map _ => isFalse (by intro e; cases e)
  | .mapNil, .struct _ => isFalse (by intro e; cases e)
  | .mapNil, .other _ => isFalse (by intro e; cases e)
  | .map _, .ifaceNil => isFalse (by intro e; cases e)
  | .map _, .iface _ => isFalse (by intro e; cases e)
  | .map _, .int64 _ => isFalse (by intro e; cases e)
  | .map _, .string _ => isFalse (by intro e; cases e)
  | .map _, .uint8 _ => isFalse (by intro e; cases e)
  | .map _, .slice _ => isFalse (by intro e; cases e)
  | .map _, .mapNil => isFalse (by intro e; cases e)
  | .map _, .struct _ => isFalse (by intro e; cases e)
  | .map _, .other _ => isFalse (by intro e; cases e)
  | .struct _, .ifaceNil => isFalse (by intro e; cases e)
  | .struct _, .iface _ => isFalse (by intro e; cases e)
  | .struct _, .int64 _ => isFalse (by intro e; cases e)
  | .struct _, .string _ => isFalse (by intro e; cases e)
  | .struct _, .uint8 _ => isFalse (by intro e; cases e)
  | .struct _, .slice _ => isFalse (by intro e; cases e)
  | .struct _, .mapNil => isFalse (by intro e; cases e)
  | .struct _, .map _ => isFalse (by intro e; cases e)
  | .struct _, .other _ => isFalse (by intro e; cases e)
  | .other _, .ifaceNil => isFalse (by intro e; cases e)
  | .other _, .iface _ => isFalse (by intro e; cases e)
  | .other _, .int64 _ => isFalse (by intro e; cases e)
  | .other _, .string _ => isFalse (by intro e; cases e)
  | .other _, .uint8 _ => isFalse (by intro e; cases e)
  | .other _, .slice _ => isFalse (by intro e; cases e)
  | .other _, .mapNil => isFalse (by intro e; cases e)
  | .other _, .map _ => isFalse (by intro e; cases e)
  | .other _, .struct _ => isFalse (by intro e; cases e)
/-- Equality of lists of values is decidable. -/
def GoValue.decEqList : (a b : List GoValue) → Decidable (a = b)
  | [], [] => isTrue rfl
  | [], _ :: _ => isFalse (by intro e; cases e)
  | _ :: _, [] => isFalse (by intro e; cases e)
  | a :: as, b :: bs =>
    match GoValue.decEq a b with
    | isTrue h =>
      match GoValue.decEqList as bs with
      | isTrue h2 => isTrue (by rw [h, h2])
      | isFalse h2 => isFalse (by intro e; cases e; exact h2 rfl)
    | isFalse h => isFalse (by intro e; cases e; exact h rfl)
/-- Equality of lists of map entries is decidable. -/
def GoValue.decEqEntries : (a b : List (GoValue × GoValue)) → Decidable (a = b)
  | [], [] => isTrue rfl
  | [], _ :: _ => isFalse (by intro e; cases e)
  | _ :: _, [] => isFalse (by intro e; cases e)
  | (k, a) :: as, (k2, b) :: bs =>
    match GoValue.decEq k k2 with
    | isTrue hk =>
      match GoValue.decEq a b with
      | isTrue h =>
        match GoValue.decEqEntries as bs with
        | isTrue h2 => isTrue (by rw [hk, h, h2])
        | isFalse h2 => isFalse (by intro e; cases e; exact h2 rfl)
      | isFalse h => isFalse (by intro e; cases e; exact h rfl)
    | isFalse hk => isFalse (by intro e; cases e; exact hk rfl)
end

instance : DecidableEq GoValue := GoValue.decEq

/-- The elements of a slice value. -/
def GoValue.elems : GoValue → List GoValue
  | .slice es => es
  | _ => []

/-- The entries of a map value; a nil map has none. -/
def GoValue.entries : GoValue → List (GoValue × GoValue)
  | .map es => es
  | _ => []

/-- The field values of a struct value. -/
def GoValue.fieldValues : GoValue → List GoValue
  | .struct fs => fs
  | _ => []

/-- Whether a map key is the string `k`. -/
def GoValue.isString (k : List Nat) : GoValue → Bool
  | .string s => decide (s = k)
  | _ => false

/-- `SetMapIndex(key, elem)` for a string key: the entry of the key is replaced. -/
def SetMapIndex (entries : List (GoValue × GoValue)) (key : List Nat) (elem : GoValue) :
    List (GoValue × GoValue) :=
  entries.filter (fun e => !(e.1.isString key)) ++ [(.string key, elem)]

mutual
/-- The zero value of a type (`reflect.Zero`, the elements of `reflect.MakeSlice`, the target
of `reflect.New`). -/
def GoType.zero : GoType → GoValue
  | .iface => .ifaceNil
  | .int64 => .int64 0
  | .string => .string []
  | .uint8 => .uint8 0
  | .slice _ => .slice []
  | .map _ _ => .mapNil
  | .struct fields => .struct (GoType.zeroFields fields)
  | .ptr _ => .other 0
  | .other _ => .other 0
/-- The zero values of the fields of a struct type. -/
def GoType.zeroFields : List (StructFieldOf GoType) → List GoValue
  | [] => []
  | ⟨_, _, ty⟩ :: fs => ty.zero :: GoType.zeroFields fs
end

mutual
/-- `Value.Interface`: the native value of a tree: `int64`, `string`, `[]interface{}` and
`map[string]interface{}`. -/
def Value.Interface : Value → GoValue
  | .int i => .int64 i
  | .string s => .string s
  | .list l => .slice (Value.InterfaceList l)
  | .dict d => .map (Value.InterfaceMap d.m)
/-- The loop of `List.Interface`. -/
def Value.InterfaceList : List Value → List GoValue
  | [] => []
  | v :: vs => .iface v.Interface :: Value.InterfaceList vs
/-- The loop of `Dict.Interface`, over the mapping. -/
def Value.InterfaceMap : List (List Nat × Value) → List (GoValue × GoValue)
  | [] => []
  | (k, v) :: rest => (.string k, .iface v.Interface) :: Value.InterfaceMap rest
end

/-- The type name `%T` prints for a tree. -/
def Value.typeName : Value → List Nat
  | .int _ => bytes "bencode.Int"
  | .string _ => bytes "bencode.String"
  | .list _ => bytes "bencode.List"
  | .dict _ => bytes "*bencode.Dict"

/-- The errors of the decoder: `*ErrInvalidArgument` with its type `t` (`none` for a nil
`reflect.Type`), an error of the parser passed on, and the errors `fmt.Errorf` builds:
`typeError src dst` is "trying to put `src` into `dst`" (`src` as `%T` prints it),
`mapKeyError` is "map keys must be of type string, not ..." with the key type, `fieldError` is
"struct field must be settable, i.e. exported". -/
inductive DecodeError where
  | ErrInvalidArgument (t : Option GoType)
  | parse (err : Error)
  | typeError (src dst : List Nat)
  | mapKeyError (key : GoType)
  | fieldError
  deriving DecidableEq

/-- `putInt`: the error and the destination afterwards. -/
def Decoder.putInt (dst : GoValue) (src : Value) : Option DecodeError × GoValue :=
  match src with
  | .int i => (none, .int64 i)
  | _ => (some (.typeError src.typeName (bytes "int")), dst)

/-- `putString`. -/
def Decoder.putString (dst : GoValue) (src : Value) : Option DecodeError × GoValue :=
  match src with
  | .string s => (none, .string s)
  | _ => (some (.typeError src.typeName (bytes "string")), dst)

/-- `putBencode`. -/
def Decoder.putBencode (_dst : GoValue) (src : Value) : Option DecodeError × GoValue :=
  (none, .slice (src.Bencode.map GoValue.uint8))

/-- The loop `for i, v := range l` of `putSlice`: `put` of `v` into the element at its index;
the error `put` returns is dropped. -/
def Decoder.putSliceLoop (putElem : GoValue → Value → Option DecodeError × GoValue) :
    List Value → List GoValue → List GoValue
  | [], elems => elems
  | _ :: _, [] => []
  | v :: vs, e :: elems => (putElem e v).2 :: Decoder.putSliceLoop putElem vs elems

/-- `putSlice`, with `put` for the element type and the zero value of the element type. -/
def Decoder.putSlice (putElem : GoValue → Value → Option DecodeError × GoValue)
    (zeroElem : GoValue) (dst : GoValue) (src : Value) : Option DecodeError × GoValue :=
  match src with
  | .list l =>
    let dif : Int := (l.length : Int) - (dst.elems.length : Int)
    let elems := if dif > 0 then dst.elems ++ List.replicate dif.toNat zeroElem else dst.elems
    (none, .slice (Decoder.putSliceLoop putElem l elems))
  | _ => (some (.typeError src.typeName (bytes "slice")), dst)

/-- The loop `for k, v := range dict.m` of `putMap`: `put` of `v` into a new element, which is
stored under the key; the error `put` returns is dropped. -/
def Decoder.putMapLoop (putElem : GoValue → Value → Option DecodeError × GoValue)
    (zeroElem : GoValue) : List (List Nat × Value) → List (GoValue × GoValue) →
    List (GoValue × GoValue)
  | [], entries => entries
  | (k, v) :: rest, entries =>
    Decoder.putMapLoop putElem zeroElem rest (SetMapIndex entries k (putElem zeroElem v).2)

/-- `putMap`, with the key type, and `put` and the zero value for the element type. -/
def Decoder.putMap (key : GoType) (putElem : GoValue → Value → Option DecodeError × GoValue)
    (zeroElem : GoValue) (dst : GoValue) (src : Value) : Option DecodeError × GoValue :=
  match key with
  | .string =>
    match src with
    | .dict dict => (none, .map (Decoder.putMapLoop putElem zeroElem dict.m dst.entries))
    | _ => (some (.typeError src.typeName (bytes "map")), dst)
  | _ => (some (.mapKeyError key), dst)

mutual
/-- `put`: dispatch on the kind of the destination, whose type is `ty`. -/
def Decoder.put : GoType → GoValue → Value → Option DecodeError × GoValue
  | .iface, _, src => (none, .iface src.Interface)
  | .int64, dst, src => Decoder.putInt dst src
  | .string, dst, src => Decoder.putString dst src
  | .slice .uint8, dst, src => Decoder.putBencode dst src
  | .slice elem, dst, src => Decoder.putSlice (Decoder.put elem) elem.zero dst src
  | .map key elem, dst, src => Decoder.putMap key (Decoder.put elem) elem.zero dst src
  | .struct fields, dst, src =>
    match src with
    | .dict dict =>
      let r := Decoder.putStructFields fields dst.fieldValues dict
      (r.1, .struct r.2)
    | _ => (some (.typeError src.typeName (bytes "struct")), dst)
  | .uint8, dst, _ => (none, dst)
  | .ptr _, dst, _ => (none, dst)
  | .other _, dst, _ => (none, dst)
/-- The loop over the fields of `putStruct`, from field `i` on: the field types left and the
field values left. -/
def Decoder.putStructFields :
    List (StructFieldOf GoType) → List GoValue → Dict → Option DecodeError × List GoValue
  | [], vals, _ => (none, vals)
  | _ :: _, [], _ => (none, [])
  | ⟨tag, exported, ty⟩ :: fs, field :: vals, dict =>
    if exported = false then (some .fieldError, field :: vals)
    else
      match dict.Get (tag.getD []) with
      | some value =>
        match Decoder.put ty field value with
        | (some err, field1) => (some err, field1 :: vals)
        | (none, field1) =>
          let r := Decoder.putStructFields fs vals dict
          (r.1, field1 :: r.2)
      | none =>
        let r := Decoder.putStructFields fs vals dict
        (r.1, field :: r.2)
end

/-- The argument `i interface{}` of `Decode` and `Unmarshal`: the nil interface, a value that
is not a pointer, a nil pointer to a `ty`, or a pointer to a variable of type `ty` that holds
`v`. -/
inductive Destination where
  | nil
  | value (ty : GoType) (v : GoValue)
  | nilPtr (ty : GoType)
  | ptr (ty : GoType) (v : GoValue)
  deriving DecidableEq

/-- `reflect.TypeOf(i)`. -/
def Destination.TypeOf : Destination → Option GoType
  | .nil => none
  | .value ty _ => some ty
  | .nilPtr ty => some (.ptr ty)
  | .ptr ty _ => some (.ptr ty)

/-- What `Decode` does: it returns `err` (`none` for nil) and leaves the destination as `i`,
or it panics; `outOfFuel` is the exhausted call budget of the parser embedding. -/
inductive DecodeResult where
  | ret (err : Option DecodeError) (i : Destination)
  | panic
  | outOfFuel
  deriving DecidableEq

/-- The struct `Decoder`, with its parser. -/
structure Decoder where
  parser : Parser

/-- `NewDecoder` over a source that yields the bytes `r`. -/
def NewDecoder (r : List Nat) : Decoder := { parser := NewParser r }

/-- `Decoder.Decode`: the destination has to be a non-nil pointer; then the data is parsed and
the tree is put into what the pointer points to. -/
def Decoder.Decode (maxAlloc : Nat) (d : Decoder) (i : Destination) : DecodeResult :=
  match i with
  | .ptr ty rv =>
    match d.parser.Parse maxAlloc with
    | .ok v _ =>
      let r := Decoder.put ty rv v
      .ret r.1 (.ptr ty r.2)
    | .fail _ err _ => .ret (some (.parse err)) i
    | .panic => .panic
    | .outOfFuel => .outOfFuel
  | _ => .ret (some (.ErrInvalidArgument i.TypeOf)) i

/-- `Unmarshal`. -/
def Unmarshal (maxAlloc : Nat) (data : List Nat) (i : Destination) : DecodeResult :=
  (NewDecoder data).Decode maxAlloc i


/-! ## Measures of the recursion of the parser -/

mutual
/-- The nesting depth of a `parseValue` call: the largest number of `parseValue` calls that
are nested inside it at once, which is the number of lists and dicts open at the deepest
point. The functions follow the calls of `parseValue`, `parseList`, `parseDict` and their
loops. -/
def Parser.parseValueNesting (maxAlloc : Nat) : Nat → Parser → Nat
  | 0, _ => 0
  | fuel + 1, p =>
    match p.reader with
    | [] => 0
    | b :: _ =>
      if b = 105 then 0
      else if b = 108 then Parser.parseListNesting maxAlloc fuel p
      else if b = 100 then Parser.parseDictNesting maxAlloc fuel p
      else 0
/-- The nesting depth below a `parseList` call. -/
def Parser.parseListNesting (maxAlloc : Nat) : Nat → Parser → Nat
  | 0, _ => 0
  | fuel + 1, p =>
    match p.skipDelimeter with
    | (some _, _) => 0
    | (none, p1) => Parser.parseListLoopNesting maxAlloc fuel p1
/-- The nesting depth below the loop of `parseList`: each iteration calls `parseValue`. -/
def Parser.parseListLoopNesting (maxAlloc : Nat) : Nat → Parser → Nat
  | 0, _ => 0
  | fuel + 1, p =>
    match Parser.parseValue maxAlloc fuel p with
    | .ok _ p1 =>
      max (Parser.parseValueNesting maxAlloc fuel p + 1)
        (Parser.parseListLoopNesting maxAlloc fuel p1)
    | _ => Parser.parseValueNesting maxAlloc fuel p + 1
/-- The nesting depth below a `parseDict` call. -/
def Parser.parseDictNesting (maxAlloc : Nat) : Nat → Parser → Nat
  | 0, _ => 0
  | fuel + 1, p =>
    match p.skipDelimeter with
    | (some _, _) => 0
    | (none, p1) => Parser.parseDictLoopNesting maxAlloc fuel p1
/-- The nesting depth below the loop of `parseDict`: each iteration calls `parseValue` for
the key and, after a string key, for the value. -/
def Parser.parseDictLoopNesting (maxAlloc : Nat) : Nat → Parser → Nat
  | 0, _ => 0
  | fuel + 1, p =>
    match Parser.parseValue maxAlloc fuel p with
    | .ok (.string _) p1 =>
      match Parser.parseValue maxAlloc fuel p1 with
      | .ok _ p2 =>
        max (max (Parser.parseValueNesting maxAlloc fuel p + 1)
            (Parser.parseValueNesting maxAlloc fuel p1 + 1))
          (Parser.parseDictLoopNesting maxAlloc fuel p2)
      | _ =>
        max (Parser.parseValueNesting maxAlloc fuel p + 1)
          (Parser.parseValueNesting maxAlloc fuel p1 + 1)
    | _ => Parser.parseValueNesting maxAlloc fuel p + 1
end

/-- The number of iterations the loop of `parseList` runs from `p`: one for each item and
one for the `parseValue` call that ends the loop. -/
def Parser.parseListLoopIterations (maxAlloc : Nat) : Nat → Parser → Nat
  | 0, _ => 0
  | fuel + 1, p =>
    match Parser.parseValue maxAlloc fuel p with
    | .ok _ p1 => Parser.parseListLoopIterations maxAlloc fuel p1 + 1
    | _ => 1

/-- The number of iterations the loop of `parseDict` runs from `p`: one for each pair and
one for the iteration that ends the loop. -/
def Parser.parseDictLoopIterations (maxAlloc : Nat) : Nat → Parser → Nat
  | 0, _ => 0
  | fuel + 1, p =>
    match Parser.parseValue maxAlloc fuel p with
    | .ok (.string _) p1 =>
      match Parser.parseValue maxAlloc fuel p1 with
      | .ok _ p2 => Parser.parseDictLoopIterations maxAlloc fuel p2 + 1
      | _ => 1
    | _ => 1

/-- The number of iterations of the loop a `parseList` call runs. -/
def Parser.parseListIterations (maxAlloc : Nat) : Nat → Parser → Nat
  | 0, _ => 0
  | fuel + 1, p =>
    match p.skipDelimeter with
    | (some _, _) => 0
    | (none, p1) => Parser.parseListLoopIterations maxAlloc fuel p1

/-- The number of iterations of the loop a `parseDict` call runs. -/
def Parser.parseDictIterations (maxAlloc : Nat) : Nat → Parser → Nat
  | 0, _ => 0
  | fuel + 1, p =>
    match p.skipDelimeter with
    | (some _, _) => 0
    | (none, p1) => Parser.parseDictLoopIterations maxAlloc fuel p1


/-! ## decode.go, with the destination in memory

`GoValue` is a destination as a value: it cannot say that two slices share a backing array, or
that two map values are the same map. The decoder writes the elements of a slice in place
(`dst.Index(i)`) and the entries of a map that is not nil into that map (`dst.SetMapIndex`),
so with a shared array or map a write through one reference shows through the other. The
definitions below embed `put` and its helpers once more, over a memory of backing arrays and
map objects, in which such sharing exists. -/

/-- A value as it lies in a variable, an array element or a struct field. A slice is its
header: the backing array (its address), the offset of the first element in it, the length
and the capacity; a nil slice has length and capacity 0 and its array is not looked at. A
map is nil or the address of a map object. A struct holds its fields in place. The dynamic
value of an interface is kept as a value: `put` replaces it and never writes through it. -/
inductive MemValue where
  | ifaceNil
  | iface (dyn : GoValue)
  | int64 (n : Int)
  | string (s : List Nat)
  | uint8 (b : Nat)
  | slice (array off len cap : Nat)
  | mapNil
  | map (id : Nat)
  | struct (fields : List MemValue)
  | other (id : Nat)

/-- The memory: the backing arrays and the map objects, each under its address (its position
in the list). A variable is an array of one element. -/
structure Memory where
  arrays : List (List MemValue)
  maps : List (List (GoValue × MemValue))

/-- An addressable location (what an addressable `reflect.Value` refers to): an element of
an array, or the field reached from it through the field indices of `path`. -/
structure Loc where
  array : Nat
  index : Nat
  path : List Nat

/-- `Field(i)` of a struct location. -/
def Loc.Field (loc : Loc) (i : Nat) : Loc := { loc with path := loc.path ++ [i] }

/-- The fields of a struct in memory. -/
def MemValue.fieldValues : MemValue → List MemValue
  | .struct fs => fs
  | _ => []

/-- The part of a value under a path of field indices. -/
def MemValue.load : List Nat → MemValue → MemValue
  | [], c => c
  | i :: p, c => MemValue.load p (c.fieldValues.getD i (.other 0))

/-- A value with the part under a path of field indices replaced. -/
def MemValue.store : List Nat → MemValue → MemValue → MemValue
  | [], _, v => v
  | i :: p, c, v =>
    match c with
    | .struct fs => .struct (fs.set i (MemValue.store p (fs.getD i (.other 0)) v))
    | _ => c

/-- The array at an address (empty if there is none). -/
def Memory.array (m : Memory) (a : Nat) : List MemValue := m.arrays.getD a []

/-- The map object at an address (empty if there is none). -/
def Memory.mapAt (m : Memory) (id : Nat) : List (GoValue × MemValue) := m.maps.getD id []

/-- The value at a location. -/
def Memory.load (m : Memory) (loc : Loc) : MemValue :=
  MemValue.load loc.path ((m.array loc.array).getD loc.index (.other 0))

/-- The memory after a write to a location (`Set`, `SetInt`, `SetString`). -/
def Memory.store (m : Memory) (loc : Loc) (v : MemValue) : Memory :=
  { m with
    arrays := m.arrays.set loc.array
      ((m.array loc.array).set loc.index
        (MemValue.store loc.path ((m.array loc.array).getD loc.index (.other 0)) v)) }

/-- The memory with one more array, which gets the next address. -/
def Memory.alloc (m : Memory) (arr : List MemValue) : Memory :=
  { m with arrays := m.arrays ++ [arr] }

/-- The elements of a slice: the `len` cells of its array from `off` on. -/
def Memory.elems (m : Memory) : MemValue → List MemValue
  | .slice a off len _ => ((m.array a).drop off).take len
  | _ => []

/-- `Len()` of a slice. -/
def MemValue.Len : MemValue → Nat
  | .slice _ _ len _ => len
  | _ => 0

/-- `Index(i)` of the slice at a location: the location of its `i`-th element. (`reflect`
panics when `i` is not below the length; the loop of `putSlice` starts when the slice has at
least `len(l)` elements and asks for indices below `len(l)` only.) -/
def Memory.Index (m : Memory) (loc : Loc) (i : Nat) : Loc :=
  match m.load loc with
  | .slice a off _ _ => { array := a, index := off + i, path := [] }
  | _ => { array := m.arrays.length, index := 0, path := [] }

mutual
/-- The zero value of a type, in memory. -/
def GoType.zeroMem : GoType → MemValue
  | .iface => .ifaceNil
  | .int64 => .int64 0
  | .string => .string []
  | .uint8 => .uint8 0
  | .slice _ => .slice 0 0 0 0
  | .map _ _ => .mapNil
  | .struct fields => .struct (GoType.zeroMemFields fields)
  | .ptr _ => .other 0
  | .other _ => .other 0
/-- The zero values of the fields of a struct type, in memory. -/
def GoType.zeroMemFields : List (StructFieldOf GoType) → List MemValue
  | [] => []
  | ⟨_, _, ty⟩ :: fs => ty.zeroMem :: GoType.zeroMemFields fs
end

/-- `dst.Set(reflect.AppendSlice(dst, ext))` for the slice at `loc` and an `ext` of `n` zero
elements. With enough capacity the zero elements are written into the backing array behind
the slice; otherwise a new array is allocated, with the elements of the slice, the zero
elements and the spare capacity `grow cap (len + n)` the runtime adds (`growslice`). The new
header is stored at `loc`. -/
def Memory.AppendSlice (grow : Nat → Nat → Nat) (m : Memory) (loc : Loc) (n : Nat)
    (zero : MemValue) : Memory :=
  match m.load loc with
  | .slice a off len cap =>
    if len + n ≤ cap then
      Memory.store
        { m with
          arrays := m.arrays.set a
            ((m.array a).take (off + len) ++ List.replicate n zero ++
              (m.array a).drop (off + len + n)) }
        loc (.slice a off (len + n) cap)
    else
      (m.alloc (((m.array a).drop off).take len ++
          List.replicate (n + grow cap (len + n)) zero)).store loc
        (.slice m.arrays.length 0 (len + n) (len + n + grow cap (len + n)))
  | _ => m

/-- `dst.SetMapIndex(key, elem)` for the map at `loc` and a string key: the entry of the key
in the map object is replaced. -/
def Memory.SetMapIndex (m : Memory) (loc : Loc) (key : List Nat) (elem : MemValue) : Memory :=
  match m.load loc with
  | .map id =>
    { m with
      maps := m.maps.set id
        ((m.mapAt id).filter (fun e => !(e.1.isString key)) ++ [(.string key, elem)]) }
  | _ => m

/-- The loop `for i, v := range l` of `putSlice`, from index `i` on: `put` of `v` into
`dst.Index(i)`; the error `put` returns is dropped. -/
def Decoder.putSliceAtLoop (putElem : Memory → Loc → Value → Option DecodeError × Memory)
    (loc : Loc) : List Value → Nat → Memory → Memory
  | [], _, m => m
  | v :: vs, i, m =>
    Decoder.putSliceAtLoop putElem loc vs (i + 1) (putElem m (m.Index loc i) v).2

/-- `putSlice` on the slice at `loc`, with `put` for the element type and the zero value of
the element type. -/
def Decoder.putSliceAt (grow : Nat → Nat → Nat)
    (putElem : Memory → Loc → Value → Option DecodeError × Memory) (zeroElem : MemValue)
    (m : Memory) (loc : Loc) (src : Value) : Option DecodeError × Memory :=
  match src with
  | .list l =>
    let dif : Int := (l.length : Int) - ((m.load loc).Len : Int)
    let m1 := if dif > 0 then m.AppendSlice grow loc dif.toNat zeroElem else m
    (none, Decoder.putSliceAtLoop putElem loc l 0 m1)
  | _ => (some (.typeError src.typeName (bytes "slice")), m)

/-- The loop `for k, v := range dict.m` of `putMap`: `reflect.New` allocates a variable for
the element, `put` of `v` goes into it, and what it holds then is stored under the key; the
error `put` returns is dropped. -/
def Decoder.putMapAtLoop (putElem : Memory → Loc → Value → Option DecodeError × Memory)
    (zeroElem : MemValue) (loc : Loc) : List (List Nat × Value) → Memory → Memory
  | [], m => m
  | (k, v) :: rest, m =>
    let elem : Loc := { array := m.arrays.length, index := 0, path := [] }
    let m1 := (putElem (m.alloc [zeroElem]) elem v).2
    Decoder.putMapAtLoop putElem zeroElem loc rest (m1.SetMapIndex loc k (m1.load elem))

/-- `putMap` on the map at `loc`: a nil map is replaced by a new, empty map object first. -/
def Decoder.putMapAt (key : GoType)
    (putElem : Memory → Loc → Value → Option DecodeError × Memory) (zeroElem : MemValue)
    (m : Memory) (loc : Loc) (src : Value) : Option DecodeError × Memory :=
  match key with
  | .string =>
    match src with
    | .dict dict =>
      let m1 :=
        match m.load loc with
        | .map _ => m
        | _ => Memory.store { m with maps := m.maps ++ [[]] } loc (.map m.maps.length)
      (none, Decoder.putMapAtLoop putElem zeroElem loc dict.m m1)
    | _ => (some (.typeError src.typeName (bytes "map")), m)
  | _ => (some (.mapKeyError key), m)

mutual
/-- `put` on the destination of type `ty` at `loc`: the error and the memory afterwards.
`putBencode` stores the header of a new array that holds the bytes. -/
def Decoder.putAt (grow : Nat → Nat → Nat) :
    GoType → Memory → Loc → Value → Option DecodeError × Memory
  | .iface, m, loc, src => (none, m.store loc (.iface src.Interface))
  | .int64, m, loc, src =>
    match src with
    | .int i => (none, m.store loc (.int64 i))
    | _ => (some (.typeError src.typeName (bytes "int")), m)
  | .string, m, loc, src =>
    match src with
    | .string s => (none, m.store loc (.string s))
    | _ => (some (.typeError src.typeName (bytes "string")), m)
  | .slice .uint8, m, loc, src =>
    (none,
      (m.alloc (src.Bencode.map MemValue.uint8 ++
          List.replicate (grow 0 src.Bencode.length) (.uint8 0))).store loc
        (.slice m.arrays.length 0 src.Bencode.length
          (src.Bencode.length + grow 0 src.Bencode.length)))
  | .slice elem, m, loc, src =>
    Decoder.putSliceAt grow (Decoder.putAt grow elem) elem.zeroMem m loc src
  | .map key elem, m, loc, src =>
    Decoder.putMapAt key (Decoder.putAt grow elem) elem.zeroMem m loc src
  | .struct fields, m, loc, src =>
    match src with
    | .dict dict => Decoder.putStructFieldsAt grow fields 0 m loc dict
    | _ => (some (.typeError src.typeName (bytes "struct")), m)
  | .uint8, m, _, _ => (none, m)
  | .ptr _, m, _, _ => (none, m)
  | .other _, m, _, _ => (none, m)
/-- The loop over the fields of `putStruct`, from field `i` on. -/
def Decoder.putStructFieldsAt (grow : Nat → Nat → Nat) :
    List (StructFieldOf GoType) → Nat → Memory → Loc → Dict → Option DecodeError × Memory
  | [], _, m, _, _ => (none, m)
  | ⟨tag, exported, ty⟩ :: fs, i, m, loc, dict =>
    if exported = false then (some .fieldError, m)
    else
      match dict.Get (tag.getD []) with
      | some value =>
        match Decoder.putAt grow ty m (loc.Field i) value with
        | (some err, m1) => (some err, m1)
        | (none, m1) => Decoder.putStructFieldsAt grow fs (i + 1) m1 loc dict
      | none => Decoder.putStructFieldsAt grow fs (i + 1) m loc dict
end

/-! ### What the memory holds, as a value -/

/-- The value of a cell of a kind that holds no reference. -/
def MemValue.toGoValue : MemValue → GoValue
  | .ifaceNil => .ifaceNil
  | .iface d => .iface d
  | .int64 n => .int64 n
  | .string s => .string s
  | .uint8 b => .uint8 b
  | .mapNil => .mapNil
  | .other id => .other id
  | _ => .other 0

mutual
/-- The value a cell of type `ty` holds: slices and maps are followed into the memory. -/
def Memory.view (m : Memory) : GoType → MemValue → GoValue
  | .slice elem, c => .slice ((m.elems c).map (Memory.view m elem))
  | .map _ elem, c =>
    match c with
    | .map id => .map ((m.mapAt id).map (fun e => (e.1, Memory.view m elem e.2)))
    | _ => .mapNil
  | .struct fields, c => .struct (Memory.viewFields m fields c.fieldValues)
  | .iface, c => c.toGoValue
  | .int64, c => c.toGoValue
  | .string, c => c.toGoValue
  | .uint8, c => c.toGoValue
  | .ptr _, c => c.toGoValue
  | .other _, c => c.toGoValue
/-- The values the fields of a struct hold. -/
def Memory.viewFields (m : Memory) : List (StructFieldOf GoType) → List MemValue → List GoValue
  | [], _ => []
  | _ :: _, [] => []
  | ⟨_, _, ty⟩ :: fs, c :: cs => Memory.view m ty c :: Memory.viewFields m fs cs
end

/-- The address of a backing array or of a map object. -/
inductive Addr where
  | array (a : Nat)
  | map (id : Nat)
  deriving DecidableEq

mutual
/-- The backing arrays and map objects a cell of type `ty` reaches, each as often as it is
reached: the array of a slice that is not nil and what its elements reach, a map object and
what its values reach, what the fields of a struct reach. -/
def Memory.reach (m : Memory) : GoType → MemValue → List Addr
  | .slice elem, c =>
    match c with
    | .slice a _ len cap =>
      if len = 0 ∧ cap = 0 then [] else .array a :: (m.elems c).flatMap (Memory.reach m elem)
    | _ => []
  | .map _ elem, c =>
    match c with
    | .map id => .map id :: (m.mapAt id).flatMap (fun e => Memory.reach m elem e.2)
    | _ => []
  | .struct fields, c => Memory.reachFields m fields c.fieldValues
  | .iface, _ => []
  | .int64, _ => []
  | .string, _ => []
  | .uint8, _ => []
  | .ptr _, _ => []
  | .other _, _ => []
/-- What the fields of a struct reach. -/
def Memory.reachFields (m : Memory) : List (StructFieldOf GoType) → List MemValue → List Addr
  | [], _ => []
  | _ :: _, [] => []
  | ⟨_, _, ty⟩ :: fs, c :: cs => Memory.reach m ty c ++ Memory.reachFields m fs cs
end

mutual
/-- A cell of type `ty` is well formed: a slice lies within its array, with its length within
its capacity, a map object exists, a struct has the fields of its type, and the same holds
of the elements, the map values and the fields. -/
def Memory.WellFormed (m : Memory) : GoType → MemValue → Bool
  | .slice elem, c =>
    match c with
    | .slice a off len cap =>
      decide (len ≤ cap) &&
        (decide (cap = 0) ||
          (decide (a < m.arrays.length) && decide (off + cap ≤ (m.array a).length))) &&
        (m.elems c).all (Memory.WellFormed m elem)
    | _ => false
  | .map _ elem, c =>
    match c with
    | .map id =>
      decide (id < m.maps.length) && (m.mapAt id).all (fun e => Memory.WellFormed m elem e.2)
    | .mapNil => true
    | _ => false
  | .struct fields, c =>
    match c with
    | .struct cs => Memory.WellFormedFields m fields cs
    | _ => false
  | .iface, _ => true
  | .int64, _ => true
  | .string, _ => true
  | .uint8, _ => true
  | .ptr _, _ => true
  | .other _, _ => true
/-- The fields of a struct are well formed, and as many as the type has. -/
def Memory.WellFormedFields (m : Memory) : List (StructFieldOf GoType) → List MemValue → Bool
  | [], [] => true
  | [], _ :: _ => false
  | _ :: _, [] => false
  | ⟨_, _, ty⟩ :: fs, c :: cs => Memory.WellFormed m ty c && Memory.WellFormedFields m fs cs
end

/-- A path of field indices leads to a field of the value. -/
def MemValue.HasPath : List Nat → MemValue → Bool
  | [], _ => true
  | i :: p, c => decide (i < c.fieldValues.length) &&
      MemValue.HasPath p (c.fieldValues.getD i (.other 0))

/-- A location exists in the memory. -/
def Memory.Valid (m : Memory) (loc : Loc) : Bool :=
  decide (loc.array < m.arrays.length) && decide (loc.index < (m.array loc.array).length) &&
    MemValue.HasPath loc.path ((m.array loc.array).getD loc.index (.other 0))

/-- The destination of type `ty` at `loc` shares no storage: it is well formed, no backing
array and no map object is reached twice from it, and the array it lies in is not among the
arrays it reaches. -/
def Memory.Separated (m : Memory) (ty : GoType) (loc : Loc) : Bool :=
  m.Valid loc && m.WellFormed ty (m.load loc) &&
    decide ((m.reach ty (m.load loc)).Nodup) &&
    decide (Addr.array loc.array ∉ m.reach ty (m.load loc))

/-! ### How the memory after a call relates to the memory before -/

/-- The memory has an array, or a map object, at the address. -/
def Memory.Has (m : Memory) : Addr → Prop
  | .array a => a < m.arrays.length
  | .map id => id < m.maps.length

/-- Two memories hold the same at the address. -/
def Memory.SameAt (m m2 : Memory) : Addr → Prop
  | .array a => m2.array a = m.array a
  | .map id => m2.mapAt id = m.mapAt id

/-- The memory `m2` comes from `m` by a write to the destination at `loc` that owns the
arrays and map objects `own`: nothing is freed; what lies outside `own` and outside the array
of `loc` is as before; and in the array of `loc` only the part at `loc` is written. -/
structure Memory.Frame (m m2 : Memory) (loc : Loc) (own : List Addr) : Prop where
  grows : ∀ x, m.Has x → m2.Has x
  same : ∀ x, m.Has x → x ∉ own → x ≠ .array loc.array → m.SameAt m2 x
  cell : m2.array loc.array =
    (m.array loc.array).set loc.index
      (MemValue.store loc.path ((m.array loc.array).getD loc.index (.other 0)) (m2.load loc))

/-- On a destination of type `ty` that shares no storage, `putAt` (on the memory) does what
`put` (on the value) does: the same error, and the destination holds afterwards the value
`put` returns; the write stays within the destination and what it allocates; and the
destination shares no storage afterwards, made of storage it had or that is new. -/
def Decoder.Refines (ty : GoType)
    (putAt : Memory → Loc → Value → Option DecodeError × Memory)
    (put : GoValue → Value → Option DecodeError × GoValue) : Prop :=
  ∀ (m : Memory) (loc : Loc) (src : Value), m.Separated ty loc = true →
    (putAt m loc src).1 = (put (m.view ty (m.load loc)) src).1 ∧
    (putAt m loc src).2.view ty ((putAt m loc src).2.load loc) =
      (put (m.view ty (m.load loc)) src).2 ∧
    m.Frame (putAt m loc src).2 loc (m.reach ty (m.load loc)) ∧
    (putAt m loc src).2.Separated ty loc = true ∧
    ∀ x ∈ (putAt m loc src).2.reach ty ((putAt m loc src).2.load loc),
      x ∈ m.reach ty (m.load loc) ∨ ¬ m.Has x


/-- The value the destination of type `ty` at `loc` holds. -/
def Memory.value (m : Memory) (ty : GoType) (loc : Loc) : GoValue := m.view ty (m.load loc)

/-- A memory with a variable that holds `v` (array 0) and the backing arrays `arrays` (from
address 1 on), without map objects. -/
def Memory.ofVar (v : MemValue) (arrays : List (List MemValue)) : Memory :=
  { arrays := [v] :: arrays, maps := [] }

/-- The location of the variable of `Memory.ofVar`. -/
def Loc.var : Loc := { array := 0, index := 0, path := [] }

/-- The fields of the type `TestStruct` of the test `Some complex case` of
`TestUnmarshalIntoStruct`. -/
def TestStruct : List StructField :=
  [⟨some (bytes "a"), true, .int64⟩, ⟨some (bytes "b"), true, .string⟩,
    ⟨some (bytes "c"), true, .slice .string⟩, ⟨some (bytes "d"), true, .map .string .string⟩,
    ⟨some (bytes "e"), true, .struct [⟨some (bytes "a"), true, .int64⟩]⟩]

/-- The tree of the input of that test,
`d1:ai1e1:b4:spam1:cl4:spam4:eggse1:dd4:spam4:eggse1:ed1:ai42eee`. -/
def TestStructInput : Dict :=
  NewDict [⟨bytes "a", .int 1⟩, ⟨bytes "b", .string (bytes "spam")⟩,
    ⟨bytes "c", .list [.string (bytes "spam"), .string (bytes "eggs")]⟩,
    ⟨bytes "d", .dict (NewDict [⟨bytes "spam", .string (bytes "eggs")⟩])⟩,
    ⟨bytes "e", .dict (NewDict [⟨bytes "a", .int 42⟩])⟩]

namespace strconv

theorem isDigit_iff (b : Nat) : isDigit b = true ↔ 48 ≤ b ∧ b ≤ 57 := by
  simp [isDigit]

theorem isDigit_digitByte (d : Nat) (h : d < 10) : isDigit (digitByte d) = true := by
  simp [isDigit, digitByte]; omega

theorem digitVal_digitByte (d : Nat) : digitVal (digitByte d) = d := by
  simp [digitVal, digitByte]

theorem digitByte_digitVal (b : Nat) (h : isDigit b = true) : digitByte (digitVal b) = b := by
  simp [isDigit] at h; simp [digitVal, digitByte]; omega

theorem digitVal_lt (b : Nat) (h : isDigit b = true) : digitVal b < 10 := by
  simp [isDigit] at h; simp [digitVal]; omega

theorem parseDigits_append (l1 l2 : List Nat) (acc : Nat) :
    parseDigits (l1 ++ l2) acc = (parseDigits l1 acc).bind (fun a => parseDigits l2 a) := by
  induction l1 generalizing acc with
  | nil => simp [parseDigits]
  | cons b bs ih =>
    simp only [List.cons_append, parseDigits]
    split
    · exact ih _
    · simp

theorem digitsRev_small (fuel n : Nat) (h : n < 10) : digitsRev (fuel + 1) n = [digitByte n] := by
  simp [digitsRev, h]

theorem digitsRev_big (fuel n : Nat) (h : 10 ≤ n) :
    digitsRev (fuel + 1) n = digitByte (n % 10) :: digitsRev fuel (n / 10) := by
  simp [digitsRev]; omega

theorem digitsRev_fuel (f1 f2 n : Nat) (h1 : n < f1) (h2 : n < f2) :
    digitsRev f1 n = digitsRev f2 n := by
  induction f1 generalizing f2 n with
  | zero => omega
  | succ f1 ih =>
    cases f2 with
    | zero => omega
    | succ f2 =>
      by_cases hn : n < 10
      · rw [digitsRev_small _ _ hn, digitsRev_small _ _ hn]
      · rw [digitsRev_big _ _ (by omega), digitsRev_big _ _ (by omega)]
        rw [ih f2 (n / 10) (by omega) (by omega)]

theorem FormatUint_small (n : Nat) (h : n < 10) : FormatUint n = [digitByte n] := by
  simp [FormatUint, digitsRev_small _ _ h]

theorem FormatUint_big (n : Nat) (h : 10 ≤ n) :
    FormatUint n = FormatUint (n / 10) ++ [digitByte (n % 10)] := by
  simp only [FormatUint]
  rw [digitsRev_big _ _ h, List.reverse_cons]
  rw [digitsRev_fuel n (n / 10 + 1) (n / 10) (by omega) (by omega)]

theorem FormatUint_step (n d : Nat) (hn : 0 < n) (hd : d < 10) :
    FormatUint (n * 10 + d) = FormatUint n ++ [digitByte d] := by
  rw [FormatUint_big _ (by omega)]
  have h1 : (n * 10 + d) / 10 = n := by omega
  have h2 : (n * 10 + d) % 10 = d := by omega
  rw [h1, h2]

theorem FormatUint_digits (n : Nat) : ∀ b ∈ FormatUint n, isDigit b = true := by
  induction n using Nat.strong_induction_on with
  | _ n ih =>
    by_cases hn : n < 10
    · rw [FormatUint_small _ hn]
      intro b hb
      simp at hb
      rw [hb]; exact isDigit_digitByte _ hn
    · rw [FormatUint_big _ (by omega)]
      intro b hb
      rw [List.mem_append] at hb
      rcases hb with hb | hb
      · exact ih (n / 10) (by omega) b hb
      · simp at hb
        rw [hb]; exact isDigit_digitByte _ (by omega)

theorem FormatUint_ne_nil (n : Nat) : FormatUint n ≠ [] := by
  by_cases hn : n < 10
  · rw [FormatUint_small _ hn]; simp
  · rw [FormatUint_big _ (by omega)]; simp

theorem parseDigits_FormatUint (n : Nat) : parseDigits (FormatUint n) 0 = some n := by
  induction n using Nat.strong_induction_on with
  | _ n ih =>
    by_cases hn : n < 10
    · rw [FormatUint_small _ hn]
      simp [parseDigits, isDigit_digitByte _ hn, digitVal_digitByte]
    · rw [FormatUint_big _ (by omega), parseDigits_append, ih (n / 10) (by omega)]
      simp [parseDigits, isDigit_digitByte (n % 10) (by omega), digitVal_digitByte]
      omega

/-- The first digit of the decimal text of a positive number is not `0`. -/
theorem FormatUint_head (n : Nat) (hn : 0 < n) : (FormatUint n).head? ≠ some 48 := by
  induction n using Nat.strong_induction_on with
  | _ n ih =>
    by_cases h : n < 10
    · rw [FormatUint_small _ h]
      simp [digitByte]; omega
    · rw [FormatUint_big _ (by omega)]
      have := ih (n / 10) (by omega) (by omega)
      have hne := FormatUint_ne_nil (n / 10)
      cases hf : FormatUint (n / 10) with
      | nil => exact absurd hf hne
      | cons a as => rw [hf] at this; simpa using this

theorem FormatUint_zero : FormatUint 0 = [48] := by decide

/-- A decimal text without a superfluous leading zero is the text `FormatUint` gives its
value. -/
theorem FormatUint_of_parseDigits (ds : List Nat) :
    ds ≠ [] → (∀ b ∈ ds, isDigit b = true) → (ds.head? = some 48 → ds = [48]) →
    ∀ n, parseDigits ds 0 = some n → FormatUint n = ds := by
  induction ds using List.reverseRecOn with
  | nil => intro h; exact absurd rfl h
  | append_singleton ds d ih =>
    intro _ hdig hhead n hn
    have hd : isDigit d = true := hdig d (by simp)
    rw [parseDigits_append] at hn
    cases ds with
    | nil =>
      simp [parseDigits, hd] at hn
      subst hn
      rw [FormatUint_small _ (digitVal_lt d hd), digitByte_digitVal d hd]
      rfl
    | cons a as =>
      have hne : (a :: as) ≠ [] := by simp
      have ha : a ≠ 48 := by
        intro h
        have := hhead (by simp [h])
        simp at this
      cases hp : parseDigits (a :: as) 0 with
      | none => rw [hp] at hn; simp at hn
      | some n1 =>
        rw [hp] at hn
        simp [parseDigits, hd] at hn
        have h1 := ih hne (fun b hb => hdig b (by simp at hb ⊢; tauto))
          (by intro h; simp at h; exact absurd h ha) n1 hp
        have hn1 : 0 < n1 := by
          rcases Nat.eq_zero_or_pos n1 with h0 | h0
          · rw [h0, FormatUint_zero] at h1
            simp at h1
            exact absurd h1.1.symm ha
          · exact h0
        subst hn
        rw [FormatUint_step n1 _ hn1 (digitVal_lt d hd), h1, digitByte_digitVal d hd]

end strconv
namespace strconv

theorem ParseInt_FormatInt (i : Int) (h1 : -(2 : Int) ^ 63 ≤ i) (h2 : i < 2 ^ 63) :
    ParseInt (FormatInt i) = some i := by
  unfold FormatInt
  split
  · rename_i hneg
    have hne := FormatUint_ne_nil i.natAbs
    cases hf : FormatUint i.natAbs with
    | nil => exact absurd hf hne
    | cons a as =>
      have hp := parseDigits_FormatUint i.natAbs
      rw [hf] at hp
      simp only [ParseInt]
      simp [hp]
      exact ⟨by omega, by rw [abs_of_neg hneg]; omega⟩
  · rename_i hneg
    have hne := FormatUint_ne_nil i.toNat
    have hdig := FormatUint_digits i.toNat
    cases hf : FormatUint i.toNat with
    | nil => exact absurd hf hne
    | cons a as =>
      have hp := parseDigits_FormatUint i.toNat
      rw [hf] at hp hdig
      have ha : isDigit a = true := hdig a (by simp)
      rw [isDigit_iff] at ha
      have h43 : a ≠ 43 := by omega
      have h45 : a ≠ 45 := by omega
      simp only [ParseInt]
      simp [h43, h45, hp]
      omega

/-- The text of an integer holds a sign or digits only. -/
theorem FormatInt_bytes (i : Int) : ∀ b ∈ FormatInt i, b = 45 ∨ (48 ≤ b ∧ b ≤ 57) := by
  intro b hb
  unfold FormatInt at hb
  split at hb
  · simp at hb
    rcases hb with hb | hb
    · exact Or.inl hb
    · exact Or.inr ((isDigit_iff b).1 (FormatUint_digits _ b hb))
  · exact Or.inr ((isDigit_iff b).1 (FormatUint_digits _ b hb))

end strconv

theorem ReadString_found (d : Nat) (s rest : List Nat) (h : d ∉ s) :
    ReadString d (s ++ d :: rest) = (s ++ [d], true, rest) := by
  induction s with
  | nil => simp [ReadString]
  | cons a as ih =>
    have ha : a ≠ d := by intro e; exact h (by simp [e])
    have has : d ∉ as := by intro e; exact h (by simp [e])
    simp [ReadString, ha, ih has]

theorem ReadString_missing (d : Nat) (s : List Nat) (h : d ∉ s) :
    ReadString d s = (s, false, []) := by
  induction s with
  | nil => simp [ReadString]
  | cons a as ih =>
    have ha : a ≠ d := by intro e; exact h (by simp [e])
    have has : d ∉ as := by intro e; exact h (by simp [e])
    simp [ReadString, ha, ih has]

/-- What `parseInt` does on `i`, a text without `e`, and `e`. -/
theorem parseInt_eq (s rest : List Nat) (off : Int) (h : 101 ∉ s) :
    Parser.parseInt { reader := 105 :: (s ++ 101 :: rest), offset := off } =
      match strconv.ParseInt s with
      | some i => .ok (.int i) { reader := rest, offset := off + 1 + ((s.length + 1 : Nat) : Int) }
      | none =>
        .fail (some (.int 0))
          (.ErrSyntax { pos := off + 1 + ((s.length + 1 : Nat) : Int),
                        msg := bytes "cannot parse '" ++ s ++ bytes "' as integer" })
          { reader := rest, offset := off + 1 + ((s.length + 1 : Nat) : Int) } := by
  simp only [Parser.parseInt, Parser.skipDelimeter]
  simp [ReadString_found 101 s rest h]
  try (cases strconv.ParseInt s <;> simp)

/-- What `parseString` does on a text without `:`, then `:`, then a payload. -/
theorem parseString_eq (maxAlloc : Nat) (ds payload : List Nat) (off : Int) (h : 58 ∉ ds) :
    Parser.parseString maxAlloc { reader := ds ++ 58 :: payload, offset := off } =
      match strconv.ParseInt ds with
      | none =>
        .fail (some (.string []))
          (.ErrSyntax { pos := off,
                        msg := bytes "cannot parse string length '" ++ ds ++
                          bytes "' as integer" })
          { reader := payload, offset := off }
      | some length =>
        if length < 0 ∨ (maxAlloc : Int) < length then .panic
        else if payload.length < length.toNat then
          .fail (some (.string []))
            (.ErrSyntax { pos := off + ((ds.length + 1 : Nat) : Int),
                          msg := bytes "string length is wrong" })
            { reader := [], offset := off + ((ds.length + 1 : Nat) : Int) }
        else
          .ok (.string (payload.take length.toNat))
            { reader := payload.drop length.toNat,
              offset := off + ((ds.length + 1 : Nat) : Int) + (length.toNat : Int) } := by
  simp only [Parser.parseString]
  simp [ReadString_found 58 ds payload h]


theorem parseValue_int (maxAlloc fuel : Nat) (r : List Nat) (off : Int) :
    Parser.parseValue maxAlloc (fuel + 1) { reader := 105 :: r, offset := off } =
      Parser.parseInt { reader := 105 :: r, offset := off } := by
  simp [Parser.parseValue]

theorem parseValue_list (maxAlloc fuel : Nat) (r : List Nat) (off : Int) :
    Parser.parseValue maxAlloc (fuel + 2) { reader := 108 :: r, offset := off } =
      Parser.parseListLoop maxAlloc fuel [] { reader := r, offset := off + 1 } := by
  simp [Parser.parseValue, Parser.parseList, Parser.skipDelimeter]

theorem parseValue_dict (maxAlloc fuel : Nat) (r : List Nat) (off : Int) :
    Parser.parseValue maxAlloc (fuel + 2) { reader := 100 :: r, offset := off } =
      Parser.parseDictLoop maxAlloc fuel (NewDict []) { reader := r, offset := off + 1 } := by
  simp [Parser.parseValue, Parser.parseDict, Parser.skipDelimeter]

theorem parseValue_end (maxAlloc fuel : Nat) (r : List Nat) (off : Int) :
    Parser.parseValue maxAlloc (fuel + 1) { reader := 101 :: r, offset := off } =
      .fail none .errValueEnd { reader := r, offset := off + 1 } := by
  simp [Parser.parseValue, Parser.parseEndOfValue]

theorem parseValue_digit (maxAlloc fuel b : Nat) (r : List Nat) (off : Int)
    (hb : 48 ≤ b ∧ b ≤ 57) :
    Parser.parseValue maxAlloc (fuel + 1) { reader := b :: r, offset := off } =
      Parser.parseString maxAlloc { reader := b :: r, offset := off } := by
  have h1 : b ≠ 105 := by omega
  have h2 : b ≠ 108 := by omega
  have h3 : b ≠ 100 := by omega
  have h4 : b ≠ 101 := by omega
  simp [Parser.parseValue, h1, h2, h3, h4, hb]

theorem FormatInt_natCast (n : Nat) : strconv.FormatInt (n : Int) = strconv.FormatUint n := by
  simp [strconv.FormatInt]

theorem Int_Bencode_eq (i : Int) : Int.Bencode i = 105 :: (strconv.FormatInt i ++ [101]) := by
  simp [Int.Bencode, strconv.AppendInt]

theorem String_Bencode_eq (s : List Nat) :
    String.Bencode s = strconv.FormatUint s.length ++ 58 :: s := by
  simp [String.Bencode, strconv.AppendInt, FormatInt_natCast]

theorem parseValue_Int_Bencode (maxAlloc fuel : Nat) (i : Int) (rest : List Nat) (off : Int)
    (h1 : -(2 : Int) ^ 63 ≤ i) (h2 : i < 2 ^ 63) :
    Parser.parseValue maxAlloc (fuel + 1) { reader := Int.Bencode i ++ rest, offset := off } =
      .ok (.int i) { reader := rest, offset := off + ((Int.Bencode i).length : Int) } := by
  have hnot : 101 ∉ strconv.FormatInt i := by
    intro h
    have := strconv.FormatInt_bytes i 101 h
    omega
  rw [Int_Bencode_eq]
  simp only [List.cons_append, List.append_assoc, List.singleton_append]
  rw [parseValue_int, parseInt_eq _ _ _ hnot, strconv.ParseInt_FormatInt i h1 h2]
  simp
  omega

theorem parseValue_String_Bencode (maxAlloc fuel : Nat) (s rest : List Nat) (off : Int)
    (hs : validString maxAlloc s = true) :
    Parser.parseValue maxAlloc (fuel + 1) { reader := String.Bencode s ++ rest, offset := off } =
      .ok (.string s) { reader := rest, offset := off + ((String.Bencode s).length : Int) } := by
  simp only [validString, decide_eq_true_eq] at hs
  have hdig := strconv.FormatUint_digits s.length
  have hnot : 58 ∉ strconv.FormatUint s.length := by
    intro h
    have := (strconv.isDigit_iff 58).1 (hdig 58 h)
    omega
  have hparse : strconv.ParseInt (strconv.FormatUint s.length) = some (s.length : Int) := by
    have := strconv.ParseInt_FormatInt (s.length : Int) (by omega) (by omega)
    rwa [FormatInt_natCast] at this
  rw [String_Bencode_eq]
  have hne := strconv.FormatUint_ne_nil s.length
  cases hf : strconv.FormatUint s.length with
  | nil => exact absurd hf hne
  | cons a as =>
    rw [hf] at hdig hnot hparse
    have ha := (strconv.isDigit_iff a).1 (hdig a (by simp))
    simp only [List.cons_append, List.append_assoc]
    rw [parseValue_digit _ _ _ _ _ ha]
    have := parseString_eq maxAlloc (a :: as) (s ++ rest) off hnot
    simp only [List.cons_append] at this
    rw [this, hparse]
    have hno : ¬ (((s.length : Nat) : Int) < 0 ∨ (maxAlloc : Int) < ((s.length : Nat) : Int)) := by
      omega
    simp only [hno, if_false]
    simp
    omega


theorem Value.Bencode_length_pos (t : Value) : 2 ≤ t.Bencode.length := by
  cases t with
  | int i =>
    rw [Value.Bencode, Int_Bencode_eq]
    simp
  | string s =>
    rw [Value.Bencode, String_Bencode_eq]
    have := strconv.FormatUint_ne_nil s.length
    cases hf : strconv.FormatUint s.length with
    | nil => exact absurd hf this
    | cons a as => simp; omega
  | list l => rw [Value.Bencode]; simp
  | dict d => rw [Value.Bencode]; simp

theorem GoMap.get_bencodeMap_append (pre suf : List (List Nat × Value)) (k : List Nat)
    (v : Value) (h : k ∉ pre.map Prod.fst) :
    GoMap.get (Dict.bencodeMap (pre ++ (k, v) :: suf)) k = some v.Bencode := by
  induction pre with
  | nil => simp [Dict.bencodeMap, GoMap.get]
  | cons e pre ih =>
    obtain ⟨k1, v1⟩ := e
    simp only [List.map_cons, List.mem_cons, not_or] at h
    have hk : k1 ≠ k := fun e => h.1 e.symm
    simp [Dict.bencodeMap, GoMap.get, hk, ih h.2]

theorem Dict.bencodeItems_eq (pre suf : List (List Nat × Value))
    (h : ((pre ++ suf).map Prod.fst).Nodup) :
    Dict.bencodeItems (suf.map Prod.fst) (Dict.bencodeMap (pre ++ suf)) = bencodePairs suf := by
  induction suf generalizing pre with
  | nil => simp [Dict.bencodeItems, bencodePairs]
  | cons e suf ih =>
    obtain ⟨k, v⟩ := e
    have hk : k ∉ pre.map Prod.fst := by
      rw [List.map_append, List.nodup_append] at h
      intro hmem
      exact h.2.2 hmem (by simp)
    have h2 : ((pre ++ [(k, v)] ++ suf).map Prod.fst).Nodup := by simpa using h
    have := ih (pre ++ [(k, v)]) h2
    simp only [List.append_assoc, List.singleton_append] at this
    simp only [List.map_cons, Dict.bencodeItems, bencodePairs,
      GoMap.get_bencodeMap_append pre suf k v hk, this]

theorem GoMap.get_eq_none {α : Type} (m : List (List Nat × α)) (k : List Nat)
    (h : k ∉ m.map Prod.fst) : GoMap.get m k = none := by
  induction m with
  | nil => simp [GoMap.get]
  | cons e m ih =>
    obtain ⟨k1, v1⟩ := e
    simp only [List.map_cons, List.mem_cons, not_or] at h
    have hk : k1 ≠ k := fun e => h.1 e.symm
    simp [GoMap.get, hk, ih h.2]

theorem GoMap.set_fresh {α : Type} (m : List (List Nat × α)) (k : List Nat) (v : α)
    (h : k ∉ m.map Prod.fst) : GoMap.set m k v = m ++ [(k, v)] := by
  simp only [GoMap.set, List.append_cancel_right_eq, List.filter_eq_self]
  intro e he
  simp only [ne_eq, decide_not, Bool.not_eq_eq_eq_not, Bool.not_true, decide_eq_false_iff_not]
  intro hek
  exact h (by rw [← hek]; exact List.mem_map_of_mem _ he)

/-- Setting the pairs of a duplicate-free sequence one after the other builds the `Dict` that
has them in that order. -/
theorem foldl_Set_fresh (pre suf : List (List Nat × Value))
    (h : ((pre ++ suf).map Prod.fst).Nodup) :
    suf.foldl (fun d e => Dict.Set d e.1 e.2) { keys := pre.map Prod.fst, m := pre } =
      ({ keys := (pre ++ suf).map Prod.fst, m := pre ++ suf } : Dict) := by
  induction suf generalizing pre with
  | nil => simp
  | cons e suf ih =>
    obtain ⟨k, v⟩ := e
    have hk : k ∉ pre.map Prod.fst := by
      rw [List.map_append, List.nodup_append] at h
      intro hmem
      exact h.2.2 hmem (by simp)
    have h2 : ((pre ++ [(k, v)] ++ suf).map Prod.fst).Nodup := by simpa using h
    have := ih (pre ++ [(k, v)]) h2
    simp only [List.foldl_cons, Dict.Set, GoMap.get_eq_none pre k hk, GoMap.set_fresh pre k v hk]
    simp only [List.map_append, List.map_cons, List.map_nil, List.append_assoc,
      List.singleton_append] at this ⊢
    exact this

mutual
/-- Parsing the encoding of a valid tree gives the tree back and leaves what follows. -/
theorem parseValue_Bencode (maxAlloc : Nat) :
    (t : Value) → t.Valid maxAlloc = true → ∀ (fuel : Nat) (rest : List Nat) (off : Int),
      3 * t.Bencode.length + 1 ≤ fuel →
      Parser.parseValue maxAlloc fuel { reader := t.Bencode ++ rest, offset := off } =
        .ok t { reader := rest, offset := off + (t.Bencode.length : Int) }
  | .int i, h, fuel, rest, off, hf => by
    simp only [Value.Valid, decide_eq_true_eq] at h
    obtain ⟨f, rfl⟩ : ∃ f, fuel = f + 1 := ⟨fuel - 1, by omega⟩
    simp only [Value.Bencode]
    exact parseValue_Int_Bencode maxAlloc f i rest off h.1 h.2
  | .string s, h, fuel, rest, off, hf => by
    simp only [Value.Valid] at h
    obtain ⟨f, rfl⟩ : ∃ f, fuel = f + 1 := ⟨fuel - 1, by omega⟩
    simp only [Value.Bencode]
    exact parseValue_String_Bencode maxAlloc f s rest off h
  | .list l, h, fuel, rest, off, hf => by
    simp only [Value.Valid] at h
    simp only [Value.Bencode, List.length_append, List.length_singleton] at hf
    obtain ⟨f, rfl⟩ : ∃ f, fuel = f + 2 := ⟨fuel - 2, by omega⟩
    simp only [Value.Bencode, List.singleton_append, List.cons_append, List.append_assoc,
      List.nil_append]
    rw [parseValue_list, parseListLoop_Bencode maxAlloc l h f [] rest (off + 1) (by omega)]
    simp
    omega
  | .dict ⟨keys, m⟩, h, fuel, rest, off, hf => by
    simp only [Value.Valid, Bool.and_eq_true, decide_eq_true_eq] at h
    obtain ⟨⟨hkeys, hnodup⟩, hm⟩ := h
    subst hkeys
    have henc : Dict.bencodeItems (m.map Prod.fst) (Dict.bencodeMap m) = bencodePairs m := by
      simpa using Dict.bencodeItems_eq [] m (by simpa using hnodup)
    have hset : m.foldl (fun d e => Dict.Set d e.1 e.2) (NewDict []) =
        ({ keys := m.map Prod.fst, m := m } : Dict) := by
      simpa [NewDict] using foldl_Set_fresh [] m (by simpa using hnodup)
    simp only [Value.Bencode, henc, List.length_append, List.length_singleton] at hf
    obtain ⟨f, rfl⟩ : ∃ f, fuel = f + 2 := ⟨fuel - 2, by omega⟩
    simp only [Value.Bencode, henc, List.singleton_append, List.cons_append, List.append_assoc,
      List.nil_append]
    rw [parseValue_dict,
      parseDictLoop_Bencode maxAlloc m hm f (NewDict []) rest (off + 1) (by omega), hset]
    simp
    omega
/-- The list loop on the encodings of valid trees followed by `e`. -/
theorem parseListLoop_Bencode (maxAlloc : Nat) :
    (l : List Value) → Value.ValidList maxAlloc l = true →
      ∀ (fuel : Nat) (acc : List Value) (rest : List Nat) (off : Int),
      3 * ((List.bencodeItems l).length + 1) + 2 ≤ fuel →
      Parser.parseListLoop maxAlloc fuel acc
          { reader := List.bencodeItems l ++ 101 :: rest, offset := off } =
        .ok (.list (acc ++ l))
          { reader := rest, offset := off + ((List.bencodeItems l).length : Int) + 1 }
  | [], _, fuel, acc, rest, off, hf => by
    obtain ⟨f, rfl⟩ : ∃ f, fuel = f + 2 := ⟨fuel - 2, by omega⟩
    simp [List.bencodeItems, Parser.parseListLoop, parseValue_end]
  | v :: vs, h, fuel, acc, rest, off, hf => by
    simp only [Value.ValidList, Bool.and_eq_true] at h
    simp only [List.bencodeItems, List.length_append] at hf
    obtain ⟨f, rfl⟩ : ∃ f, fuel = f + 1 := ⟨fuel - 1, by omega⟩
    simp only [List.bencodeItems, List.append_assoc]
    rw [Parser.parseListLoop]
    rw [parseValue_Bencode maxAlloc v h.1 f _ off (by omega)]
    simp only
    have hv := Value.Bencode_length_pos v
    rw [parseListLoop_Bencode maxAlloc vs h.2 f (acc ++ [v]) rest _ (by omega)]
    simp
    omega
/-- The dict loop on the encodings of pairs of valid keys and trees followed by `e`: the
pairs are `Set` in the order they stand in. -/
theorem parseDictLoop_Bencode (maxAlloc : Nat) :
    (m : List (List Nat × Value)) → Value.ValidMap maxAlloc m = true →
      ∀ (fuel : Nat) (dict : Dict) (rest : List Nat) (off : Int),
      3 * ((bencodePairs m).length + 1) + 2 ≤ fuel →
      Parser.parseDictLoop maxAlloc fuel dict
          { reader := bencodePairs m ++ 101 :: rest, offset := off } =
        .ok (.dict (m.foldl (fun d e => Dict.Set d e.1 e.2) dict))
          { reader := rest, offset := off + ((bencodePairs m).length : Int) + 1 }
  | [], _, fuel, dict, rest, off, hf => by
    obtain ⟨f, rfl⟩ : ∃ f, fuel = f + 2 := ⟨fuel - 2, by omega⟩
    simp [bencodePairs, Parser.parseDictLoop, parseValue_end]
  | (k, v) :: ms, h, fuel, dict, rest, off, hf => by
    simp only [Value.ValidMap, Bool.and_eq_true] at h
    simp only [bencodePairs, List.length_append] at hf
    obtain ⟨f, rfl⟩ : ∃ f, fuel = f + 2 := ⟨fuel - 2, by omega⟩
    simp only [bencodePairs, List.append_assoc]
    rw [Parser.parseDictLoop]
    rw [parseValue_String_Bencode maxAlloc f k _ off h.1.1]
    simp only
    rw [parseValue_Bencode maxAlloc v h.1.2 (f + 1) _ _ (by omega)]
    simp only
    have hv := Value.Bencode_length_pos v
    rw [parseDictLoop_Bencode maxAlloc ms h.2 (f + 1) (dict.Set k v) rest _ (by omega)]
    simp
    omega
end


theorem GoMap.get_append {α : Type} (m1 m2 : List (List Nat × α)) (k : List Nat) :
    GoMap.get (m1 ++ m2) k =
      match GoMap.get m1 k with
      | some v => some v
      | none => GoMap.get m2 k := by
  induction m1 with
  | nil => simp [GoMap.get]
  | cons e m1 ih =>
    obtain ⟨k1, v1⟩ := e
    by_cases hk : k1 = k
    · simp [GoMap.get, hk]
    · simp [GoMap.get, hk, ih]

theorem GoMap.get_filter {α : Type} (m : List (List Nat × α)) (k k2 : List Nat) :
    GoMap.get (m.filter (fun e => decide (e.1 ≠ k))) k2 =
      if k2 = k then none else GoMap.get m k2 := by
  simp only [ne_eq, decide_not]
  induction m with
  | nil => simp [GoMap.get]
  | cons e m ih =>
    obtain ⟨k1, v1⟩ := e
    by_cases hk : k1 = k
    · subst hk
      by_cases h2 : k2 = k1
      · subst h2
        simpa using ih
      · have h3 : ¬ k1 = k2 := fun e => h2 e.symm
        simpa [GoMap.get, h2, h3] using ih
    · by_cases h2 : k2 = k
      · subst h2
        simpa [List.filter_cons, hk, GoMap.get] using ih
      · by_cases h3 : k1 = k2
        · simp [List.filter_cons, hk, GoMap.get, h3, h2]
        · simpa [List.filter_cons, hk, GoMap.get, h3, h2] using ih

theorem GoMap.get_set_self {α : Type} (m : List (List Nat × α)) (k : List Nat) (v : α) :
    GoMap.get (GoMap.set m k v) k = some v := by
  simp only [GoMap.set, GoMap.get_append, GoMap.get_filter, if_true]
  simp [GoMap.get]

theorem GoMap.get_set_other {α : Type} (m : List (List Nat × α)) (k k2 : List Nat) (v : α)
    (h : k2 ≠ k) : GoMap.get (GoMap.set m k v) k2 = GoMap.get m k2 := by
  have h3 : ¬ k = k2 := fun e => h e.symm
  simp only [GoMap.set, GoMap.get_append, GoMap.get_filter, if_neg h]
  cases GoMap.get m k2 <;> simp [GoMap.get, h3]

theorem GoMap.get_bencodeMap (m : List (List Nat × Value)) (k : List Nat) :
    GoMap.get (Dict.bencodeMap m) k = (GoMap.get m k).map Value.Bencode := by
  induction m with
  | nil => simp [Dict.bencodeMap, GoMap.get]
  | cons e m ih =>
    obtain ⟨k1, v1⟩ := e
    by_cases hk : k1 = k
    · simp [Dict.bencodeMap, GoMap.get, hk]
    · simp [Dict.bencodeMap, GoMap.get, hk, ih]

theorem Dict.bencodeItems_append (ks1 ks2 : List (List Nat)) (em : List (List Nat × List Nat)) :
    Dict.bencodeItems (ks1 ++ ks2) em = Dict.bencodeItems ks1 em ++ Dict.bencodeItems ks2 em := by
  induction ks1 with
  | nil => simp [Dict.bencodeItems]
  | cons k ks ih => simp [Dict.bencodeItems, ih]

/-- The encoded pairs of a key sequence depend on the bindings of its keys only. -/
theorem Dict.bencodeItems_congr (ks : List (List Nat)) (em1 em2 : List (List Nat × List Nat))
    (h : ∀ k ∈ ks, GoMap.get em1 k = GoMap.get em2 k) :
    Dict.bencodeItems ks em1 = Dict.bencodeItems ks em2 := by
  induction ks with
  | nil => simp [Dict.bencodeItems]
  | cons k ks ih =>
    simp only [Dict.bencodeItems]
    rw [h k (by simp), ih (fun k2 hk2 => h k2 (by simp [hk2]))]

/-- The key sequence after `Set`, for a consistent `Dict`. -/
theorem Dict.Set_keys (d : Dict) (k : List Nat) (v : Value) (h : d.Consistent) :
    (d.Set k v).keys = d.keys.filter (fun x => decide (x ≠ k)) ++ [k] := by
  obtain ⟨hnodup, hiff⟩ := h
  simp only [Dict.Set]
  by_cases hb : (GoMap.get d.m k).isSome = true
  · simp only [hb, if_true]
    rw [hnodup.erase_eq_filter]
    congr 1
    apply List.filter_congr
    intro x _
    by_cases hx : x = k <;> simp [hx]
  · simp only [hb]
    have hk : k ∉ d.keys := fun hm => hb ((hiff k).1 hm)
    congr 1
    symm
    apply List.filter_eq_self.2
    intro x hx
    have : x ≠ k := fun e => hk (e ▸ hx)
    simp [this]

/-- `Set` keeps a `Dict` consistent. -/
theorem Dict.Set_Consistent (d : Dict) (k : List Nat) (v : Value) (h : d.Consistent) :
    (d.Set k v).Consistent := by
  have hkeys := Dict.Set_keys d k v h
  obtain ⟨hnodup, hiff⟩ := h
  constructor
  · rw [hkeys, List.nodup_append]
    refine ⟨hnodup.filter _, by simp, ?_⟩
    intro x hx hx2
    simp at hx hx2
    exact hx.2 hx2
  · intro key
    rw [hkeys]
    by_cases hkey : key = k
    · subst hkey
      simp [Dict.Get, Dict.Set, GoMap.get_set_self]
    · have := hiff key
      simp only [Dict.Get] at this
      simp [Dict.Get, Dict.Set, GoMap.get_set_other _ _ _ _ hkey, hkey, this]

theorem NewDict_nil_Consistent : (NewDict []).Consistent := by
  simp [NewDict, Dict.Consistent, Dict.Get, GoMap.get]

theorem foldl_Set_Consistent (items : List DictItem) (d : Dict) (h : d.Consistent) :
    (items.foldl (fun d item => Dict.Set d item.Key item.Value) d).Consistent := by
  induction items generalizing d with
  | nil => simpa using h
  | cons it items ih => exact ih _ (Dict.Set_Consistent d it.Key it.Value h)

theorem NewDict_Consistent (items : List DictItem) : (NewDict items).Consistent := by
  have := foldl_Set_Consistent items (NewDict []) NewDict_nil_Consistent
  simpa [NewDict] using this


/-- The encoding of a consistent `Dict` after `Set`: the pairs of the other keys as before,
then the pair set. -/
theorem Dict.Set_Bencode (d : Dict) (k : List Nat) (v : Value) (h : d.Consistent) :
    (d.Set k v).Bencode =
      100 :: (Dict.bencodeItems (d.keys.filter (fun x => decide (x ≠ k))) (Dict.bencodeMap d.m) ++
        (String.Bencode k ++ v.Bencode) ++ [101]) := by
  have hkeys := Dict.Set_keys d k v h
  simp only [Dict.Bencode, Value.Bencode, hkeys, Dict.bencodeItems_append]
  have h1 : Dict.bencodeItems (d.keys.filter (fun x => decide (x ≠ k)))
      (Dict.bencodeMap (d.Set k v).m) =
      Dict.bencodeItems (d.keys.filter (fun x => decide (x ≠ k))) (Dict.bencodeMap d.m) := by
    apply Dict.bencodeItems_congr
    intro k2 hk2
    have hne : k2 ≠ k := by simpa using (List.mem_filter.1 hk2).2
    rw [GoMap.get_bencodeMap, GoMap.get_bencodeMap]
    simp only [Dict.Set, GoMap.get_set_other _ _ _ _ hne]
  have h2 : Dict.bencodeItems [k] (Dict.bencodeMap (d.Set k v).m) =
      String.Bencode k ++ v.Bencode := by
    simp only [Dict.bencodeItems, GoMap.get_bencodeMap]
    simp [Dict.Set, GoMap.get_set_self]
  rw [h1, h2]
  simp

theorem Value.DictsConsistentList_append (l1 l2 : List Value)
    (h1 : Value.DictsConsistentList l1) (h2 : Value.DictsConsistentList l2) :
    Value.DictsConsistentList (l1 ++ l2) := by
  induction l1 with
  | nil => simpa using h2
  | cons v vs ih =>
    simp only [Value.DictsConsistentList] at h1
    simp only [List.cons_append, Value.DictsConsistentList]
    exact ⟨h1.1, ih h1.2⟩

theorem Value.DictsConsistentMap_append (m1 m2 : List (List Nat × Value))
    (h1 : Value.DictsConsistentMap m1) (h2 : Value.DictsConsistentMap m2) :
    Value.DictsConsistentMap (m1 ++ m2) := by
  induction m1 with
  | nil => simpa using h2
  | cons e m ih =>
    obtain ⟨k, v⟩ := e
    simp only [Value.DictsConsistentMap] at h1
    simp only [List.cons_append, Value.DictsConsistentMap]
    exact ⟨h1.1, ih h1.2⟩

theorem Value.DictsConsistentMap_filter (m : List (List Nat × Value))
    (f : List Nat × Value → Bool) (h : Value.DictsConsistentMap m) :
    Value.DictsConsistentMap (m.filter f) := by
  induction m with
  | nil => simpa using h
  | cons e m ih =>
    obtain ⟨k, v⟩ := e
    simp only [Value.DictsConsistentMap] at h
    rw [List.filter_cons]
    split
    · simp only [Value.DictsConsistentMap]
      exact ⟨h.1, ih h.2⟩
    · exact ih h.2

/-- `Set` of a tree with consistent dicts into a `Dict` with consistent dicts. -/
theorem Dict.Set_DictsConsistent (d : Dict) (k : List Nat) (v : Value)
    (hd : (Value.dict d).DictsConsistent) (hv : v.DictsConsistent) :
    (Value.dict (d.Set k v)).DictsConsistent := by
  simp only [Value.DictsConsistent] at hd ⊢
  refine ⟨Dict.Set_Consistent d k v hd.1, ?_⟩
  simp only [Dict.Set, GoMap.set]
  apply Value.DictsConsistentMap_append
  · exact Value.DictsConsistentMap_filter _ _ hd.2
  · simp only [Value.DictsConsistentMap]
    exact ⟨hv, trivial⟩

theorem parseInt_DictsConsistent (p : Parser) : (p.parseInt).DictsConsistent := by
  simp only [Parser.parseInt]
  split
  · simp [Outcome.DictsConsistent, Value.DictsConsistent]
  · split
    · simp [Outcome.DictsConsistent, Value.DictsConsistent]
    · split <;> simp [Outcome.DictsConsistent, Value.DictsConsistent]

theorem parseString_DictsConsistent (maxAlloc : Nat) (p : Parser) :
    (p.parseString maxAlloc).DictsConsistent := by
  simp only [Parser.parseString]
  split
  · simp [Outcome.DictsConsistent, Value.DictsConsistent]
  · split
    · simp [Outcome.DictsConsistent, Value.DictsConsistent]
    · split
      · simp [Outcome.DictsConsistent]
      · split <;> simp [Outcome.DictsConsistent, Value.DictsConsistent]

theorem parseEndOfValue_DictsConsistent (p : Parser) :
    (p.parseEndOfValue).DictsConsistent := by
  simp only [Parser.parseEndOfValue]
  split
  · simp [Outcome.DictsConsistent]
  · split <;> simp [Outcome.DictsConsistent]

/-- Every parsing method returns trees whose dicts are consistent. -/
theorem parse_DictsConsistent (maxAlloc : Nat) (fuel : Nat) :
    (∀ p, (Parser.parseValue maxAlloc fuel p).DictsConsistent) ∧
    (∀ p, (Parser.parseList maxAlloc fuel p).DictsConsistent) ∧
    (∀ acc p, Value.DictsConsistentList acc →
      (Parser.parseListLoop maxAlloc fuel acc p).DictsConsistent) ∧
    (∀ p, (Parser.parseDict maxAlloc fuel p).DictsConsistent) ∧
    (∀ d p, (Value.dict d).DictsConsistent →
      (Parser.parseDictLoop maxAlloc fuel d p).DictsConsistent) := by
  induction fuel with
  | zero =>
    refine ⟨?_, ?_, ?_, ?_, ?_⟩ <;> intros <;>
      simp [Parser.parseValue, Parser.parseList, Parser.parseListLoop, Parser.parseDict,
        Parser.parseDictLoop, Outcome.DictsConsistent]
  | succ fuel ih =>
    obtain ⟨ihV, ihL, ihLL, ihD, ihDL⟩ := ih
    have hnil : (Value.dict (NewDict [])).DictsConsistent := by
      simp only [Value.DictsConsistent]
      exact ⟨NewDict_nil_Consistent, by simp [NewDict, Value.DictsConsistentMap]⟩
    refine ⟨?_, ?_, ?_, ?_, ?_⟩
    · intro p
      rw [Parser.parseValue]
      split
      · simp [Outcome.DictsConsistent]
      · split
        · exact parseInt_DictsConsistent p
        · split
          · exact ihL p
          · split
            · exact ihD p
            · split
              · exact parseEndOfValue_DictsConsistent p
              · split
                · exact parseString_DictsConsistent maxAlloc p
                · simp [Outcome.DictsConsistent]
    · intro p
      rw [Parser.parseList]
      split
      · simp [Outcome.DictsConsistent, Value.DictsConsistent, Value.DictsConsistentList]
      · exact ihLL [] _ (by simp [Value.DictsConsistentList])
    · intro acc p hacc
      rw [Parser.parseListLoop]
      have hV := ihV p
      split
      · rename_i item p1 heq
        rw [heq] at hV
        apply ihLL
        apply Value.DictsConsistentList_append _ _ hacc
        simp only [Value.DictsConsistentList]
        exact ⟨hV, trivial⟩
      · simpa [Outcome.DictsConsistent, Value.DictsConsistent] using hacc
      · simpa [Outcome.DictsConsistent, Value.DictsConsistent] using hacc
      · simp [Outcome.DictsConsistent]
      · simp [Outcome.DictsConsistent]
    · intro p
      rw [Parser.parseDict]
      split
      · exact hnil
      · exact ihDL _ _ hnil
    · intro d p hd
      rw [Parser.parseDictLoop]
      split
      · rename_i key p1 heq
        have hV := ihV p1
        split
        · rename_i value p2 heq2
          rw [heq2] at hV
          exact ihDL _ _ (Dict.Set_DictsConsistent d key value hd hV)
        · exact hd
        · simp [Outcome.DictsConsistent]
        · simp [Outcome.DictsConsistent]
      · exact hd
      · exact hd
      · exact hd
      · simp [Outcome.DictsConsistent]
      · simp [Outcome.DictsConsistent]


theorem parseDigits_eq_some (ds : List Nat) (acc x : Nat) :
    strconv.parseDigits ds acc = some x ↔
      (∀ b ∈ ds, 48 ≤ b ∧ b ≤ 57) ∧ x = ds.foldl (fun a b => a * 10 + (b - 48)) acc := by
  induction ds generalizing acc with
  | nil => simp [strconv.parseDigits, eq_comm]
  | cons b bs ih =>
    simp only [strconv.parseDigits, List.foldl_cons, List.mem_cons, forall_eq_or_imp]
    by_cases hb : strconv.isDigit b = true
    · have hb2 := (strconv.isDigit_iff b).1 hb
      simp only [hb, if_true, ih, strconv.digitVal]
      tauto
    · have hb2 : ¬ (48 ≤ b ∧ b ≤ 57) := fun h => hb ((strconv.isDigit_iff b).2 h)
      simp [hb, hb2]

theorem parseDigits_decimal (ds : List Nat) (h : ∀ b ∈ ds, 48 ≤ b ∧ b ≤ 57) :
    strconv.parseDigits ds 0 = some (decimalValue ds) :=
  (parseDigits_eq_some ds 0 _).2 ⟨h, rfl⟩

/-- The texts `ParseInt` accepts are the signed decimal texts in the 64-bit range. -/
theorem ParseInt_eq_some_iff (s : List Nat) (n : Int) :
    strconv.ParseInt s = some n ↔ SignedDecimal s n := by
  constructor
  · intro h
    cases s with
    | nil => simp [strconv.ParseInt] at h
    | cons b rest =>
      simp only [strconv.ParseInt] at h
      by_cases hs : b = 43 ∨ b = 45
      · simp only [hs, if_true] at h
        cases rest with
        | nil => simp at h
        | cons c cs =>
          simp only at h
          cases hp : strconv.parseDigits (c :: cs) 0 with
          | none => rw [hp] at h; simp at h
          | some un =>
            rw [hp] at h
            obtain ⟨hdig, hun⟩ := (parseDigits_eq_some _ _ _).1 hp
            have hval : un = decimalValue (c :: cs) := hun
            rcases hs with hs | hs
            · subst hs
              simp only [show ¬ (43 : Nat) = 45 by decide, if_false] at h
              split at h
              · simp only [Option.some.injEq] at h
                refine ⟨[43], c :: cs, rfl, Or.inr (Or.inl rfl), ⟨by simp, hdig⟩, ?_, ?_, ?_⟩
                · simp [← hval, ← h]
                · omega
                · omega
              · simp at h
            · subst hs
              simp only [if_true] at h
              split at h
              · simp only [Option.some.injEq] at h
                refine ⟨[45], c :: cs, rfl, Or.inr (Or.inr rfl), ⟨by simp, hdig⟩, ?_, ?_, ?_⟩
                · simp [← hval, ← h]
                · omega
                · omega
              · simp at h
      · simp only [hs, if_false] at h
        cases hp : strconv.parseDigits (b :: rest) 0 with
        | none => rw [hp] at h; simp at h
        | some un =>
          rw [hp] at h
          obtain ⟨hdig, hun⟩ := (parseDigits_eq_some _ _ _).1 hp
          have hval : un = decimalValue (b :: rest) := hun
          have h45 : ¬ b = 45 := fun e => hs (Or.inr e)
          simp only [h45, if_false] at h
          split at h
          · simp only [Option.some.injEq] at h
            refine ⟨[], b :: rest, rfl, Or.inl rfl, ⟨by simp, hdig⟩, ?_, ?_, ?_⟩
            · simp [← hval, ← h]
            · omega
            · omega
          · simp at h
  · rintro ⟨sign, ds, rfl, hsign, ⟨hne, hdig⟩, hn, h1, h2⟩
    have hp := parseDigits_decimal ds hdig
    cases ds with
    | nil => exact absurd rfl hne
    | cons c cs =>
      rcases hsign with hs | hs | hs
      · subst hs
        have hc := hdig c (by simp)
        have h43 : ¬ c = 43 := by omega
        have h45 : ¬ c = 45 := by omega
        simp only [List.nil_append, strconv.ParseInt, h43, h45, or_self, if_false, hp]
        simp only [show ¬ (([] : List Nat) = [45]) by simp, if_false] at hn
        have : decimalValue (c :: cs) < 2 ^ 63 := by omega
        simp [hn]
        omega
      · subst hs
        simp only [List.singleton_append, strconv.ParseInt, true_or, if_true, hp]
        simp only [show ¬ (([43] : List Nat) = [45]) by decide, if_false] at hn
        have : decimalValue (c :: cs) < 2 ^ 63 := by omega
        simp [hn]
        omega
      · subst hs
        simp only [List.singleton_append, strconv.ParseInt, or_true, if_true, hp]
        simp only [if_true] at hn
        have : decimalValue (c :: cs) ≤ 2 ^ 63 := by omega
        simp [hn]
        omega


theorem FormatUint_canonical (ds : List Nat) (h : IsCanonicalDecimal ds) :
    strconv.FormatUint (decimalValue ds) = ds := by
  obtain ⟨⟨hne, hdig⟩, hhead⟩ := h
  exact strconv.FormatUint_of_parseDigits ds hne
    (fun b hb => (strconv.isDigit_iff b).2 (hdig b hb)) hhead _ (parseDigits_decimal ds hdig)

theorem FormatInt_canonical (s : List Nat) (n : Int) (h : CanonicalIntText s n) :
    strconv.FormatInt n = s := by
  obtain ⟨_, _, h | ⟨ds, rfl, hds, hne48, hn⟩⟩ := h
  · obtain ⟨hs, hn⟩ := h
    subst hn
    simp only [strconv.FormatInt]
    have : ¬ ((decimalValue s : Int) < 0) := by omega
    simp only [this, if_false, Int.toNat_ofNat]
    exact FormatUint_canonical s hs
  · have hfmt := FormatUint_canonical ds hds
    have hpos : decimalValue ds ≠ 0 := by
      intro h0
      rw [h0, strconv.FormatUint_zero] at hfmt
      exact hne48 hfmt.symm
    subst hn
    simp only [strconv.FormatInt]
    have : (-(decimalValue ds : Int) < 0) := by omega
    simp only [this, if_true, Int.natAbs_neg, Int.natAbs_ofNat, hfmt]

theorem CanonicalString_eq (maxAlloc : Nat) (b payload : List Nat)
    (h : CanonicalString maxAlloc b payload) :
    b = String.Bencode payload ∧ validString maxAlloc payload = true := by
  obtain ⟨ds, rfl, hds, hval, h1, h2⟩ := h
  have := FormatUint_canonical ds hds
  rw [hval] at this
  refine ⟨?_, ?_⟩
  · rw [String_Bencode_eq, this]
  · simp [validString, h1]
    omega

theorem exists_list_of_forall (maxAlloc : Nat) (items : List (List Nat))
    (h : ∀ b ∈ items, ∃ t : Value, t.Valid maxAlloc = true ∧ t.Bencode = b) :
    ∃ l : List Value, Value.ValidList maxAlloc l = true ∧ List.bencodeItems l = items.flatten := by
  induction items with
  | nil => exact ⟨[], by simp [Value.ValidList], by simp [List.bencodeItems]⟩
  | cons b bs ih =>
    obtain ⟨t, ht, hb⟩ := h b (by simp)
    obtain ⟨l, hl, hbs⟩ := ih (fun b2 hb2 => h b2 (by simp [hb2]))
    exact ⟨t :: l, by simp [Value.ValidList, ht, hl], by simp [List.bencodeItems, hb, hbs]⟩

theorem exists_map_of_forall (maxAlloc : Nat) (entries : List (List Nat × List Nat × List Nat))
    (hk : ∀ e ∈ entries, CanonicalString maxAlloc e.1 e.2.1)
    (hv : ∀ e ∈ entries, ∃ t : Value, t.Valid maxAlloc = true ∧ t.Bencode = e.2.2) :
    ∃ m : List (List Nat × Value), Value.ValidMap maxAlloc m = true ∧
      m.map Prod.fst = entries.map (fun e => e.2.1) ∧
      bencodePairs m = (entries.map (fun e => e.1 ++ e.2.2)).flatten := by
  induction entries with
  | nil => exact ⟨[], by simp [Value.ValidMap], by simp, by simp [bencodePairs]⟩
  | cons e es ih =>
    obtain ⟨t, ht, hb⟩ := hv e (by simp)
    obtain ⟨hkb, hkv⟩ := CanonicalString_eq maxAlloc _ _ (hk e (by simp))
    obtain ⟨m, hm, hkeys, hbs⟩ :=
      ih (fun e2 he2 => hk e2 (by simp [he2])) (fun e2 he2 => hv e2 (by simp [he2]))
    refine ⟨(e.2.1, t) :: m, by simp [Value.ValidMap, ht, hm, hkv], by simp [hkeys], ?_⟩
    simp only [bencodePairs, List.map_cons, List.flatten_cons, hbs, hb, ← hkb, List.append_assoc]

/-- A byte sequence in canonical form is the encoding of a valid tree. -/
theorem Canonical.exists_tree (maxAlloc : Nat) (b : List Nat) (h : Canonical maxAlloc b) :
    ∃ t : Value, t.Valid maxAlloc = true ∧ t.Bencode = b := by
  induction h with
  | int s n h =>
    refine ⟨.int n, ?_, ?_⟩
    · simp only [Value.Valid, decide_eq_true_eq]
      exact ⟨h.1, h.2.1⟩
    · rw [Value.Bencode, Int_Bencode_eq, FormatInt_canonical s n h]
  | string b payload h =>
    obtain ⟨hb, hv⟩ := CanonicalString_eq maxAlloc b payload h
    exact ⟨.string payload, by simpa [Value.Valid] using hv, by rw [Value.Bencode, hb]⟩
  | list items _ ih =>
    obtain ⟨l, hl, hb⟩ := exists_list_of_forall maxAlloc items ih
    exact ⟨.list l, by simpa [Value.Valid] using hl, by simp [Value.Bencode, hb]⟩
  | dict entries hk _ hnodup ih =>
    obtain ⟨m, hm, hkeys, hb⟩ := exists_map_of_forall maxAlloc entries hk ih
    have hnd : (m.map Prod.fst).Nodup := by rw [hkeys]; exact hnodup
    refine ⟨.dict { keys := m.map Prod.fst, m := m }, ?_, ?_⟩
    · simp [Value.Valid, hm, hnd]
    · have henc : Dict.bencodeItems (m.map Prod.fst) (Dict.bencodeMap m) = bencodePairs m := by
        simpa using Dict.bencodeItems_eq [] m (by simpa using hnd)
      simp [Value.Bencode, henc, hb]


theorem NewDict_append (items : List DictItem) (it : DictItem) :
    NewDict (items ++ [it]) = (NewDict items).Set it.Key it.Value := by
  simp [NewDict, List.foldl_append]

theorem dedup_append_singleton (l : List (List Nat)) (k : List Nat) :
    (l ++ [k]).dedup = l.dedup.filter (fun x => decide (x ≠ k)) ++ [k] := by
  induction l with
  | nil => simp
  | cons a l ih =>
    by_cases hak : a = k
    · subst hak
      have h1 : a ∈ l ++ [a] := by simp
      rw [List.cons_append, List.dedup_cons_of_mem h1, ih]
      by_cases hal : a ∈ l
      · rw [List.dedup_cons_of_mem hal]
      · rw [List.dedup_cons_of_not_mem hal]
        simp
    · by_cases hal : a ∈ l
      · have h1 : a ∈ l ++ [k] := by simp [hal]
        rw [List.cons_append, List.dedup_cons_of_mem h1, ih, List.dedup_cons_of_mem hal]
      · have h1 : a ∉ l ++ [k] := by simp [hal, hak]
        rw [List.cons_append, List.dedup_cons_of_not_mem h1, ih, List.dedup_cons_of_not_mem hal]
        simp [hak]

/-- The key sequence of `NewDict(items...)`: the keys of the items, each at the position of
its last occurrence. -/
theorem NewDict_keys (items : List DictItem) :
    (NewDict items).keys = (items.map (fun it => it.Key)).dedup := by
  induction items using List.reverseRecOn with
  | nil => simp [NewDict]
  | append_singleton items it ih =>
    rw [NewDict_append, Dict.Set_keys _ _ _ (NewDict_Consistent items), ih, List.map_append,
      List.map_singleton, dedup_append_singleton]

/-- The lookup in `NewDict(items...)`: the value of the last item with that key. -/
theorem NewDict_Get (items : List DictItem) (k : List Nat) :
    (NewDict items).Get k =
      (items.reverse.find? (fun it => decide (it.Key = k))).map (fun it => it.Value) := by
  induction items using List.reverseRecOn with
  | nil => simp [NewDict, Dict.Get, GoMap.get]
  | append_singleton items it ih =>
    rw [NewDict_append, List.reverse_append, List.reverse_singleton, List.singleton_append,
      List.find?_cons]
    by_cases hk : it.Key = k
    · subst hk
      simp [Dict.Get, Dict.Set, GoMap.get_set_self]
    · have hk2 : k ≠ it.Key := fun e => hk e.symm
      simp only [Dict.Get] at ih
      simp [Dict.Get, Dict.Set, GoMap.get_set_other _ _ _ _ hk2, hk, ih]

theorem decimalValue_FormatUint (n : Nat) : decimalValue (strconv.FormatUint n) = n := by
  have := (parseDigits_eq_some _ _ _).1 (strconv.parseDigits_FormatUint n)
  exact this.2.symm

theorem FormatUint_IsCanonicalDecimal (n : Nat) : IsCanonicalDecimal (strconv.FormatUint n) := by
  refine ⟨⟨strconv.FormatUint_ne_nil n, ?_⟩, ?_⟩
  · intro b hb
    exact (strconv.isDigit_iff b).1 (strconv.FormatUint_digits n b hb)
  · intro h
    rcases Nat.eq_zero_or_pos n with h0 | h0
    · rw [h0, strconv.FormatUint_zero]
    · exact absurd h (strconv.FormatUint_head n h0)


theorem ReadString_length (d : Nat) (l : List Nat) :
    (ReadString d l).2.2.length ≤ l.length ∧
      ((ReadString d l).2.1 = true → (ReadString d l).2.2.length < l.length) := by
  induction l with
  | nil => simp [ReadString]
  | cons b bs ih =>
    by_cases hb : b = d
    · simp [ReadString, hb]
    · simp only [ReadString, hb, if_false, List.length_cons]
      exact ⟨by omega, fun h => by have := ih.2 h; omega⟩

theorem Outcome.Consumed.within {o : Outcome} {n : Nat} (h : o.Consumed n) : o.Within n := by
  cases o with
  | ok v p => simp only [Outcome.Consumed] at h; simp only [Outcome.Within]; omega
  | fail v e p =>
    cases e <;> simp only [Outcome.Consumed] at h <;> simp only [Outcome.Within] <;> omega
  | panic => simp [Outcome.Within]
  | outOfFuel => simp [Outcome.Within]

theorem parseInt_Consumed (p : Parser) : (p.parseInt).Consumed p.reader.length := by
  obtain ⟨reader, offset⟩ := p
  cases reader with
  | nil => simp [Parser.parseInt, Parser.skipDelimeter, Outcome.Consumed]
  | cons b rest =>
    have hr := ReadString_length 101 rest
    simp only [Parser.parseInt, Parser.skipDelimeter]
    by_cases hb : b ≠ 105 ∧ b ≠ 108 ∧ b ≠ 100
    · simp [hb, Outcome.Consumed]
    · have h101 : ¬ b = 101 := by omega
      simp only [hb, if_false, h101]
      split
      · simp only [Outcome.Consumed, List.length_cons]
        omega
      · split
        · simp only [Outcome.Consumed, List.length_cons]
          omega
        · simp only [Outcome.Consumed, List.length_cons]
          omega

theorem parseString_Consumed (maxAlloc : Nat) (p : Parser) :
    (p.parseString maxAlloc).Consumed p.reader.length := by
  have hr := ReadString_length 58 p.reader
  simp only [Parser.parseString]
  split
  · simp only [Outcome.Consumed]
    omega
  · rename_i hfound
    have hlt := hr.2 (by simpa using hfound)
    split
    · simp only [Outcome.Consumed]
      omega
    · split
      · simp [Outcome.Consumed]
      · split
        · simp [Outcome.Consumed]
        · simp only [Outcome.Consumed, List.length_drop]
          omega

theorem parseEndOfValue_Consumed (p : Parser) :
    (p.parseEndOfValue).Consumed p.reader.length := by
  obtain ⟨reader, offset⟩ := p
  cases reader with
  | nil => simp [Parser.parseEndOfValue, Outcome.Consumed]
  | cons b rest =>
    simp only [Parser.parseEndOfValue]
    split <;> simp [Outcome.Consumed]

theorem skipDelimeter_length (p : Parser) :
    (p.skipDelimeter).2.reader.length ≤ p.reader.length ∧
      ((p.skipDelimeter).1 = none → (p.skipDelimeter).2.reader.length < p.reader.length) ∧
      (p.skipDelimeter).1 ≠ some .errValueEnd := by
  obtain ⟨reader, offset⟩ := p
  cases reader with
  | nil => simp [Parser.skipDelimeter]
  | cons b rest =>
    simp only [Parser.skipDelimeter]
    by_cases hb : b ≠ 105 ∧ b ≠ 108 ∧ b ≠ 100
    · simp [hb]
    · have h101 : ¬ b = 101 := by omega
      simp [hb, h101]

theorem Outcome.Consumed.of_within_lt {o : Outcome} {m n : Nat} (h : o.Within m) (hmn : m < n) :
    o.Consumed n := by
  cases o with
  | ok v p => simp only [Outcome.Within] at h; simp only [Outcome.Consumed]; omega
  | fail v e p =>
    cases e <;> simp only [Outcome.Within] at h <;> simp only [Outcome.Consumed] <;> omega
  | panic => simp [Outcome.Consumed]
  | outOfFuel => simp [Outcome.Consumed]

theorem Outcome.Within.mono {o : Outcome} {m n : Nat} (h : o.Within m) (hmn : m ≤ n) :
    o.Within n := by
  cases o with
  | ok v p => simp only [Outcome.Within] at h ⊢; omega
  | fail v e p => simp only [Outcome.Within] at h ⊢; omega
  | panic => simp [Outcome.Within]
  | outOfFuel => simp [Outcome.Within]

theorem Outcome.Consumed_fail {v : Option Value} {e : Error} {p : Parser} {n : Nat}
    (he : e ≠ .errValueEnd) (h : p.reader.length ≤ n) : (Outcome.fail v e p).Consumed n := by
  cases e with
  | EOF => simpa [Outcome.Consumed] using h
  | errValueEnd => exact absurd rfl he
  | ErrSyntax x => simpa [Outcome.Consumed] using h

/-- Progress: every `parseValue` call that returns a value or the end-of-value signal has
consumed at least one byte, and no call gives bytes back. -/
theorem parse_Consumed (maxAlloc : Nat) (fuel : Nat) :
    (∀ p, (Parser.parseValue maxAlloc fuel p).Consumed p.reader.length) ∧
    (∀ p, 0 < p.reader.length → (Parser.parseList maxAlloc fuel p).Consumed p.reader.length) ∧
    (∀ acc p, (Parser.parseListLoop maxAlloc fuel acc p).Within p.reader.length) ∧
    (∀ p, 0 < p.reader.length → (Parser.parseDict maxAlloc fuel p).Consumed p.reader.length) ∧
    (∀ d p, (Parser.parseDictLoop maxAlloc fuel d p).Within p.reader.length) := by
  induction fuel with
  | zero =>
    refine ⟨?_, ?_, ?_, ?_, ?_⟩ <;> intros <;>
      simp [Parser.parseValue, Parser.parseList, Parser.parseListLoop, Parser.parseDict,
        Parser.parseDictLoop, Outcome.Consumed, Outcome.Within]
  | succ fuel ih =>
    obtain ⟨ihV, ihL, ihLL, ihD, ihDL⟩ := ih
    refine ⟨?_, ?_, ?_, ?_, ?_⟩
    · intro p
      rw [Parser.parseValue]
      split
      · simp [Outcome.Consumed]
      · rename_i b rest hp
        have hpos : 0 < p.reader.length := by rw [hp]; simp
        split
        · exact parseInt_Consumed p
        · split
          · exact ihL p hpos
          · split
            · exact ihD p hpos
            · split
              · exact parseEndOfValue_Consumed p
              · split
                · exact parseString_Consumed maxAlloc p
                · simp [Outcome.Consumed]
    · intro p hpos
      rw [Parser.parseList]
      have hs := skipDelimeter_length p
      split
      · rename_i err p1 heq
        rw [heq] at hs
        exact Outcome.Consumed_fail (fun e => hs.2.2 (by rw [e])) hs.1
      · rename_i p1 heq
        rw [heq] at hs
        exact Outcome.Consumed.of_within_lt (ihLL [] p1) (hs.2.1 rfl)
    · intro acc p
      rw [Parser.parseListLoop]
      have hV := ihV p
      split
      · rename_i item p1 heq
        rw [heq] at hV
        simp only [Outcome.Consumed] at hV
        exact Outcome.Within.mono (ihLL _ p1) (by omega)
      · rename_i v p1 heq
        rw [heq] at hV
        simp only [Outcome.Consumed] at hV
        simp only [Outcome.Within]
        omega
      · rename_i v err p1 hne heq
        rw [heq] at hV
        have := Outcome.Consumed.within hV
        simpa [Outcome.Within] using this
      · simp [Outcome.Within]
      · simp [Outcome.Within]
    · intro p hpos
      rw [Parser.parseDict]
      have hs := skipDelimeter_length p
      split
      · rename_i err p1 heq
        rw [heq] at hs
        exact Outcome.Consumed_fail (fun e => hs.2.2 (by rw [e])) hs.1
      · rename_i p1 heq
        rw [heq] at hs
        exact Outcome.Consumed.of_within_lt (ihDL _ p1) (hs.2.1 rfl)
    · intro d p
      rw [Parser.parseDictLoop]
      have hV := ihV p
      split
      · rename_i key p1 heq
        rw [heq] at hV
        simp only [Outcome.Consumed] at hV
        have hV2 := ihV p1
        split
        · rename_i value p2 heq2
          rw [heq2] at hV2
          simp only [Outcome.Consumed] at hV2
          exact Outcome.Within.mono (ihDL _ p2) (by omega)
        · rename_i v err p2 heq2
          rw [heq2] at hV2
          have := Outcome.Consumed.within hV2
          simp only [Outcome.Within] at this ⊢
          omega
        · simp [Outcome.Within]
        · simp [Outcome.Within]
      · rename_i v p1 hne heq
        rw [heq] at hV
        simp only [Outcome.Consumed] at hV
        simp only [Outcome.Within]
        omega
      · rename_i v p1 heq
        rw [heq] at hV
        simp only [Outcome.Consumed] at hV
        simp only [Outcome.Within]
        omega
      · rename_i v err p1 hne heq
        rw [heq] at hV
        have := Outcome.Consumed.within hV
        simpa [Outcome.Within] using this
      · simp [Outcome.Within]
      · simp [Outcome.Within]


theorem parseInt_ne_outOfFuel (p : Parser) : p.parseInt ≠ .outOfFuel := by
  simp only [Parser.parseInt]
  split
  · simp
  · split
    · simp
    · split <;> simp

theorem parseString_ne_outOfFuel (maxAlloc : Nat) (p : Parser) :
    p.parseString maxAlloc ≠ .outOfFuel := by
  simp only [Parser.parseString]
  split
  · simp
  · split
    · simp
    · split
      · simp
      · split <;> simp

theorem parseEndOfValue_ne_outOfFuel (p : Parser) : p.parseEndOfValue ≠ .outOfFuel := by
  simp only [Parser.parseEndOfValue]
  split
  · simp
  · split <;> simp

/-- The call budget: three calls per unread byte and one more are enough for `parseValue`
to return (or panic in `make`), on every input. -/
theorem parse_fuel (maxAlloc : Nat) (fuel : Nat) :
    (∀ p, 3 * p.reader.length + 1 ≤ fuel → Parser.parseValue maxAlloc fuel p ≠ .outOfFuel) ∧
    (∀ p, 0 < p.reader.length → 3 * p.reader.length ≤ fuel →
      Parser.parseList maxAlloc fuel p ≠ .outOfFuel) ∧
    (∀ acc p, 3 * p.reader.length + 2 ≤ fuel →
      Parser.parseListLoop maxAlloc fuel acc p ≠ .outOfFuel) ∧
    (∀ p, 0 < p.reader.length → 3 * p.reader.length ≤ fuel →
      Parser.parseDict maxAlloc fuel p ≠ .outOfFuel) ∧
    (∀ d p, 3 * p.reader.length + 2 ≤ fuel →
      Parser.parseDictLoop maxAlloc fuel d p ≠ .outOfFuel) := by
  induction fuel with
  | zero =>
    refine ⟨?_, ?_, ?_, ?_, ?_⟩ <;> intros <;> omega
  | succ fuel ih =>
    obtain ⟨ihV, ihL, ihLL, ihD, ihDL⟩ := ih
    refine ⟨?_, ?_, ?_, ?_, ?_⟩
    · intro p hf
      rw [Parser.parseValue]
      split
      · simp
      · rename_i b rest hp
        have hpos : 0 < p.reader.length := by rw [hp]; simp
        split
        · exact parseInt_ne_outOfFuel p
        · split
          · exact ihL p hpos (by omega)
          · split
            · exact ihD p hpos (by omega)
            · split
              · exact parseEndOfValue_ne_outOfFuel p
              · split
                · exact parseString_ne_outOfFuel maxAlloc p
                · simp
    · intro p hpos hf
      rw [Parser.parseList]
      have hs := skipDelimeter_length p
      split
      · simp
      · rename_i p1 heq
        rw [heq] at hs
        have := hs.2.1 rfl
        exact ihLL [] p1 (by simp only at this; omega)
    · intro acc p hf
      rw [Parser.parseListLoop]
      have hV := (parse_Consumed maxAlloc fuel).1 p
      have hN := ihV p (by omega)
      split
      · rename_i item p1 heq
        rw [heq] at hV
        simp only [Outcome.Consumed] at hV
        exact ihLL _ p1 (by omega)
      · simp
      · simp
      · simp
      · rename_i heq
        exact absurd heq hN
    · intro p hpos hf
      rw [Parser.parseDict]
      have hs := skipDelimeter_length p
      split
      · simp
      · rename_i p1 heq
        rw [heq] at hs
        have := hs.2.1 rfl
        exact ihDL _ p1 (by simp only at this; omega)
    · intro d p hf
      rw [Parser.parseDictLoop]
      have hV := (parse_Consumed maxAlloc fuel).1 p
      have hN := ihV p (by omega)
      split
      · rename_i key p1 heq
        rw [heq] at hV
        simp only [Outcome.Consumed] at hV
        have hV2 := (parse_Consumed maxAlloc fuel).1 p1
        have hN2 := ihV p1 (by omega)
        split
        · rename_i value p2 heq2
          rw [heq2] at hV2
          simp only [Outcome.Consumed] at hV2
          exact ihDL _ p2 (by omega)
        · simp
        · simp
        · rename_i heq2
          exact absurd heq2 hN2
      · simp
      · simp
      · simp
      · simp
      · rename_i heq
        exact absurd heq hN

/-- `Parse` returns on every input (or panics in `make`): the call budget it starts with is
never used up. -/
theorem Parser.parseValue_fuel (maxAlloc : Nat) (p : Parser) :
    p.Parse maxAlloc ≠ .outOfFuel :=
  (parse_fuel maxAlloc _).1 p (le_refl _)


theorem GoMap.get_isSome_iff {α : Type} (m : List (List Nat × α)) (k : List Nat) :
    (GoMap.get m k).isSome = true ↔ k ∈ m.map Prod.fst := by
  induction m with
  | nil => simp [GoMap.get]
  | cons e m ih =>
    obtain ⟨k1, v1⟩ := e
    by_cases hk : k1 = k
    · simp [GoMap.get, hk]
    · have hk2 : ¬ k = k1 := fun e => hk e.symm
      simp [GoMap.get, hk, hk2, ih]

theorem Value.ValidMap_append (maxAlloc : Nat) (m1 m2 : List (List Nat × Value))
    (h1 : Value.ValidMap maxAlloc m1 = true) (h2 : Value.ValidMap maxAlloc m2 = true) :
    Value.ValidMap maxAlloc (m1 ++ m2) = true := by
  induction m1 with
  | nil => simpa using h2
  | cons e m ih =>
    obtain ⟨k, v⟩ := e
    simp only [Value.ValidMap, Bool.and_eq_true] at h1
    simp only [List.cons_append, Value.ValidMap, Bool.and_eq_true]
    exact ⟨h1.1, ih h1.2⟩

theorem Value.ValidMap_filter (maxAlloc : Nat) (m : List (List Nat × Value))
    (f : List Nat × Value → Bool) (h : Value.ValidMap maxAlloc m = true) :
    Value.ValidMap maxAlloc (m.filter f) = true := by
  induction m with
  | nil => simpa using h
  | cons e m ih =>
    obtain ⟨k, v⟩ := e
    simp only [Value.ValidMap, Bool.and_eq_true] at h
    rw [List.filter_cons]
    split
    · simp only [Value.ValidMap, Bool.and_eq_true]
      exact ⟨h.1, ih h.2⟩
    · exact ih h.2

/-- A valid `Dict` is consistent. -/
theorem Value.Valid_dict_Consistent (maxAlloc : Nat) (d : Dict)
    (h : (Value.dict d).Valid maxAlloc = true) : d.Consistent := by
  simp only [Value.Valid, Bool.and_eq_true, decide_eq_true_eq] at h
  obtain ⟨⟨hkeys, hnodup⟩, _⟩ := h
  refine ⟨hnodup, fun key => ?_⟩
  rw [Dict.Get, GoMap.get_isSome_iff, hkeys]

/-- `Set` of a valid key and a valid tree keeps a `Dict` valid. -/
theorem Value.Valid_dict_Set (maxAlloc : Nat) (d : Dict) (k : List Nat) (v : Value)
    (hd : (Value.dict d).Valid maxAlloc = true) (hk : validString maxAlloc k = true)
    (hv : v.Valid maxAlloc = true) : (Value.dict (d.Set k v)).Valid maxAlloc = true := by
  have hcons := Value.Valid_dict_Consistent maxAlloc d hd
  have hkeys' := Dict.Set_keys d k v hcons
  have hcons' := Dict.Set_Consistent d k v hcons
  simp only [Value.Valid, Bool.and_eq_true, decide_eq_true_eq] at hd ⊢
  obtain ⟨⟨hkeys, _⟩, hm⟩ := hd
  refine ⟨⟨?_, hcons'.1⟩, ?_⟩
  · rw [hkeys', hkeys]
    simp only [Dict.Set, GoMap.set, List.map_append, List.map_cons, List.map_nil]
    congr 1
    rw [List.filter_map]
    rfl
  · simp only [Dict.Set, GoMap.set]
    apply Value.ValidMap_append
    · exact Value.ValidMap_filter _ _ _ hm
    · simp [Value.ValidMap, hk, hv]

/-- `NewDict(items...)` of valid keys and valid trees is a valid `Dict`. -/
theorem Value.Valid_NewDict (maxAlloc : Nat) (items : List DictItem)
    (h : ∀ it ∈ items, validString maxAlloc it.Key = true ∧ it.Value.Valid maxAlloc = true) :
    (Value.dict (NewDict items)).Valid maxAlloc = true := by
  induction items using List.reverseRecOn with
  | nil => simp [NewDict, Value.Valid, Value.ValidMap]
  | append_singleton items it ih =>
    rw [NewDict_append]
    have hit := h it (by simp)
    exact Value.Valid_dict_Set maxAlloc _ _ _
      (ih (fun it2 h2 => h it2 (by simp [h2]))) hit.1 hit.2


theorem putSliceLoop_length (f : GoValue → Value → Option DecodeError × GoValue) :
    ∀ (l : List Value) (elems : List GoValue), l.length ≤ elems.length →
      (Decoder.putSliceLoop f l elems).length = elems.length
  | [], elems, _ => by simp [Decoder.putSliceLoop]
  | _ :: _, [], h => by simp at h
  | v :: vs, e :: elems, h => by
    simp only [Decoder.putSliceLoop, List.length_cons]
    rw [putSliceLoop_length f vs elems (by simpa using h)]

theorem putSliceLoop_getElem_lt (f : GoValue → Value → Option DecodeError × GoValue) :
    ∀ (l : List Value) (elems : List GoValue) (i : Nat) (v : Value) (e : GoValue),
      l[i]? = some v → elems[i]? = some e →
      (Decoder.putSliceLoop f l elems)[i]? = some (f e v).2
  | [], _, i, v, e, hl, _ => by simp at hl
  | _ :: _, [], i, v, e, _, he => by simp at he
  | v0 :: vs, e0 :: elems, 0, v, e, hl, he => by
    simp only [List.getElem?_cons_zero, Option.some.injEq] at hl he
    subst hl; subst he
    simp [Decoder.putSliceLoop]
  | v0 :: vs, e0 :: elems, i + 1, v, e, hl, he => by
    simp only [List.getElem?_cons_succ] at hl he
    simp only [Decoder.putSliceLoop, List.getElem?_cons_succ]
    exact putSliceLoop_getElem_lt f vs elems i v e hl he

theorem putSliceLoop_getElem_ge (f : GoValue → Value → Option DecodeError × GoValue) :
    ∀ (l : List Value) (elems : List GoValue) (i : Nat), l.length ≤ elems.length →
      l.length ≤ i → (Decoder.putSliceLoop f l elems)[i]? = elems[i]?
  | [], _, i, _, _ => by simp [Decoder.putSliceLoop]
  | _ :: _, [], i, h, _ => by simp at h
  | v0 :: vs, e0 :: elems, 0, _, hi => by simp at hi
  | v0 :: vs, e0 :: elems, i + 1, h, hi => by
    simp only [Decoder.putSliceLoop, List.getElem?_cons_succ]
    exact putSliceLoop_getElem_ge f vs elems i (by simpa using h) (by simpa using hi)

/-- The `put` of a list into a slice whose elements are not bytes, step by step. -/
theorem put_slice_list (elem : GoType) (h : elem ≠ .uint8) (dst : GoValue) (l : List Value) :
    Decoder.put (.slice elem) dst (.list l) =
      (none, .slice (Decoder.putSliceLoop (Decoder.put elem) l
        (if (l.length : Int) - (dst.elems.length : Int) > 0 then
          dst.elems ++ List.replicate ((l.length : Int) - (dst.elems.length : Int)).toNat
            elem.zero
        else dst.elems))) := by
  cases elem <;> first | exact absurd rfl h | simp [Decoder.put, Decoder.putSlice]


theorem putStructFields_length :
    ∀ (fs : List (StructFieldOf GoType)) (vals : List GoValue) (d : Dict),
      (Decoder.putStructFields fs vals d).2.length = vals.length
  | [], vals, d => by simp [Decoder.putStructFields]
  | _ :: _, [], d => by simp [Decoder.putStructFields]
  | ⟨tag, exported, ty⟩ :: fs, field :: vals, d => by
    have ih := putStructFields_length fs vals d
    simp only [Decoder.putStructFields]
    split
    · simp
    · split
      · split
        · simp
        · simp [ih]
      · simp [ih]

/-- The fields after a successful `putStruct` loop over settable fields: a field whose key
the dict binds holds the result of `put` of that value into it, a field whose key the dict
lacks is as before. -/
theorem putStructFields_getElem :
    ∀ (fs : List (StructFieldOf GoType)) (vals : List GoValue) (d : Dict),
      (∀ f ∈ fs, f.Exported = true) → (Decoder.putStructFields fs vals d).1 = none →
      ∀ (i : Nat) (f : StructFieldOf GoType) (old : GoValue),
        fs[i]? = some f → vals[i]? = some old →
        (∀ value, d.Get (f.Tag.getD []) = some value →
          (Decoder.putStructFields fs vals d).2[i]? = some (Decoder.put f.Typ old value).2) ∧
        (d.Get (f.Tag.getD []) = none → (Decoder.putStructFields fs vals d).2[i]? = some old)
  | [], vals, d, _, _, i, f, old, hf, _ => by simp at hf
  | _ :: _, [], d, _, _, i, f, old, _, ho => by simp at ho
  | ⟨tag, exported, ty⟩ :: fs, field :: vals, d, hset, hok, i, f, old, hf, ho => by
    have hex : exported = true := hset ⟨tag, exported, ty⟩ (by simp)
    have hset2 : ∀ f ∈ fs, f.Exported = true := fun f hf => hset f (by simp [hf])
    subst hex
    simp only [Decoder.putStructFields, Bool.true_eq_false, if_false] at hok ⊢
    cases hg : d.Get (tag.getD []) with
    | none =>
      rw [hg] at hok
      simp only at hok ⊢
      cases i with
      | zero =>
        simp only [List.getElem?_cons_zero, Option.some.injEq] at hf ho
        subst hf; subst ho
        simp [hg]
      | succ i =>
        simp only [List.getElem?_cons_succ] at hf ho ⊢
        exact putStructFields_getElem fs vals d hset2 hok i f old hf ho
    | some value =>
      rw [hg] at hok
      simp only at hok ⊢
      cases hp : Decoder.put ty field value with
      | mk err field1 =>
        rw [hp] at hok
        cases err with
        | some e => simp at hok
        | none =>
          simp only at hok ⊢
          cases i with
          | zero =>
            simp only [List.getElem?_cons_zero, Option.some.injEq] at hf ho
            subst hf; subst ho
            simp [hg, hp]
          | succ i =>
            simp only [List.getElem?_cons_succ] at hf ho ⊢
            exact putStructFields_getElem fs vals d hset2 hok i f old hf ho

/-- The `putStruct` loop looks at the dict through the keys of the fields only. -/
theorem putStructFields_congr :
    ∀ (fs : List (StructFieldOf GoType)) (vals : List GoValue) (d d2 : Dict),
      (∀ f ∈ fs, d2.Get (f.Tag.getD []) = d.Get (f.Tag.getD [])) →
      Decoder.putStructFields fs vals d2 = Decoder.putStructFields fs vals d
  | [], vals, d, d2, _ => by simp [Decoder.putStructFields]
  | _ :: _, [], d, d2, _ => by simp [Decoder.putStructFields]
  | ⟨tag, exported, ty⟩ :: fs, field :: vals, d, d2, h => by
    have h0 := h ⟨tag, exported, ty⟩ (by simp)
    have ih := putStructFields_congr fs vals d d2 (fun f hf => h f (by simp [hf]))
    simp only at h0
    simp only [Decoder.putStructFields, h0, ih]

/-- Settable fields whose keys the dict lacks are passed over. -/
theorem putStructFields_absent :
    ∀ (pre fs : List (StructFieldOf GoType)) (vpre vals : List GoValue) (d : Dict),
      vpre.length = pre.length →
      (∀ f ∈ pre, f.Exported = true ∧ d.Get (f.Tag.getD []) = none) →
      Decoder.putStructFields (pre ++ fs) (vpre ++ vals) d =
        ((Decoder.putStructFields fs vals d).1, vpre ++ (Decoder.putStructFields fs vals d).2)
  | [], fs, [], vals, d, _, _ => by simp
  | [], fs, _ :: _, vals, d, h, _ => by simp at h
  | _ :: _, fs, [], vals, d, h, _ => by simp at h
  | ⟨tag, exported, ty⟩ :: pre, fs, v :: vpre, vals, d, hlen, h => by
    have h0 := h ⟨tag, exported, ty⟩ (by simp)
    have ih := putStructFields_absent pre fs vpre vals d (by simpa using hlen)
      (fun f hf => h f (by simp [hf]))
    simp only at h0
    rw [List.cons_append, List.cons_append]
    simp only [Decoder.putStructFields, h0.1, h0.2, Bool.true_eq_false, if_false, ih,
      List.cons_append]

theorem putStructFields_all_absent :
    ∀ (fs : List (StructFieldOf GoType)) (vals : List GoValue) (d : Dict),
      (∀ f ∈ fs, f.Exported = true ∧ d.Get (f.Tag.getD []) = none) →
      Decoder.putStructFields fs vals d = (none, vals)
  | [], vals, d, _ => by simp [Decoder.putStructFields]
  | _ :: _, [], d, _ => by simp [Decoder.putStructFields]
  | ⟨tag, exported, ty⟩ :: fs, v :: vals, d, h => by
    have h0 := h ⟨tag, exported, ty⟩ (by simp)
    have ih := putStructFields_all_absent fs vals d (fun f hf => h f (by simp [hf]))
    simp only at h0
    simp only [Decoder.putStructFields, h0.1, h0.2, Bool.true_eq_false, if_false, ih]

/-- `Parse` of a dict of pairs of valid keys and trees. -/
theorem Parse_pairs (maxAlloc : Nat) (m : List (List Nat × Value))
    (h : Value.ValidMap maxAlloc m = true) :
    (NewParser (100 :: (bencodePairs m ++ [101]))).Parse maxAlloc =
      .ok (.dict (m.foldl (fun d e => Dict.Set d e.1 e.2) (NewDict [])))
        { reader := [], offset := ((bencodePairs m).length : Int) + 2 } := by
  simp only [NewParser, Parser.Parse]
  generalize hF : 3 * (100 :: (bencodePairs m ++ [101])).length + 1 = F
  simp only [List.length_cons, List.length_append, List.length_singleton, List.length_nil]
    at hF
  obtain ⟨f, rfl⟩ : ∃ f, F = f + 2 := ⟨F - 2, by omega⟩
  rw [parseValue_dict, parseDictLoop_Bencode maxAlloc _ h f (NewDict []) [] _ (by omega)]
  simp
  omega


/-! ## What `put` leaves in a slice and in a struct -/

/-- The elements after `put` of a list into a slice whose elements are not bytes: the slice
has the larger of its old length and the length of the list; the element at a position below
the length of the list is what `put` of the item leaves in the element that was there (in a
zero element if there was none); the elements from there on are as before. -/
theorem put_slice_elems (elem : GoType) (helem : elem ≠ .uint8) (elems : List GoValue)
    (l : List Value) :
    ∃ res : List GoValue,
      Decoder.put (.slice elem) (.slice elems) (.list l) = (none, .slice res) ∧
      res.length = max elems.length l.length ∧
      (∀ (i : Nat) (v : Value), l[i]? = some v →
        res[i]? = some (Decoder.put elem ((elems[i]?).getD elem.zero) v).2) ∧
      (∀ i : Nat, l.length ≤ i → res[i]? = elems[i]?) := by
  refine ⟨_, put_slice_list elem helem (.slice elems) l, ?_, ?_, ?_⟩
  · simp only [GoValue.elems]
    split
    · rename_i hd
      rw [putSliceLoop_length _ _ _ (by simp; omega)]
      simp
      omega
    · rename_i hd
      rw [putSliceLoop_length _ _ _ (by omega)]
      omega
  · intro i v hv
    have hi : i < l.length := by
      rcases Nat.lt_or_ge i l.length with h | h
      · exact h
      · rw [List.getElem?_eq_none h] at hv; cases hv
    simp only [GoValue.elems]
    apply putSliceLoop_getElem_lt _ _ _ _ _ _ hv
    split
    · rename_i hd
      rcases Nat.lt_or_ge i elems.length with h | h
      · rw [List.getElem?_append_left h]
        simp [List.getElem?_eq_getElem h]
      · rw [List.getElem?_append_right h, List.getElem?_eq_none h]
        simp only [Option.getD_none, sub_pos, Nat.cast_lt, Int.toNat_sub, hd]
        rw [List.getElem?_replicate]
        have : i - elems.length < l.length - elems.length := by omega
        simp [this]
    · rename_i hd
      have h : i < elems.length := by omega
      simp [List.getElem?_eq_getElem h]
  · intro i hi
    simp only [GoValue.elems]
    split
    · rename_i hd
      rw [putSliceLoop_getElem_ge _ _ _ _ (by simp; omega) hi]
      have h : elems.length ≤ i := by omega
      rw [List.getElem?_eq_none h, List.getElem?_eq_none (by simp; omega)]
    · rename_i hd
      rw [putSliceLoop_getElem_ge _ _ _ _ (by omega) hi]

/-- The fields after a successful `put` of a dict into a struct whose fields are all settable:
a field whose key the dict binds holds what `put` of the value leaves in it, a field whose key
the dict lacks is as before, and the outcome depends on the dict through the keys of the
fields only. -/
theorem put_struct_fields (fields : List StructField) (vals : List GoValue) (d : Dict)
    (hlen : vals.length = fields.length) (hset : ∀ f ∈ fields, f.Exported = true)
    (hok : (Decoder.put (.struct fields) (.struct vals) (.dict d)).1 = none) :
    ∃ res : List GoValue,
      Decoder.put (.struct fields) (.struct vals) (.dict d) = (none, .struct res) ∧
      res.length = fields.length ∧
      (∀ (i : Nat) (key : List Nat) (ty : GoType) (old : GoValue) (value : Value),
        fields[i]? = some ⟨some key, true, ty⟩ → vals[i]? = some old →
        d.Get key = some value → res[i]? = some (Decoder.put ty old value).2) ∧
      (∀ (i : Nat) (key : List Nat) (ty : GoType) (old : GoValue),
        fields[i]? = some ⟨some key, true, ty⟩ → vals[i]? = some old →
        d.Get key = none → res[i]? = some old) ∧
      (∀ d2 : Dict, (∀ f ∈ fields, d2.Get (f.Tag.getD []) = d.Get (f.Tag.getD [])) →
        Decoder.put (.struct fields) (.struct vals) (.dict d2) =
          Decoder.put (.struct fields) (.struct vals) (.dict d)) := by
  simp only [Decoder.put, GoValue.fieldValues] at hok ⊢
  refine ⟨(Decoder.putStructFields fields vals d).2, ?_, ?_, ?_, ?_, ?_⟩
  · rw [hok]
  · rw [putStructFields_length, hlen]
  · intro i key ty old value hf ho hg
    exact (putStructFields_getElem fields vals d hset hok i _ old hf ho).1 value hg
  · intro i key ty old hf ho hg
    exact (putStructFields_getElem fields vals d hset hok i _ old hf ho).2 hg
  · intro d2 h
    rw [putStructFields_congr fields vals d d2 h]


/-! ## The call budget does not change an outcome -/

/-- A call that returns within its budget returns the same with one more call allowed. -/
theorem parse_fuel_succ (maxAlloc : Nat) (fuel : Nat) :
    (∀ p, Parser.parseValue maxAlloc fuel p ≠ .outOfFuel →
      Parser.parseValue maxAlloc (fuel + 1) p = Parser.parseValue maxAlloc fuel p) ∧
    (∀ p, Parser.parseList maxAlloc fuel p ≠ .outOfFuel →
      Parser.parseList maxAlloc (fuel + 1) p = Parser.parseList maxAlloc fuel p) ∧
    (∀ acc p, Parser.parseListLoop maxAlloc fuel acc p ≠ .outOfFuel →
      Parser.parseListLoop maxAlloc (fuel + 1) acc p = Parser.parseListLoop maxAlloc fuel acc p) ∧
    (∀ p, Parser.parseDict maxAlloc fuel p ≠ .outOfFuel →
      Parser.parseDict maxAlloc (fuel + 1) p = Parser.parseDict maxAlloc fuel p) ∧
    (∀ d p, Parser.parseDictLoop maxAlloc fuel d p ≠ .outOfFuel →
      Parser.parseDictLoop maxAlloc (fuel + 1) d p = Parser.parseDictLoop maxAlloc fuel d p) := by
  induction fuel with
  | zero =>
    refine ⟨?_, ?_, ?_, ?_, ?_⟩ <;> intros <;>
      simp_all [Parser.parseValue, Parser.parseList, Parser.parseListLoop, Parser.parseDict,
        Parser.parseDictLoop]
  | succ fuel ih =>
    obtain ⟨ihV, ihL, ihLL, ihD, ihDL⟩ := ih
    refine ⟨?_, ?_, ?_, ?_, ?_⟩
    · intro p h
      rw [Parser.parseValue] at h
      rw [Parser.parseValue, Parser.parseValue]
      cases hr : p.reader with
      | nil => rfl
      | cons b bs =>
        simp only [hr] at h ⊢
        by_cases h1 : b = 105
        · simp only [h1, if_true]
        · by_cases h2 : b = 108
          · simp only [h1, h2, if_false, if_true] at h ⊢
            exact ihL p h
          · by_cases h3 : b = 100
            · simp only [h1, h2, h3, if_false, if_true] at h ⊢
              exact ihD p h
            · simp only [h1, h2, h3, if_false]
    · intro p h
      rw [Parser.parseList] at h
      rw [Parser.parseList, Parser.parseList]
      rcases hs : p.skipDelimeter with ⟨_ | err, p1⟩
      · simp only [hs] at h ⊢
        exact ihLL [] p1 h
      · simp only [hs]
    · intro acc p h
      rw [Parser.parseListLoop] at h
      rw [Parser.parseListLoop, Parser.parseListLoop]
      have hv : Parser.parseValue maxAlloc fuel p ≠ .outOfFuel := by
        intro hv
        simp [hv] at h
      rw [ihV p hv]
      cases hr : Parser.parseValue maxAlloc fuel p with
      | ok item p1 =>
        simp only [hr] at h ⊢
        exact ihLL _ p1 h
      | fail v e p1 => cases e <;> rfl
      | panic => rfl
      | outOfFuel => exact absurd hr hv
    · intro p h
      rw [Parser.parseDict] at h
      rw [Parser.parseDict, Parser.parseDict]
      rcases hs : p.skipDelimeter with ⟨_ | err, p1⟩
      · simp only [hs] at h ⊢
        exact ihDL _ p1 h
      · simp only [hs]
    · intro d p h
      rw [Parser.parseDictLoop] at h
      rw [Parser.parseDictLoop, Parser.parseDictLoop]
      have hv : Parser.parseValue maxAlloc fuel p ≠ .outOfFuel := by
        intro hv
        simp [hv] at h
      rw [ihV p hv]
      cases hr : Parser.parseValue maxAlloc fuel p with
      | ok key p1 =>
        cases key with
        | string k =>
          simp only [hr] at h ⊢
          have hv1 : Parser.parseValue maxAlloc fuel p1 ≠ .outOfFuel := by
            intro hv1
            simp [hv1] at h
          rw [ihV p1 hv1]
          cases hr1 : Parser.parseValue maxAlloc fuel p1 with
          | ok value p2 =>
            simp only [hr1] at h ⊢
            exact ihDL _ p2 h
          | fail v e p2 => rfl
          | panic => rfl
          | outOfFuel => exact absurd hr1 hv1
        | int i => rfl
        | list l => rfl
        | dict dd => rfl
      | fail v e p1 => cases e <;> rfl
      | panic => rfl
      | outOfFuel => exact absurd hr hv

/-- A call that returns within its budget returns the same under every larger budget. -/
theorem parseValue_fuel_add (maxAlloc : Nat) (p : Parser) (fuel k : Nat)
    (h : Parser.parseValue maxAlloc fuel p ≠ .outOfFuel) :
    Parser.parseValue maxAlloc (fuel + k) p = Parser.parseValue maxAlloc fuel p := by
  induction k with
  | zero => rfl
  | succ k ih =>
    rw [← Nat.add_assoc, (parse_fuel_succ maxAlloc (fuel + k)).1 p (by rw [ih]; exact h), ih]

/-- The outcome of `Parse` is the outcome of `parseValue` under every budget of at least three
calls per unread byte and one more. -/
theorem parseValue_eq_Parse (maxAlloc : Nat) (p : Parser) (fuel : Nat)
    (h : 3 * p.reader.length + 1 ≤ fuel) :
    Parser.parseValue maxAlloc fuel p = p.Parse maxAlloc := by
  obtain ⟨k, rfl⟩ : ∃ k, fuel = 3 * p.reader.length + 1 + k := ⟨fuel - (3 * p.reader.length + 1), by omega⟩
  exact parseValue_fuel_add maxAlloc p _ k (Parser.parseValue_fuel maxAlloc p)

/-! ## Bounds on the loops and on the nesting -/

/-- A `parseValue` call that returns a value has consumed at least one byte. -/
theorem parseValue_ok_lt (maxAlloc fuel : Nat) (p p1 : Parser) (v : Value)
    (h : Parser.parseValue maxAlloc fuel p = .ok v p1) : p1.reader.length < p.reader.length := by
  have := (parse_Consumed maxAlloc fuel).1 p
  rw [h] at this
  exact this

/-- A `parseValue` call that returns the end-of-value signal has consumed at least one byte. -/
theorem parseValue_end_lt (maxAlloc fuel : Nat) (p p1 : Parser) (v : Option Value)
    (h : Parser.parseValue maxAlloc fuel p = .fail v .errValueEnd p1) :
    p1.reader.length < p.reader.length := by
  have := (parse_Consumed maxAlloc fuel).1 p
  rw [h] at this
  exact this

/-- The loop of `parseList` runs at most one iteration per unread byte and one more. -/
theorem parseListLoopIterations_le (maxAlloc : Nat) (fuel : Nat) :
    ∀ p, Parser.parseListLoopIterations maxAlloc fuel p ≤ p.reader.length + 1 := by
  induction fuel with
  | zero => intro p; simp [Parser.parseListLoopIterations]
  | succ fuel ih =>
    intro p
    rw [Parser.parseListLoopIterations]
    split
    · rename_i v p1 hr
      have := parseValue_ok_lt maxAlloc fuel p p1 v hr
      have := ih p1
      omega
    · omega

/-- The loop of `parseDict` runs at most one iteration per unread byte and one more. -/
theorem parseDictLoopIterations_le (maxAlloc : Nat) (fuel : Nat) :
    ∀ p, Parser.parseDictLoopIterations maxAlloc fuel p ≤ p.reader.length + 1 := by
  induction fuel with
  | zero => intro p; simp [Parser.parseDictLoopIterations]
  | succ fuel ih =>
    intro p
    rw [Parser.parseDictLoopIterations]
    split
    · rename_i k p1 hr
      have h1 := parseValue_ok_lt maxAlloc fuel p p1 _ hr
      split
      · rename_i v p2 hr1
        have h2 := parseValue_ok_lt maxAlloc fuel p1 p2 v hr1
        have := ih p2
        omega
      · omega
    · omega

/-- The loop of a `parseList` call runs at most one iteration per unread byte. -/
theorem parseListIterations_le (maxAlloc : Nat) (fuel : Nat) (p : Parser) :
    Parser.parseListIterations maxAlloc fuel p ≤ p.reader.length := by
  cases fuel with
  | zero => simp [Parser.parseListIterations]
  | succ fuel =>
    rw [Parser.parseListIterations]
    have hs := skipDelimeter_length p
    rcases hsd : p.skipDelimeter with ⟨_ | err, p1⟩
    · simp only [hsd]
      rw [hsd] at hs
      have := hs.2.1 rfl
      have := parseListLoopIterations_le maxAlloc fuel p1
      simp only at *
      omega
    · simp

/-- The loop of a `parseDict` call runs at most one iteration per unread byte. -/
theorem parseDictIterations_le (maxAlloc : Nat) (fuel : Nat) (p : Parser) :
    Parser.parseDictIterations maxAlloc fuel p ≤ p.reader.length := by
  cases fuel with
  | zero => simp [Parser.parseDictIterations]
  | succ fuel =>
    rw [Parser.parseDictIterations]
    have hs := skipDelimeter_length p
    rcases hsd : p.skipDelimeter with ⟨_ | err, p1⟩
    · simp only [hsd]
      rw [hsd] at hs
      have := hs.2.1 rfl
      have := parseDictLoopIterations_le maxAlloc fuel p1
      simp only at *
      omega
    · simp

/-- The nesting depth below every call of the parser is bounded by the unread bytes. -/
theorem parse_Nesting_le (maxAlloc : Nat) (fuel : Nat) :
    (∀ p, Parser.parseValueNesting maxAlloc fuel p ≤ p.reader.length) ∧
    (∀ p, Parser.parseListNesting maxAlloc fuel p ≤ p.reader.length) ∧
    (∀ p, Parser.parseListLoopNesting maxAlloc fuel p ≤ p.reader.length + 1) ∧
    (∀ p, Parser.parseDictNesting maxAlloc fuel p ≤ p.reader.length) ∧
    (∀ p, Parser.parseDictLoopNesting maxAlloc fuel p ≤ p.reader.length + 1) := by
  induction fuel with
  | zero =>
    refine ⟨?_, ?_, ?_, ?_, ?_⟩ <;> intros <;>
      simp [Parser.parseValueNesting, Parser.parseListNesting, Parser.parseListLoopNesting,
        Parser.parseDictNesting, Parser.parseDictLoopNesting]
  | succ fuel ih =>
    obtain ⟨ihV, ihL, ihLL, ihD, ihDL⟩ := ih
    refine ⟨?_, ?_, ?_, ?_, ?_⟩
    · intro p
      rw [Parser.parseValueNesting]
      split
      · omega
      · split
        · omega
        · split
          · exact ihL p
          · split
            · exact ihD p
            · omega
    · intro p
      rw [Parser.parseListNesting]
      have hs := skipDelimeter_length p
      rcases hsd : p.skipDelimeter with ⟨_ | err, p1⟩
      · simp only [hsd]
        rw [hsd] at hs
        have := hs.2.1 rfl
        have := ihLL p1
        simp only at *
        omega
      · simp
    · intro p
      rw [Parser.parseListLoopNesting]
      have hV := ihV p
      split
      · rename_i v p1 hr
        have := parseValue_ok_lt maxAlloc fuel p p1 v hr
        have := ihLL p1
        simp only [max_le_iff]
        omega
      · omega
    · intro p
      rw [Parser.parseDictNesting]
      have hs := skipDelimeter_length p
      rcases hsd : p.skipDelimeter with ⟨_ | err, p1⟩
      · simp only [hsd]
        rw [hsd] at hs
        have := hs.2.1 rfl
        have := ihDL p1
        simp only at *
        omega
      · simp
    · intro p
      rw [Parser.parseDictLoopNesting]
      have hV := ihV p
      split
      · rename_i k p1 hr
        have h1 := parseValue_ok_lt maxAlloc fuel p p1 _ hr
        have hV1 := ihV p1
        split
        · rename_i v p2 hr1
          have h2 := parseValue_ok_lt maxAlloc fuel p1 p2 v hr1
          have := ihDL p2
          simp only [max_le_iff]
          omega
        · simp only [max_le_iff]
          omega
      · omega

/-- The iterations counted are the iterations of the loop: a loop of `parseList` that returns
a list has run one iteration for each item it appended and one more, which met the end. -/
theorem parseListLoop_Iterations (maxAlloc : Nat) (fuel : Nat) :
    ∀ (acc : List Value) (p p1 : Parser) (v : Value),
      Parser.parseListLoop maxAlloc fuel acc p = .ok v p1 →
      ∃ l, v = .list l ∧
        l.length + 1 = acc.length + Parser.parseListLoopIterations maxAlloc fuel p := by
  induction fuel with
  | zero => intro acc p p1 v h; simp [Parser.parseListLoop] at h
  | succ fuel ih =>
    intro acc p p1 v h
    rw [Parser.parseListLoop] at h
    rw [Parser.parseListLoopIterations]
    cases hr : Parser.parseValue maxAlloc fuel p with
    | ok item p2 =>
      simp only [hr] at h ⊢
      obtain ⟨l, hl, hlen⟩ := ih _ p2 p1 v h
      refine ⟨l, hl, ?_⟩
      simp only [List.length_append, List.length_singleton] at hlen
      omega
    | fail w e p2 =>
      cases e with
      | errValueEnd =>
        simp only [hr, Outcome.ok.injEq] at h ⊢
        exact ⟨acc, h.1.symm, rfl⟩
      | EOF => simp [hr] at h
      | ErrSyntax x => simp [hr] at h
    | panic => simp [hr] at h
    | outOfFuel => simp [hr] at h


/-! ## Reading and writing the memory -/

theorem List.getD_set_self {α : Type} (l : List α) (i : Nat) (x d : α) (h : i < l.length) :
    (l.set i x).getD i d = x := by
  rw [List.getD_eq_getElem?_getD, List.getElem?_set]
  simp [h]

theorem List.getD_set_ne {α : Type} (l : List α) (i j : Nat) (x d : α) (h : i ≠ j) :
    (l.set i x).getD j d = l.getD j d := by
  rw [List.getD_eq_getElem?_getD, List.getElem?_set, List.getD_eq_getElem?_getD]
  simp [h]

theorem MemValue.load_store_path (v : MemValue) :
    ∀ (p : List Nat) (c : MemValue), MemValue.HasPath p c = true →
      MemValue.load p (MemValue.store p c v) = v
  | [], c, _ => rfl
  | i :: p, c, h => by
    simp only [MemValue.HasPath, Bool.and_eq_true, decide_eq_true_eq] at h
    cases c with
    | struct fs =>
      simp only [MemValue.fieldValues] at h
      simp only [MemValue.store, MemValue.load, MemValue.fieldValues]
      rw [List.getD_eq_getElem?_getD, List.getElem?_set]
      simp only [h.1, if_true, Option.getD_some]
      exact MemValue.load_store_path v p _ h.2
    | _ => simp [MemValue.fieldValues] at h

theorem MemValue.store_load :
    ∀ (p : List Nat) (c : MemValue), MemValue.store p c (MemValue.load p c) = c
  | [], c => rfl
  | i :: p, c => by
    cases c with
    | struct fs =>
      simp only [MemValue.store, MemValue.load, MemValue.fieldValues]
      rw [MemValue.store_load p]
      congr 1
      apply List.ext_getElem?
      intro j
      rw [List.getElem?_set]
      by_cases hij : i = j
      · subst hij
        by_cases hi : i < fs.length
        · simp [hi, List.getD_eq_getElem?_getD, List.getElem?_eq_getElem hi]
        · simp [hi, List.getElem?_eq_none (Nat.le_of_not_lt hi)]
      · simp [hij]
    | _ => rfl

theorem MemValue.store_store (v w : MemValue) :
    ∀ (p : List Nat) (c : MemValue),
      MemValue.store p (MemValue.store p c v) w = MemValue.store p c w
  | [], c => rfl
  | i :: p, c => by
    cases c with
    | struct fs =>
      simp only [MemValue.store]
      congr 1
      by_cases hi : i < fs.length
      · rw [List.getD_set_self _ _ _ _ hi, List.set_set, MemValue.store_store v w p]
      · simp [List.set_eq_of_length_le (Nat.le_of_not_lt hi)]
    | _ => rfl

theorem MemValue.HasPath_store (v : MemValue) :
    ∀ (p : List Nat) (c : MemValue), MemValue.HasPath p c = true →
      MemValue.HasPath p (MemValue.store p c v) = true
  | [], c, _ => rfl
  | i :: p, c, h => by
    simp only [MemValue.HasPath, Bool.and_eq_true, decide_eq_true_eq] at h
    cases c with
    | struct fs =>
      simp only [MemValue.fieldValues] at h
      simp only [MemValue.store, MemValue.HasPath, MemValue.fieldValues, List.length_set,
        Bool.and_eq_true, decide_eq_true_eq]
      refine ⟨h.1, ?_⟩
      rw [List.getD_eq_getElem?_getD, List.getElem?_set]
      simp only [h.1, if_true, Option.getD_some]
      exact MemValue.HasPath_store v p _ h.2
    | _ => simp [MemValue.fieldValues] at h

theorem MemValue.load_append :
    ∀ (p q : List Nat) (c : MemValue),
      MemValue.load (p ++ q) c = MemValue.load q (MemValue.load p c)
  | [], q, c => rfl
  | i :: p, q, c => by
    simp only [List.cons_append, MemValue.load]
    exact MemValue.load_append p q _

theorem MemValue.HasPath_append :
    ∀ (p q : List Nat) (c : MemValue),
      MemValue.HasPath (p ++ q) c =
        (MemValue.HasPath p c && MemValue.HasPath q (MemValue.load p c))
  | [], q, c => by simp [MemValue.HasPath, MemValue.load]
  | i :: p, q, c => by
    rw [List.cons_append, MemValue.HasPath, MemValue.HasPath, MemValue.load,
      MemValue.HasPath_append p q, Bool.and_assoc]

theorem MemValue.store_append (v : MemValue) :
    ∀ (p q : List Nat) (c : MemValue), MemValue.HasPath p c = true →
      MemValue.store (p ++ q) c v = MemValue.store p c (MemValue.store q (MemValue.load p c) v)
  | [], q, c, _ => rfl
  | i :: p, q, c, h => by
    simp only [MemValue.HasPath, Bool.and_eq_true, decide_eq_true_eq] at h
    cases c with
    | struct fs =>
      simp only [MemValue.fieldValues] at h
      rw [List.cons_append, MemValue.store, MemValue.store, MemValue.load,
        MemValue.store_append v p q _ h.2]
      rfl
    | _ => simp [MemValue.fieldValues] at h

/-! ### Arrays after a write -/

theorem Memory.array_lt {m : Memory} {a : Nat} (h : ¬ a < m.arrays.length) : m.array a = [] := by
  simp [Memory.array, List.getD_eq_getElem?_getD, List.getElem?_eq_none (Nat.le_of_not_lt h)]

theorem Memory.store_arrays_length (m : Memory) (loc : Loc) (v : MemValue) :
    (m.store loc v).arrays.length = m.arrays.length := by
  simp [Memory.store]

theorem Memory.store_maps (m : Memory) (loc : Loc) (v : MemValue) :
    (m.store loc v).maps = m.maps := rfl

theorem Memory.store_array_ne (m : Memory) (loc : Loc) (v : MemValue) (b : Nat)
    (h : b ≠ loc.array) : (m.store loc v).array b = m.array b := by
  simp only [Memory.store, Memory.array, List.getD_eq_getElem?_getD, List.getElem?_set]
  simp [Ne.symm h]

theorem Memory.store_array_self (m : Memory) (loc : Loc) (v : MemValue) :
    (m.store loc v).array loc.array =
      (m.array loc.array).set loc.index
        (MemValue.store loc.path ((m.array loc.array).getD loc.index (.other 0)) v) := by
  by_cases h : loc.array < m.arrays.length
  · simp only [Memory.store, Memory.array, List.getD_eq_getElem?_getD, List.getElem?_set]
    simp [h]
  · rw [Memory.array_lt (by simpa [Memory.store] using h), Memory.array_lt h]
    rfl

theorem Memory.load_store (m : Memory) (loc : Loc) (v : MemValue) (h : m.Valid loc = true) :
    (m.store loc v).load loc = v := by
  simp only [Memory.Valid, Bool.and_eq_true, decide_eq_true_eq] at h
  obtain ⟨⟨_, h2⟩, h3⟩ := h
  rw [Memory.load, Memory.store_array_self, List.getD_eq_getElem?_getD, List.getElem?_set]
  simp only [h2, if_true, Option.getD_some]
  exact MemValue.load_store_path v _ _ h3

theorem Memory.Valid_store (m : Memory) (loc : Loc) (v : MemValue) (h : m.Valid loc = true) :
    (m.store loc v).Valid loc = true := by
  have h0 := h
  simp only [Memory.Valid, Bool.and_eq_true, decide_eq_true_eq] at h ⊢
  obtain ⟨⟨h1, h2⟩, h3⟩ := h
  rw [Memory.store_array_self, Memory.store_arrays_length]
  refine ⟨⟨h1, by simpa using h2⟩, ?_⟩
  rw [List.getD_eq_getElem?_getD, List.getElem?_set]
  simp only [h2, if_true, Option.getD_some]
  exact MemValue.HasPath_store v _ _ h3

theorem Memory.store_mapAt (m : Memory) (loc : Loc) (v : MemValue) (id : Nat) :
    (m.store loc v).mapAt id = m.mapAt id := rfl

theorem Memory.alloc_array_lt (m : Memory) (arr : List MemValue) (b : Nat)
    (h : b < m.arrays.length) : (m.alloc arr).array b = m.array b := by
  simp [Memory.alloc, Memory.array, List.getD_eq_getElem?_getD, List.getElem?_append_left h]

theorem Memory.alloc_array_self (m : Memory) (arr : List MemValue) :
    (m.alloc arr).array m.arrays.length = arr := by
  simp [Memory.alloc, Memory.array, List.getD_eq_getElem?_getD]

theorem Memory.alloc_arrays_length (m : Memory) (arr : List MemValue) :
    (m.alloc arr).arrays.length = m.arrays.length + 1 := by
  simp [Memory.alloc]

theorem Memory.alloc_mapAt (m : Memory) (arr : List MemValue) (id : Nat) :
    (m.alloc arr).mapAt id = m.mapAt id := rfl

theorem Memory.load_eq_of_array (m m2 : Memory) (loc : Loc)
    (h : m2.array loc.array = m.array loc.array) : m2.load loc = m.load loc := by
  simp [Memory.load, h]

theorem Memory.Valid_of_array (m m2 : Memory) (loc : Loc)
    (h : m2.array loc.array = m.array loc.array) (hl : m.arrays.length ≤ m2.arrays.length)
    (hv : m.Valid loc = true) : m2.Valid loc = true := by
  simp only [Memory.Valid, Bool.and_eq_true, decide_eq_true_eq] at hv ⊢
  rw [h]
  exact ⟨⟨by omega, hv.1.2⟩, hv.2⟩

/-! ### Frames -/

theorem List.set_getD_self {α : Type} (l : List α) (i : Nat) (d : α) :
    l.set i (l.getD i d) = l := by
  by_cases hi : i < l.length
  · apply List.ext_getElem?
    intro j
    rw [List.getElem?_set]
    by_cases hij : i = j
    · subst hij
      simp [hi, List.getD_eq_getElem?_getD, List.getElem?_eq_getElem hi]
    · simp [hij]
  · exact List.set_eq_of_length_le (Nat.le_of_not_lt hi)

theorem Memory.Frame.refl (m : Memory) (loc : Loc) (own : List Addr) : m.Frame m loc own where
  grows := fun _ h => h
  same := fun x _ _ _ => by cases x <;> rfl
  cell := by
    rw [Memory.load, MemValue.store_load, List.set_getD_self]

theorem Memory.SameAt.chain {m m1 m2 : Memory} {x : Addr} (h1 : m.SameAt m1 x)
    (h2 : m1.SameAt m2 x) : m.SameAt m2 x := by
  cases x with
  | array a => exact Eq.trans h2 h1
  | map id => exact Eq.trans h2 h1

theorem Memory.Frame.seq {m m1 m2 : Memory} {loc : Loc} {own own1 : List Addr}
    (h1 : m.Frame m1 loc own) (h2 : m1.Frame m2 loc own1)
    (hsub : ∀ x ∈ own1, x ∈ own ∨ ¬ m.Has x) : m.Frame m2 loc own where
  grows := fun x h => h2.grows x (h1.grows x h)
  same := fun x hx hown hne => by
    refine (h1.same x hx hown hne).chain (h2.same x (h1.grows x hx) ?_ hne)
    intro hmem
    rcases hsub x hmem with h | h
    · exact hown h
    · exact h hx
  cell := by
    rw [h2.cell, h1.cell]
    by_cases hi : loc.index < (m.array loc.array).length
    · rw [List.getD_set_self _ _ _ _ hi, List.set_set, MemValue.store_store]
    · simp [List.set_eq_of_length_le (Nat.le_of_not_lt hi)]

/-- A frame of a destination is a frame of every destination that owns more. -/
theorem Memory.Frame.widen {m m2 : Memory} {loc : Loc} {own own2 : List Addr}
    (h : m.Frame m2 loc own) (hsub : ∀ x ∈ own, x ∈ own2) : m.Frame m2 loc own2 where
  grows := h.grows
  same := fun x hx hown hne => h.same x hx (fun hm => hown (hsub x hm)) hne
  cell := h.cell


/-! ## What a cell reaches decides what it holds -/

theorem Memory.elems_congr (m m2 : Memory) (a off len cap : Nat)
    (h : m2.array a = m.array a) :
    m2.elems (.slice a off len cap) = m.elems (.slice a off len cap) := by
  simp [Memory.elems, h]

mutual
/-- A memory that holds the same at every address a cell reaches gives the cell the same
value and the same reach. -/
theorem Memory.view_congr (m m2 : Memory) :
    (ty : GoType) → (c : MemValue) → (∀ x ∈ m.reach ty c, m.SameAt m2 x) →
      m2.view ty c = m.view ty c ∧ m2.reach ty c = m.reach ty c
  | .slice elem, c, h => by
    cases c with
    | slice a off len cap =>
      by_cases h0 : len = 0 ∧ cap = 0
      · obtain ⟨rfl, rfl⟩ := h0
        simp [Memory.view, Memory.reach, Memory.elems]
      · simp only [Memory.reach, h0, if_false, List.mem_cons, List.mem_flatMap] at h
        have ha : m2.array a = m.array a := h (.array a) (Or.inl rfl)
        have he := Memory.elems_congr m m2 a off len cap ha
        have ih : ∀ e ∈ m.elems (.slice a off len cap),
            m2.view elem e = m.view elem e ∧ m2.reach elem e = m.reach elem e :=
          fun e hmem => Memory.view_congr m m2 elem e
            (fun x hx => h x (Or.inr ⟨e, hmem, hx⟩))
        simp only [Memory.view, Memory.reach, h0, if_false, he]
        refine ⟨?_, ?_⟩
        · congr 1
          exact List.map_congr_left (fun e hmem => (ih e hmem).1)
        · congr 1
          exact List.flatMap_congr (fun e hmem => (ih e hmem).2)
    | _ => simp [Memory.view, Memory.reach, Memory.elems]
  | .map key elem, c, h => by
    cases c with
    | map id =>
      simp only [Memory.reach, List.mem_cons, List.mem_flatMap] at h
      have hm : m2.mapAt id = m.mapAt id := h (.map id) (Or.inl rfl)
      have ih : ∀ e ∈ m.mapAt id,
          m2.view elem e.2 = m.view elem e.2 ∧ m2.reach elem e.2 = m.reach elem e.2 :=
        fun e hmem => Memory.view_congr m m2 elem e.2
          (fun x hx => h x (Or.inr ⟨e, hmem, hx⟩))
      simp only [Memory.view, Memory.reach, hm]
      refine ⟨?_, ?_⟩
      · congr 1
        exact List.map_congr_left (fun e hmem => by rw [(ih e hmem).1])
      · congr 1
        exact List.flatMap_congr (fun e hmem => (ih e hmem).2)
    | _ => simp [Memory.view, Memory.reach]
  | .struct fields, c, h => by
    simp only [Memory.reach] at h
    have := Memory.viewFields_congr m m2 fields c.fieldValues h
    simp only [Memory.view, Memory.reach, this.1, this.2, and_self]
  | .iface, c, _ => by simp [Memory.view, Memory.reach]
  | .int64, c, _ => by simp [Memory.view, Memory.reach]
  | .string, c, _ => by simp [Memory.view, Memory.reach]
  | .uint8, c, _ => by simp [Memory.view, Memory.reach]
  | .ptr _, c, _ => by simp [Memory.view, Memory.reach]
  | .other _, c, _ => by simp [Memory.view, Memory.reach]
/-- The same for the fields of a struct. -/
theorem Memory.viewFields_congr (m m2 : Memory) :
    (fs : List (StructFieldOf GoType)) → (cs : List MemValue) →
      (∀ x ∈ m.reachFields fs cs, m.SameAt m2 x) →
      m2.viewFields fs cs = m.viewFields fs cs ∧ m2.reachFields fs cs = m.reachFields fs cs
  | [], _, _ => by simp [Memory.viewFields, Memory.reachFields]
  | _ :: _, [], _ => by simp [Memory.viewFields, Memory.reachFields]
  | ⟨_, _, ty⟩ :: fs, c :: cs, h => by
    simp only [Memory.reachFields, List.mem_append] at h
    have h1 := Memory.view_congr m m2 ty c (fun x hx => h x (Or.inl hx))
    have h2 := Memory.viewFields_congr m m2 fs cs (fun x hx => h x (Or.inr hx))
    simp only [Memory.viewFields, Memory.reachFields, h1.1, h1.2, h2.1, h2.2, and_self]
end

mutual
/-- What a well-formed cell reaches exists in the memory. -/
theorem Memory.WellFormed_Has (m : Memory) :
    (ty : GoType) → (c : MemValue) → m.WellFormed ty c = true → ∀ x ∈ m.reach ty c, m.Has x
  | .slice elem, c, h => by
    cases c with
    | slice a off len cap =>
      intro x hx
      simp only [Memory.WellFormed, Bool.and_eq_true, Bool.or_eq_true, decide_eq_true_eq,
        List.all_eq_true] at h
      by_cases h0 : len = 0 ∧ cap = 0
      · simp [Memory.reach, h0] at hx
      · simp only [Memory.reach, h0, if_false, List.mem_cons, List.mem_flatMap] at hx
        rcases hx with rfl | ⟨e, hmem, hx⟩
        · rcases h.1.2 with hc | hc
          · exact absurd ⟨by omega, hc⟩ h0
          · exact hc.1
        · exact Memory.WellFormed_Has m elem e (h.2 e hmem) x hx
    | _ => simp [Memory.reach]
  | .map key elem, c, h => by
    cases c with
    | map id =>
      intro x hx
      simp only [Memory.WellFormed, Bool.and_eq_true, decide_eq_true_eq,
        List.all_eq_true] at h
      simp only [Memory.reach, List.mem_cons, List.mem_flatMap] at hx
      rcases hx with rfl | ⟨e, hmem, hx⟩
      · exact h.1
      · exact Memory.WellFormed_Has m elem e.2 (h.2 e hmem) x hx
    | _ => simp [Memory.reach]
  | .struct fields, c, h => by
    cases c with
    | struct cs =>
      simp only [Memory.WellFormed] at h
      simp only [Memory.reach, MemValue.fieldValues]
      exact Memory.WellFormedFields_Has m fields cs h
    | _ => simp [Memory.WellFormed] at h
  | .iface, c, _ => by simp [Memory.reach]
  | .int64, c, _ => by simp [Memory.reach]
  | .string, c, _ => by simp [Memory.reach]
  | .uint8, c, _ => by simp [Memory.reach]
  | .ptr _, c, _ => by simp [Memory.reach]
  | .other _, c, _ => by simp [Memory.reach]
/-- The same for the fields of a struct. -/
theorem Memory.WellFormedFields_Has (m : Memory) :
    (fs : List (StructFieldOf GoType)) → (cs : List MemValue) →
      m.WellFormedFields fs cs = true → ∀ x ∈ m.reachFields fs cs, m.Has x
  | [], _, _ => by simp [Memory.reachFields]
  | _ :: _, [], _ => by simp [Memory.reachFields]
  | ⟨_, _, ty⟩ :: fs, c :: cs, h => by
    simp only [Memory.WellFormedFields, Bool.and_eq_true] at h
    intro x hx
    simp only [Memory.reachFields, List.mem_append] at hx
    rcases hx with hx | hx
    · exact Memory.WellFormed_Has m ty c h.1 x hx
    · exact Memory.WellFormedFields_Has m fs cs h.2 x hx
end

mutual
/-- A well-formed cell is well formed in every memory that has grown and holds the same at
the addresses the cell reaches. -/
theorem Memory.WellFormed_congr (m m2 : Memory) (hg : ∀ x, m.Has x → m2.Has x) :
    (ty : GoType) → (c : MemValue) → m.WellFormed ty c = true →
      (∀ x ∈ m.reach ty c, m.SameAt m2 x) → m2.WellFormed ty c = true
  | .slice elem, c, h, hs => by
    cases c with
    | slice a off len cap =>
      simp only [Memory.WellFormed, Bool.and_eq_true, Bool.or_eq_true, decide_eq_true_eq,
        List.all_eq_true] at h ⊢
      by_cases h0 : len = 0 ∧ cap = 0
      · obtain ⟨rfl, rfl⟩ := h0
        simp [Memory.elems]
      · simp only [Memory.reach, h0, if_false, List.mem_cons, List.mem_flatMap] at hs
        have ha : m2.array a = m.array a := hs (.array a) (Or.inl rfl)
        have he := Memory.elems_congr m m2 a off len cap ha
        rw [he, ha]
        refine ⟨⟨h.1.1, ?_⟩, ?_⟩
        · rcases h.1.2 with hc | hc
          · exact Or.inl hc
          · exact Or.inr ⟨hg (.array a) hc.1, hc.2⟩
        · intro e hmem
          exact Memory.WellFormed_congr m m2 hg elem e (h.2 e hmem)
            (fun x hx => hs x (Or.inr ⟨e, hmem, hx⟩))
    | _ => simp [Memory.WellFormed] at h
  | .map key elem, c, h, hs => by
    cases c with
    | map id =>
      simp only [Memory.WellFormed, Bool.and_eq_true, decide_eq_true_eq,
        List.all_eq_true] at h ⊢
      simp only [Memory.reach, List.mem_cons, List.mem_flatMap] at hs
      have hm : m2.mapAt id = m.mapAt id := hs (.map id) (Or.inl rfl)
      rw [hm]
      refine ⟨hg (.map id) h.1, ?_⟩
      intro e hmem
      exact Memory.WellFormed_congr m m2 hg elem e.2 (h.2 e hmem)
        (fun x hx => hs x (Or.inr ⟨e, hmem, hx⟩))
    | mapNil => simp [Memory.WellFormed]
    | _ => simp [Memory.WellFormed] at h
  | .struct fields, c, h, hs => by
    cases c with
    | struct cs =>
      simp only [Memory.WellFormed] at h ⊢
      simp only [Memory.reach, MemValue.fieldValues] at hs
      exact Memory.WellFormedFields_congr m m2 hg fields cs h hs
    | _ => simp [Memory.WellFormed] at h
  | .iface, c, _, _ => by simp [Memory.WellFormed]
  | .int64, c, _, _ => by simp [Memory.WellFormed]
  | .string, c, _, _ => by simp [Memory.WellFormed]
  | .uint8, c, _, _ => by simp [Memory.WellFormed]
  | .ptr _, c, _, _ => by simp [Memory.WellFormed]
  | .other _, c, _, _ => by simp [Memory.WellFormed]
/-- The same for the fields of a struct. -/
theorem Memory.WellFormedFields_congr (m m2 : Memory) (hg : ∀ x, m.Has x → m2.Has x) :
    (fs : List (StructFieldOf GoType)) → (cs : List MemValue) →
      m.WellFormedFields fs cs = true →
      (∀ x ∈ m.reachFields fs cs, m.SameAt m2 x) → m2.WellFormedFields fs cs = true
  | [], [], _, _ => by simp [Memory.WellFormedFields]
  | [], _ :: _, h, _ => by simp [Memory.WellFormedFields] at h
  | _ :: _, [], h, _ => by simp [Memory.WellFormedFields] at h
  | ⟨_, _, ty⟩ :: fs, c :: cs, h, hs => by
    simp only [Memory.WellFormedFields, Bool.and_eq_true] at h ⊢
    simp only [Memory.reachFields, List.mem_append] at hs
    exact ⟨Memory.WellFormed_congr m m2 hg ty c h.1 (fun x hx => hs x (Or.inl hx)),
      Memory.WellFormedFields_congr m m2 hg fs cs h.2 (fun x hx => hs x (Or.inr hx))⟩
end

mutual
/-- The zero value in memory is the zero value, reaches nothing and is well formed. -/
theorem Memory.view_zeroMem (m : Memory) :
    (ty : GoType) → m.view ty ty.zeroMem = ty.zero ∧ m.reach ty ty.zeroMem = [] ∧
      m.WellFormed ty ty.zeroMem = true
  | .slice elem => by
    simp [Memory.view, Memory.reach, Memory.WellFormed, GoType.zeroMem, GoType.zero,
      Memory.elems]
  | .map key elem => by
    simp [Memory.view, Memory.reach, Memory.WellFormed, GoType.zeroMem, GoType.zero]
  | .struct fields => by
    have := Memory.viewFields_zeroMem m fields
    simp [Memory.view, Memory.reach, Memory.WellFormed, GoType.zeroMem, GoType.zero,
      MemValue.fieldValues, this]
  | .iface => by
    simp [Memory.view, Memory.reach, Memory.WellFormed, GoType.zeroMem, GoType.zero,
      MemValue.toGoValue]
  | .int64 => by
    simp [Memory.view, Memory.reach, Memory.WellFormed, GoType.zeroMem, GoType.zero,
      MemValue.toGoValue]
  | .string => by
    simp [Memory.view, Memory.reach, Memory.WellFormed, GoType.zeroMem, GoType.zero,
      MemValue.toGoValue]
  | .uint8 => by
    simp [Memory.view, Memory.reach, Memory.WellFormed, GoType.zeroMem, GoType.zero,
      MemValue.toGoValue]
  | .ptr _ => by
    simp [Memory.view, Memory.reach, Memory.WellFormed, GoType.zeroMem, GoType.zero,
      MemValue.toGoValue]
  | .other _ => by
    simp [Memory.view, Memory.reach, Memory.WellFormed, GoType.zeroMem, GoType.zero,
      MemValue.toGoValue]
/-- The same for the fields of a struct. -/
theorem Memory.viewFields_zeroMem (m : Memory) :
    (fs : List (StructFieldOf GoType)) →
      m.viewFields fs (GoType.zeroMemFields fs) = GoType.zeroFields fs ∧
      m.reachFields fs (GoType.zeroMemFields fs) = [] ∧
      m.WellFormedFields fs (GoType.zeroMemFields fs) = true
  | [] => by
    simp [Memory.viewFields, Memory.reachFields, Memory.WellFormedFields, GoType.zeroMemFields,
      GoType.zeroFields]
  | ⟨_, _, ty⟩ :: fs => by
    have h1 := Memory.view_zeroMem m ty
    have h2 := Memory.viewFields_zeroMem m fs
    simp [Memory.viewFields, Memory.reachFields, Memory.WellFormedFields,
      GoType.zeroMemFields, GoType.zeroFields, h1, h2]
end


/-! ## Lists with one part replaced -/

theorem List.nodup_replace {α : Type} (P : α → Prop) {A B C B2 : List α}
    (h : (A ++ (B ++ C)).Nodup) (hB : B2.Nodup) (hsub : ∀ x ∈ B2, x ∈ B ∨ ¬ P x)
    (hA : ∀ x ∈ A, P x) (hC : ∀ x ∈ C, P x) : (A ++ (B2 ++ C)).Nodup := by
  rw [List.nodup_append] at h ⊢
  obtain ⟨hA1, hBC, hd⟩ := h
  rw [List.nodup_append] at hBC ⊢
  obtain ⟨hB1, hC1, hd2⟩ := hBC
  refine ⟨hA1, ⟨hB, hC1, ?_⟩, ?_⟩
  · intro x hx hxc
    rcases hsub x hx with h1 | h1
    · exact hd2 h1 hxc
    · exact h1 (hC x hxc)
  · intro x hx hxbc
    rcases List.mem_append.1 hxbc with h1 | h1
    · rcases hsub x h1 with h2 | h2
      · exact hd hx (List.mem_append.2 (Or.inl h2))
      · exact h2 (hA x hx)
    · exact hd hx (List.mem_append.2 (Or.inr h1))

theorem List.split_at {α : Type} (l : List α) (i : Nat) (d : α) (h : i < l.length) :
    l = l.take i ++ l.getD i d :: l.drop (i + 1) := by
  rw [List.getD_eq_getElem?_getD, List.getElem?_eq_getElem h, Option.getD_some,
    ← List.drop_eq_getElem_cons h, List.take_append_drop]

theorem List.set_split {α : Type} (l : List α) (i : Nat) (x : α) (h : i < l.length) :
    l.set i x = l.take i ++ x :: l.drop (i + 1) := by
  rw [List.set_eq_take_append_cons_drop, if_pos h]

theorem List.drop_take_set {α : Type} (arr : List α) (off n i : Nat) (x : α) (hi : i < n) :
    ((arr.set (off + i) x).drop off).take n = ((arr.drop off).take n).set i x := by
  apply List.ext_getElem?
  intro j
  rw [List.getElem?_take, List.getElem?_set, List.getElem?_drop, List.getElem?_set,
    List.length_take, List.length_drop, List.getElem?_take, List.getElem?_drop]
  by_cases hj : j < n
  · by_cases hij : i = j
    · subst hij
      by_cases hl : off + i < arr.length
      · have : i < min n (arr.length - off) := by omega
        simp [hj, hl, this]
      · have : ¬ i < min n (arr.length - off) := by omega
        simp [hj, hl, this]
    · have : off + i ≠ off + j := by omega
      simp [hj, hij, this]
  · have : i ≠ j := by omega
    simp [hj, this]

/-! ## Slices -/

theorem Memory.Separated_iff (m : Memory) (ty : GoType) (loc : Loc) :
    m.Separated ty loc = true ↔
      m.Valid loc = true ∧ m.WellFormed ty (m.load loc) = true ∧
        (m.reach ty (m.load loc)).Nodup ∧ Addr.array loc.array ∉ m.reach ty (m.load loc) := by
  simp only [Memory.Separated, Bool.and_eq_true, decide_eq_true_eq, and_assoc]

theorem Memory.WellFormed_slice (m : Memory) (elem : GoType) (a off n cap : Nat) :
    m.WellFormed (.slice elem) (.slice a off n cap) = true ↔
      n ≤ cap ∧ (cap = 0 ∨ (a < m.arrays.length ∧ off + cap ≤ (m.array a).length)) ∧
        ∀ e ∈ m.elems (.slice a off n cap), m.WellFormed elem e = true := by
  simp only [Memory.WellFormed, Bool.and_eq_true, Bool.or_eq_true, decide_eq_true_eq,
    List.all_eq_true, and_assoc]

theorem Memory.elems_length (m : Memory) (a off n cap : Nat) (h1 : n ≤ cap)
    (h2 : cap = 0 ∨ (a < m.arrays.length ∧ off + cap ≤ (m.array a).length)) :
    (m.elems (.slice a off n cap)).length = n := by
  simp only [Memory.elems, List.length_take, List.length_drop]
  omega

theorem Memory.elems_getD (m : Memory) (a off n cap i : Nat) (hi : i < n) :
    (m.elems (.slice a off n cap)).getD i (.other 0) = (m.array a).getD (off + i) (.other 0) := by
  simp only [Memory.elems, List.getD_eq_getElem?_getD, List.getElem?_take, hi, if_true,
    List.getElem?_drop]

theorem Memory.reach_slice (m : Memory) (elem : GoType) (a off n cap : Nat)
    (h : ¬ (n = 0 ∧ cap = 0)) :
    m.reach (.slice elem) (.slice a off n cap) =
      .array a :: (m.elems (.slice a off n cap)).flatMap (m.reach elem) := by
  simp only [Memory.reach, h, if_false]

/-- One iteration of the loop of `putSlice` on a slice that shares no storage. -/
theorem putSliceAt_step (elem : GoType)
    (putElemAt : Memory → Loc → Value → Option DecodeError × Memory)
    (putElem : GoValue → Value → Option DecodeError × GoValue)
    (hspec : Decoder.Refines elem putElemAt putElem)
    (m : Memory) (loc : Loc) (a off n cap i : Nat) (v : Value)
    (hs : m.Separated (.slice elem) loc = true) (hl : m.load loc = .slice a off n cap)
    (hi : i < n) (m1 : Memory) (hm1 : m1 = (putElemAt m (m.Index loc i) v).2) :
    m1.load loc = .slice a off n cap ∧ m1.Separated (.slice elem) loc = true ∧
    (m1.elems (.slice a off n cap)).map (m1.view elem) =
      ((m.elems (.slice a off n cap)).map (m.view elem)).set i
        (putElem (m.view elem ((m.elems (.slice a off n cap)).getD i (.other 0))) v).2 ∧
    m.Frame m1 loc (m.reach (.slice elem) (.slice a off n cap)) ∧
    (∀ x ∈ m1.reach (.slice elem) (.slice a off n cap),
      x ∈ m.reach (.slice elem) (.slice a off n cap) ∨ ¬ m.Has x) := by
  rw [Memory.Separated_iff, hl, Memory.WellFormed_slice] at hs
  obtain ⟨hvalid, ⟨hnc, hcap, hwf⟩, hnd, hloc⟩ := hs
  have h0 : ¬ (n = 0 ∧ cap = 0) := by omega
  have hcap2 : a < m.arrays.length ∧ off + cap ≤ (m.array a).length := by
    rcases hcap with h | h
    · omega
    · exact h
  rw [Memory.reach_slice m elem a off n cap h0] at hnd hloc
  have hlen := Memory.elems_length m a off n cap hnc hcap
  -- the elements, split at `i`
  set L := m.elems (.slice a off n cap) with hL
  set e := L.getD i (.other 0) with he
  have hsplit : L = L.take i ++ e :: L.drop (i + 1) := List.split_at L i _ (by omega)
  have hemem : e ∈ L := by
    rw [hsplit]; simp
  have hpre : ∀ x ∈ L.take i, x ∈ L := fun x hx => List.mem_of_mem_take hx
  have hpost : ∀ x ∈ L.drop (i + 1), x ∈ L := fun x hx => List.mem_of_mem_drop hx
  -- the location of the element
  have hidx : m.Index loc i = { array := a, index := off + i, path := [] } := by
    simp [Memory.Index, hl]
  have hload : m.load (m.Index loc i) = e := by
    rw [hidx, he, hL, Memory.elems_getD m a off n cap i hi]
    rfl
  have hane : a ≠ loc.array := by
    intro h
    exact hloc (by rw [h]; exact List.mem_cons_self _ _)
  have hnd2 := (List.nodup_cons.1 hnd).2
  have ha_not : ∀ x ∈ L, Addr.array a ∉ m.reach elem x := by
    intro x hx hmem
    exact (List.nodup_cons.1 hnd).1 (List.mem_flatMap.2 ⟨x, hx, hmem⟩)
  have hloc_not : ∀ x ∈ L, Addr.array loc.array ∉ m.reach elem x := by
    intro x hx hmem
    exact hloc (List.mem_cons_of_mem _ (List.mem_flatMap.2 ⟨x, hx, hmem⟩))
  have hsep_e : m.Separated elem (m.Index loc i) = true := by
    rw [Memory.Separated_iff, hload]
    refine ⟨?_, hwf e hemem, (List.nodup_flatMap.1 hnd2).1 e hemem, ?_⟩
    · rw [hidx]
      simp only [Memory.Valid, MemValue.HasPath, Bool.and_true, Bool.and_eq_true,
        decide_eq_true_eq]
      exact ⟨hcap2.1, by omega⟩
    · rw [hidx]
      exact ha_not e hemem
  obtain ⟨_, hview, hframe, hsep1, hsub⟩ := hspec m (m.Index loc i) v hsep_e
  rw [← hm1] at hview hframe hsep1 hsub
  rw [hload] at hview hframe hsub
  set e1 := m1.load (m.Index loc i) with he1
  -- the array of the slice afterwards
  have harr : m1.array a = (m.array a).set (off + i) e1 := by
    have := hframe.cell
    rw [hidx] at this
    simpa [MemValue.store, hidx, he1] using this
  have hL1 : m1.elems (.slice a off n cap) = L.take i ++ e1 :: L.drop (i + 1) := by
    rw [← List.set_split L i e1 (by omega), hL]
    simp only [Memory.elems, harr]
    exact List.drop_take_set _ off n i e1 hi
  -- the reach of the elements, split
  have hR : L.flatMap (m.reach elem) =
      (L.take i).flatMap (m.reach elem) ++
        (m.reach elem e ++ (L.drop (i + 1)).flatMap (m.reach elem)) := by
    conv_lhs => rw [hsplit]
    simp [List.flatMap_append, List.flatMap_cons]
  rw [hR] at hnd2
  -- the other elements are untouched
  have hsame : ∀ x ∈ L.take i ++ L.drop (i + 1), ∀ y ∈ m.reach elem x, m.SameAt m1 y := by
    intro x hx y hy
    have hxL : x ∈ L := by
      rcases List.mem_append.1 hx with h | h
      · exact hpre x h
      · exact hpost x h
    refine hframe.same y (Memory.WellFormed_Has m elem x (hwf x hxL) y hy) ?_ ?_
    · intro hye
      rw [List.nodup_append] at hnd2
      obtain ⟨_, hnd3, hd1⟩ := hnd2
      rcases List.mem_append.1 hx with h | h
      · exact hd1 (List.mem_flatMap.2 ⟨x, h, hy⟩) (List.mem_append.2 (Or.inl hye))
      · rw [List.nodup_append] at hnd3
        exact hnd3.2.2 hye (List.mem_flatMap.2 ⟨x, h, hy⟩)
    · rw [hidx]
      intro hya
      rw [hya] at hy
      exact ha_not x hxL hy
  have hcongr : ∀ x ∈ L.take i ++ L.drop (i + 1),
      m1.view elem x = m.view elem x ∧ m1.reach elem x = m.reach elem x :=
    fun x hx => Memory.view_congr m m1 elem x (hsame x hx)
  have hR1 : (m1.elems (.slice a off n cap)).flatMap (m1.reach elem) =
      (L.take i).flatMap (m.reach elem) ++
        (m1.reach elem e1 ++ (L.drop (i + 1)).flatMap (m.reach elem)) := by
    rw [hL1]
    simp only [List.flatMap_append, List.flatMap_cons]
    congr 1
    · exact List.flatMap_congr (fun x hx => (hcongr x (List.mem_append.2 (Or.inl hx))).2)
    · congr 1
      exact List.flatMap_congr (fun x hx => (hcongr x (List.mem_append.2 (Or.inr hx))).2)
  -- the header is untouched
  have hlocsame : m1.array loc.array = m.array loc.array := by
    refine hframe.same (.array loc.array) ?_ (hloc_not e hemem) ?_
    · simp only [Memory.Valid, Bool.and_eq_true, decide_eq_true_eq] at hvalid
      exact hvalid.1.1
    · rw [hidx]
      intro h
      injection h with h
      exact hane h.symm
  have hl1 : m1.load loc = .slice a off n cap := by
    rw [Memory.load_eq_of_array m m1 loc hlocsame, hl]
  have hgrow : m.arrays.length ≤ m1.arrays.length := by
    by_contra hc
    have := hframe.grows (.array (m.arrays.length - 1))
      (by simp only [Memory.Has]; omega)
    simp only [Memory.Has] at this
    omega
  rw [Memory.Separated_iff] at hsep1
  obtain ⟨_, hwf1, hnd1, _⟩ := hsep1
  have hHasPre : ∀ x ∈ L.take i ++ L.drop (i + 1), ∀ y ∈ m.reach elem x, m.Has y :=
    fun x hx y hy => Memory.WellFormed_Has m elem x (hwf x (by
      rcases List.mem_append.1 hx with h | h
      · exact hpre x h
      · exact hpost x h)) y hy
  have hreach1 : m1.reach (.slice elem) (.slice a off n cap) =
      .array a :: ((L.take i).flatMap (m.reach elem) ++
        (m1.reach elem e1 ++ (L.drop (i + 1)).flatMap (m.reach elem))) := by
    rw [Memory.reach_slice m1 elem a off n cap h0, hR1]
  have hreach0 : m.reach (.slice elem) (.slice a off n cap) =
      .array a :: ((L.take i).flatMap (m.reach elem) ++
        (m.reach elem e ++ (L.drop (i + 1)).flatMap (m.reach elem))) := by
    rw [Memory.reach_slice m elem a off n cap h0, hR]
  have hsubset : ∀ x ∈ m1.reach (.slice elem) (.slice a off n cap),
      x ∈ m.reach (.slice elem) (.slice a off n cap) ∨ ¬ m.Has x := by
    intro x hx
    rw [hreach1] at hx
    rw [hreach0]
    simp only [List.mem_cons, List.mem_append] at hx ⊢
    rcases hx with h | h | h | h
    · exact Or.inl (Or.inl h)
    · exact Or.inl (Or.inr (Or.inl h))
    · rcases hsub x h with h2 | h2
      · exact Or.inl (Or.inr (Or.inr (Or.inl h2)))
      · exact Or.inr h2
    · exact Or.inl (Or.inr (Or.inr (Or.inr h)))
  refine ⟨hl1, ?_, ?_, ?_, hsubset⟩
  · rw [Memory.Separated_iff, hl1, Memory.WellFormed_slice]
    refine ⟨Memory.Valid_of_array m m1 loc hlocsame hgrow hvalid, ⟨hnc, Or.inr ⟨by omega, ?_⟩, ?_⟩, ?_, ?_⟩
    · rw [harr, List.length_set]
      exact hcap2.2
    · intro x hx
      rw [hL1] at hx
      simp only [List.mem_append, List.mem_cons] at hx
      have hcase : x = e1 ∨ x ∈ L.take i ++ L.drop (i + 1) := by
        rcases hx with h | h | h
        · exact Or.inr (List.mem_append.2 (Or.inl h))
        · exact Or.inl h
        · exact Or.inr (List.mem_append.2 (Or.inr h))
      rcases hcase with h | h
      · rw [h]; exact hwf1
      · refine Memory.WellFormed_congr m m1 hframe.grows elem x (hwf x ?_) (hsame x h)
        rcases List.mem_append.1 h with h | h
        · exact hpre x h
        · exact hpost x h
    · rw [hreach1]
      have hA : (([Addr.array a] ++ (L.take i).flatMap (m.reach elem)) ++
          (m.reach elem e ++ (L.drop (i + 1)).flatMap (m.reach elem))).Nodup := by
        have := hnd
        rw [hR] at this
        simpa [List.append_assoc] using this
      have := List.nodup_replace m.Has hA hnd1 hsub ?_ ?_
      · simpa [List.append_assoc] using this
      · intro x hx
        simp only [List.singleton_append, List.mem_cons] at hx
        rcases hx with h | h
        · rw [h]; exact hcap2.1
        · obtain ⟨y, hy, hxy⟩ := List.mem_flatMap.1 h
          exact hHasPre y (List.mem_append.2 (Or.inl hy)) x hxy
      · intro x hx
        obtain ⟨y, hy, hxy⟩ := List.mem_flatMap.1 hx
        exact hHasPre y (List.mem_append.2 (Or.inr hy)) x hxy
    · intro hmem
      rcases hsubset _ hmem with h | h
      · rw [Memory.reach_slice m elem a off n cap h0] at h
        exact hloc h
      · simp only [Memory.Valid, Bool.and_eq_true, decide_eq_true_eq] at hvalid
        exact h hvalid.1.1
  · rw [hL1]
    have hLm : L.map (m.view elem) =
        (L.take i).map (m.view elem) ++ m.view elem e :: (L.drop (i + 1)).map (m.view elem) := by
      conv_lhs => rw [hsplit]
      simp
    rw [List.set_split _ _ _ (by simpa using (by omega : i < L.length))]
    simp only [List.map_append, List.map_cons, List.map_take, List.map_drop]
    rw [hview]
    congr 1
    · rw [← List.map_take, ← List.map_take]
      exact List.map_congr_left (fun x hx => (hcongr x (List.mem_append.2 (Or.inl hx))).1)
    · congr 1
      rw [← List.map_drop, ← List.map_drop]
      exact List.map_congr_left (fun x hx => (hcongr x (List.mem_append.2 (Or.inr hx))).1)
  · refine ⟨hframe.grows, ?_, ?_⟩
    · intro x hx hnot hne
      refine hframe.same x hx ?_ ?_
      · intro h
        rw [hreach0] at hnot
        exact hnot (by simp [h])
      · rw [hidx]
        intro h
        rw [hreach0] at hnot
        exact hnot (by simp [h])
    · rw [hlocsame, hl1, ← hl, Memory.load, MemValue.store_load, List.set_getD_self]


theorem List.take_succ_set {α : Type} (l : List α) (i : Nat) (x : α) (h : i < l.length) :
    (l.set i x).take (i + 1) = l.take i ++ [x] := by
  rw [List.set_split l i x h, List.take_append_eq_append_take]
  simp [List.length_take, Nat.min_eq_left (Nat.le_of_lt h)]

theorem List.drop_succ_set {α : Type} (l : List α) (i : Nat) (x : α) :
    (l.set i x).drop (i + 1) = l.drop (i + 1) := by
  apply List.ext_getElem?
  intro j
  rw [List.getElem?_drop, List.getElem?_drop, List.getElem?_set]
  have : i ≠ i + 1 + j := by omega
  simp [this]

theorem List.getD_map_apply {α β : Type} (g : α → β) (l : List α) (i : Nat) (d : α) :
    (l.map g).getD i (g d) = g (l.getD i d) := by
  rw [List.getD_eq_getElem?_getD, List.getD_eq_getElem?_getD, List.getElem?_map]
  cases l[i]? <;> rfl

theorem putSliceLoop_set (f : GoValue → Value → Option DecodeError × GoValue)
    (V : List GoValue) (i : Nat) (v : Value) (vs : List Value) (d : GoValue)
    (h : i < V.length) :
    (V.set i (f (V.getD i d) v).2).take (i + 1) ++
        Decoder.putSliceLoop f vs ((V.set i (f (V.getD i d) v).2).drop (i + 1)) =
      V.take i ++ Decoder.putSliceLoop f (v :: vs) (V.drop i) := by
  rw [List.take_succ_set V i _ h, List.drop_succ_set, List.drop_eq_getElem_cons h,
    Decoder.putSliceLoop, List.append_assoc, List.singleton_append,
    List.getD_eq_getElem?_getD, List.getElem?_eq_getElem h, Option.getD_some]

theorem Memory.Has_mono {m m1 : Memory} (h : ∀ x, m.Has x → m1.Has x) {x : Addr}
    (hx : ¬ m1.Has x) : ¬ m.Has x := fun h1 => hx (h x h1)

/-- The loop of `putSlice` on a slice that shares no storage, from index `i` on. -/
theorem putSliceAtLoop_spec (elem : GoType)
    (putElemAt : Memory → Loc → Value → Option DecodeError × Memory)
    (putElem : GoValue → Value → Option DecodeError × GoValue)
    (hspec : Decoder.Refines elem putElemAt putElem)
    (loc : Loc) (a off n cap : Nat) :
    ∀ (vs : List Value) (i : Nat) (m : Memory),
      m.Separated (.slice elem) loc = true → m.load loc = .slice a off n cap →
      i + vs.length ≤ n →
      ∀ m2, m2 = Decoder.putSliceAtLoop putElemAt loc vs i m →
      m2.load loc = .slice a off n cap ∧ m2.Separated (.slice elem) loc = true ∧
      (m2.elems (.slice a off n cap)).map (m2.view elem) =
        ((m.elems (.slice a off n cap)).map (m.view elem)).take i ++
          Decoder.putSliceLoop putElem vs
            (((m.elems (.slice a off n cap)).map (m.view elem)).drop i) ∧
      m.Frame m2 loc (m.reach (.slice elem) (.slice a off n cap)) ∧
      (∀ x ∈ m2.reach (.slice elem) (.slice a off n cap),
        x ∈ m.reach (.slice elem) (.slice a off n cap) ∨ ¬ m.Has x)
  | [], i, m, hs, hl, _, m2, hm2 => by
    simp only [Decoder.putSliceAtLoop] at hm2
    subst hm2
    refine ⟨hl, hs, ?_, Memory.Frame.refl _ _ _, fun x hx => Or.inl hx⟩
    simp [Decoder.putSliceLoop]
  | v :: vs, i, m, hs, hl, hi, m2, hm2 => by
    simp only [List.length_cons] at hi
    simp only [Decoder.putSliceAtLoop] at hm2
    obtain ⟨hl1, hs1, hv1, hf1, hsub1⟩ :=
      putSliceAt_step elem putElemAt putElem hspec m loc a off n cap i v hs hl (by omega) _ rfl
    obtain ⟨hl2, hs2, hv2, hf2, hsub2⟩ :=
      putSliceAtLoop_spec elem putElemAt putElem hspec loc a off n cap vs (i + 1) _ hs1 hl1
        (by omega) m2 hm2
    have hlen : (m.elems (.slice a off n cap)).length = n := by
      rw [Memory.Separated_iff, hl, Memory.WellFormed_slice] at hs
      exact Memory.elems_length m a off n cap hs.2.1.1 hs.2.1.2.1
    refine ⟨hl2, hs2, ?_, hf1.seq hf2 hsub1, ?_⟩
    · rw [hv2, hv1, ← List.getD_map_apply (m.view elem)]
      exact putSliceLoop_set putElem _ i v vs _ (by rw [List.length_map, hlen]; omega)
    · intro x hx
      rcases hsub2 x hx with h | h
      · exact hsub1 x h
      · exact Or.inr (Memory.Has_mono hf1.grows h)


theorem List.append_in_place {α : Type} (arr : List α) (off len k : Nat) (z : α)
    (h : off + len + k ≤ arr.length) :
    ((arr.take (off + len) ++ List.replicate k z ++ arr.drop (off + len + k)).drop off).take
        (len + k) = (arr.drop off).take len ++ List.replicate k z := by
  apply List.ext_getElem?
  intro j
  simp only [List.getElem?_take, List.getElem?_drop, List.getElem?_append, List.length_take,
    List.length_append, List.length_replicate, List.getElem?_replicate, List.length_drop]
  by_cases h1 : j < len
  · have h2 : j < len + k := by omega
    have h3 : off + j < min (off + len) arr.length := by omega
    have h4 : off + j < min (off + len) arr.length + k := by omega
    have h5 : j < min len (arr.length - off) := by omega
    simp [h1, h2, h3, h4, h5]
  · by_cases h2 : j < len + k
    · have h3 : ¬ off + j < min (off + len) arr.length := by omega
      have h4 : off + j < min (off + len) arr.length + k := by omega
      have h5 : ¬ j < min len (arr.length - off) := by omega
      have h6 : off + j - min (off + len) arr.length < k := by omega
      have h7 : j - min len (arr.length - off) < k := by omega
      simp [h1, h2, h3, h4, h5, h6, h7]
    · have h5 : ¬ j < min len (arr.length - off) := by omega
      have h7 : ¬ j - min len (arr.length - off) < k := by omega
      simp [h1, h2, h5, h7]

theorem List.flatMap_replicate_nil {α β : Type} (f : α → List β) (k : Nat) (z : α)
    (h : f z = []) : (List.replicate k z).flatMap f = [] := by
  induction k with
  | zero => rfl
  | succ k ih => simp [List.replicate_succ, List.flatMap_cons, h, ih]

/-- What `putSlice` needs of a slice that shares no storage. -/
theorem Memory.Separated_slice (m : Memory) (elem : GoType) (loc : Loc) (a off len cap : Nat)
    (hs : m.Separated (.slice elem) loc = true) (hl : m.load loc = .slice a off len cap) :
    m.Valid loc = true ∧ len ≤ cap ∧
    (cap = 0 ∨ (a < m.arrays.length ∧ off + cap ≤ (m.array a).length)) ∧
    (m.elems (.slice a off len cap)).length = len ∧
    (∀ e ∈ m.elems (.slice a off len cap), m.WellFormed elem e = true) ∧
    ((m.elems (.slice a off len cap)).flatMap (m.reach elem)).Nodup ∧
    (∀ y ∈ (m.elems (.slice a off len cap)).flatMap (m.reach elem),
      y ∈ m.reach (.slice elem) (.slice a off len cap) ∧ m.Has y ∧ y ≠ .array a ∧
        y ≠ .array loc.array) ∧
    (¬ (len = 0 ∧ cap = 0) → a ≠ loc.array) := by
  rw [Memory.Separated_iff, hl, Memory.WellFormed_slice] at hs
  obtain ⟨hvalid, ⟨hnc, hcap, hwf⟩, hnd, hloc⟩ := hs
  have hlen := Memory.elems_length m a off len cap hnc hcap
  refine ⟨hvalid, hnc, hcap, hlen, hwf, ?_, ?_, ?_⟩
  · by_cases h0 : len = 0 ∧ cap = 0
    · have : m.elems (.slice a off len cap) = [] := by
        rw [← List.length_eq_zero, hlen]; exact h0.1
      simp [this]
    · rw [Memory.reach_slice m elem a off len cap h0] at hnd
      exact (List.nodup_cons.1 hnd).2
  · intro y hy
    by_cases h0 : len = 0 ∧ cap = 0
    · have : m.elems (.slice a off len cap) = [] := by
        rw [← List.length_eq_zero, hlen]; exact h0.1
      simp [this] at hy
    · rw [Memory.reach_slice m elem a off len cap h0] at hnd hloc ⊢
      obtain ⟨e, he, hye⟩ := List.mem_flatMap.1 hy
      refine ⟨List.mem_cons_of_mem _ hy, Memory.WellFormed_Has m elem e (hwf e he) y hye, ?_, ?_⟩
      · intro h
        rw [h] at hy
        exact (List.nodup_cons.1 hnd).1 hy
      · intro h
        rw [h] at hy
        exact hloc (List.mem_cons_of_mem _ hy)
  · intro h0 h
    rw [Memory.reach_slice m elem a off len cap h0] at hloc
    exact hloc (by rw [h]; exact List.mem_cons_self _ _)

/-- The extension of a slice that shares no storage by `k` zero elements. -/
theorem AppendSlice_spec (grow : Nat → Nat → Nat) (elem : GoType) (m : Memory) (loc : Loc)
    (a off len cap k : Nat) (hs : m.Separated (.slice elem) loc = true)
    (hl : m.load loc = .slice a off len cap) (hk : 0 < k)
    (m1 : Memory) (hm1 : m1 = m.AppendSlice grow loc k elem.zeroMem) :
    ∃ a1 off1 cap1,
      m1.load loc = .slice a1 off1 (len + k) cap1 ∧ m1.Separated (.slice elem) loc = true ∧
      (m1.elems (.slice a1 off1 (len + k) cap1)).map (m1.view elem) =
        (m.elems (.slice a off len cap)).map (m.view elem) ++ List.replicate k elem.zero ∧
      m.Frame m1 loc (m.reach (.slice elem) (.slice a off len cap)) ∧
      (∀ x ∈ m1.reach (.slice elem) (.slice a1 off1 (len + k) cap1),
        x ∈ m.reach (.slice elem) (.slice a off len cap) ∨ ¬ m.Has x) := by
  obtain ⟨hvalid, hnc, hcap, hlen, hwf, hndL, hL, hane⟩ :=
    Memory.Separated_slice m elem loc a off len cap hs hl
  have hz := Memory.view_zeroMem m1 elem
  have hvalid2 := hvalid
  simp only [Memory.Valid, Bool.and_eq_true, decide_eq_true_eq] at hvalid2
  have hlocHas : loc.array < m.arrays.length := hvalid2.1.1
  rw [Memory.Separated_iff, hl] at hs
  have hlocnot := hs.2.2.2
  by_cases h : len + k ≤ cap
  · -- the zero elements are written into the array
    have h0 : ¬ (len = 0 ∧ cap = 0) := by omega
    have hcap2 : a < m.arrays.length ∧ off + cap ≤ (m.array a).length := by
      rcases hcap with hc | hc
      · omega
      · exact hc
    have hane2 := hane h0
    simp only [Memory.AppendSlice, hl, h, if_true] at hm1
    set m0 : Memory :=
      { m with
        arrays := m.arrays.set a
          ((m.array a).take (off + len) ++ List.replicate k elem.zeroMem ++
            (m.array a).drop (off + len + k)) } with hm0
    have hm0a : m0.array a = (m.array a).take (off + len) ++ List.replicate k elem.zeroMem ++
        (m.array a).drop (off + len + k) := by
      simp only [hm0, Memory.array]
      rw [List.getD_set_self _ _ _ _ hcap2.1]
    have hm0b : ∀ b, b ≠ a → m0.array b = m.array b := by
      intro b hb
      simp only [hm0, Memory.array]
      rw [List.getD_set_ne _ _ _ _ _ (Ne.symm hb)]
    have hm0len : m0.arrays.length = m.arrays.length := by simp [hm0]
    have hvalid0 : m0.Valid loc = true :=
      Memory.Valid_of_array m m0 loc (hm0b _ (Ne.symm hane2)) (by omega) hvalid
    have hl1 : m1.load loc = .slice a off (len + k) cap := by
      rw [hm1]; exact Memory.load_store m0 loc _ hvalid0
    have hm1a : m1.array a = (m.array a).take (off + len) ++ List.replicate k elem.zeroMem ++
        (m.array a).drop (off + len + k) := by
      rw [hm1, Memory.store_array_ne _ _ _ _ hane2, hm0a]
    have hm1len : m1.arrays.length = m.arrays.length := by
      rw [hm1, Memory.store_arrays_length, hm0len]
    have hsame : ∀ y, y ≠ .array a → y ≠ .array loc.array → m.SameAt m1 y := by
      intro y h1 h2
      cases y with
      | array b =>
        have hb1 : b ≠ a := fun hh => h1 (by rw [hh])
        have hb2 : b ≠ loc.array := fun hh => h2 (by rw [hh])
        show m1.array b = m.array b
        rw [hm1, Memory.store_array_ne _ _ _ _ hb2, hm0b b hb1]
      | map id =>
        show m1.mapAt id = m.mapAt id
        rw [hm1]
        rfl
    have hgrows : ∀ x, m.Has x → m1.Has x := by
      intro x hx
      cases x with
      | array b => simp only [Memory.Has] at hx ⊢; omega
      | map id =>
        simp only [Memory.Has] at hx ⊢
        rw [hm1]
        exact hx
    have helems : m1.elems (.slice a off (len + k) cap) =
        m.elems (.slice a off len cap) ++ List.replicate k elem.zeroMem := by
      simp only [Memory.elems, hm1a]
      exact List.append_in_place _ off len k _ (by omega)
    have hcongr : ∀ e ∈ m.elems (.slice a off len cap),
        m1.view elem e = m.view elem e ∧ m1.reach elem e = m.reach elem e := by
      intro e he
      refine Memory.view_congr m m1 elem e (fun y hy => ?_)
      have := hL y (List.mem_flatMap.2 ⟨e, he, hy⟩)
      exact hsame y this.2.2.1 this.2.2.2
    have hreach : m1.reach (.slice elem) (.slice a off (len + k) cap) =
        m.reach (.slice elem) (.slice a off len cap) := by
      rw [Memory.reach_slice m1 elem a off (len + k) cap (by omega),
        Memory.reach_slice m elem a off len cap h0, helems, List.flatMap_append,
        List.flatMap_replicate_nil _ _ _ hz.2.1, List.append_nil]
      congr 1
      exact List.flatMap_congr (fun e he => (hcongr e he).2)
    refine ⟨a, off, cap, hl1, ?_, ?_, ?_, ?_⟩
    · rw [Memory.Separated_iff, hl1, Memory.WellFormed_slice, hreach]
      refine ⟨?_, ⟨h, Or.inr ⟨by omega, ?_⟩, ?_⟩, hs.2.2.1, hlocnot⟩
      · rw [hm1]; exact Memory.Valid_store m0 loc _ hvalid0
      · rw [hm1a]
        simp only [List.length_append, List.length_take, List.length_replicate,
          List.length_drop]
        omega
      · intro e he
        rw [helems] at he
        rcases List.mem_append.1 he with he | he
        · refine Memory.WellFormed_congr m m1 hgrows elem e (hwf e he) (fun y hy => ?_)
          have := hL y (List.mem_flatMap.2 ⟨e, he, hy⟩)
          exact hsame y this.2.2.1 this.2.2.2
        · rw [List.eq_of_mem_replicate he]
          exact hz.2.2
    · rw [helems, List.map_append, List.map_replicate, hz.1]
      congr 1
      exact List.map_congr_left (fun e he => (hcongr e he).1)
    · refine ⟨hgrows, ?_, ?_⟩
      · intro x _ hnot hne
        refine hsame x ?_ hne
        intro hh
        rw [Memory.reach_slice m elem a off len cap h0] at hnot
        exact hnot (by rw [hh]; exact List.mem_cons_self _ _)
      · rw [hm1, Memory.store_array_self, hm0b _ (Ne.symm hane2),
          Memory.load_store m0 loc _ hvalid0]
    · intro x hx
      rw [hreach] at hx
      exact Or.inl hx
  · -- a new array is allocated
    simp only [Memory.AppendSlice, hl, h, if_false] at hm1
    set g := grow cap (len + k) with hg
    set L := m.elems (.slice a off len cap) with hLdef
    have hLeq : ((m.array a).drop off).take len = L := rfl
    rw [hLeq] at hm1
    set m0 : Memory := m.alloc (L ++ List.replicate (k + g) elem.zeroMem) with hm0
    have hnew : m.arrays.length ≠ loc.array := by omega
    have hvalid0 : m0.Valid loc = true :=
      Memory.Valid_of_array m m0 loc (Memory.alloc_array_lt m _ _ hlocHas)
        (by rw [hm0, Memory.alloc_arrays_length]; omega) hvalid
    have hl1 : m1.load loc = .slice m.arrays.length 0 (len + k) (len + k + g) := by
      rw [hm1]; exact Memory.load_store m0 loc _ hvalid0
    have hm1a : m1.array m.arrays.length = L ++ List.replicate (k + g) elem.zeroMem := by
      rw [hm1, Memory.store_array_ne _ _ _ _ hnew, hm0, Memory.alloc_array_self]
    have hm1len : m1.arrays.length = m.arrays.length + 1 := by
      rw [hm1, Memory.store_arrays_length, hm0, Memory.alloc_arrays_length]
    have hsame : ∀ y, m.Has y → y ≠ .array loc.array → m.SameAt m1 y := by
      intro y h1 h2
      cases y with
      | array b =>
        have hb2 : b ≠ loc.array := fun hh => h2 (by rw [hh])
        show m1.array b = m.array b
        rw [hm1, Memory.store_array_ne _ _ _ _ hb2, hm0, Memory.alloc_array_lt m _ _ h1]
      | map id =>
        show m1.mapAt id = m.mapAt id
        rw [hm1]
        rfl
    have hgrows : ∀ x, m.Has x → m1.Has x := by
      intro x hx
      cases x with
      | array b => simp only [Memory.Has] at hx ⊢; omega
      | map id =>
        simp only [Memory.Has] at hx ⊢
        rw [hm1]
        exact hx
    have helems : m1.elems (.slice m.arrays.length 0 (len + k) (len + k + g)) =
        L ++ List.replicate k elem.zeroMem := by
      simp only [Memory.elems, hm1a, List.drop_zero]
      rw [List.take_append_eq_append_take, hlen, List.take_of_length_le (by omega),
        List.take_replicate]
      congr 2
      omega
    have hcongr : ∀ e ∈ L,
        m1.view elem e = m.view elem e ∧ m1.reach elem e = m.reach elem e := by
      intro e he
      refine Memory.view_congr m m1 elem e (fun y hy => ?_)
      have := hL y (List.mem_flatMap.2 ⟨e, he, hy⟩)
      exact hsame y this.2.1 this.2.2.2
    have hreach : m1.reach (.slice elem) (.slice m.arrays.length 0 (len + k) (len + k + g)) =
        .array m.arrays.length :: L.flatMap (m.reach elem) := by
      rw [Memory.reach_slice m1 elem _ 0 (len + k) (len + k + g) (by omega), helems,
        List.flatMap_append, List.flatMap_replicate_nil _ _ _ hz.2.1, List.append_nil]
      congr 1
      exact List.flatMap_congr (fun e he => (hcongr e he).2)
    refine ⟨m.arrays.length, 0, len + k + g, hl1, ?_, ?_, ?_, ?_⟩
    · rw [Memory.Separated_iff, hl1, Memory.WellFormed_slice, hreach]
      refine ⟨?_, ⟨by omega, Or.inr ⟨by omega, ?_⟩, ?_⟩, ?_, ?_⟩
      · rw [hm1]; exact Memory.Valid_store m0 loc _ hvalid0
      · rw [hm1a]
        simp only [List.length_append, List.length_replicate, hlen]
        omega
      · intro e he
        rw [helems] at he
        rcases List.mem_append.1 he with he | he
        · refine Memory.WellFormed_congr m m1 hgrows elem e (hwf e he) (fun y hy => ?_)
          have := hL y (List.mem_flatMap.2 ⟨e, he, hy⟩)
          exact hsame y this.2.1 this.2.2.2
        · rw [List.eq_of_mem_replicate he]
          exact hz.2.2
      · rw [List.nodup_cons]
        refine ⟨fun hmem => ?_, hndL⟩
        have := (hL _ hmem).2.1
        simp [Memory.Has] at this
      · intro hmem
        rcases List.mem_cons.1 hmem with hh | hh
        · injection hh with hh
          omega
        · exact (hL _ hh).2.2.2 rfl
    · rw [helems, List.map_append, List.map_replicate, hz.1]
      congr 1
      exact List.map_congr_left (fun e he => (hcongr e he).1)
    · refine ⟨hgrows, ?_, ?_⟩
      · intro x hx _ hne
        exact hsame x hx hne
      · rw [hm1, Memory.store_array_self, hm0, Memory.alloc_array_lt m _ _ hlocHas, ← hm0,
          Memory.load_store m0 loc _ hvalid0]
    · intro x hx
      rw [hreach] at hx
      rcases List.mem_cons.1 hx with hh | hh
      · right
        rw [hh]
        simp [Memory.Has]
      · exact Or.inl (hL x hh).1


theorem Memory.view_slice_elems (m : Memory) (elem : GoType) (c : MemValue) :
    (m.view (.slice elem) c).elems = (m.elems c).map (m.view elem) := by
  simp [Memory.view, GoValue.elems]

/-- `putSlice` on a slice that shares no storage does what `putSlice` on the value does. -/
theorem putSliceAt_Refines (grow : Nat → Nat → Nat) (elem : GoType) (helem : elem ≠ .uint8)
    (putElemAt : Memory → Loc → Value → Option DecodeError × Memory)
    (hspec : Decoder.Refines elem putElemAt (Decoder.put elem)) :
    Decoder.Refines (.slice elem) (Decoder.putSliceAt grow putElemAt elem.zeroMem)
      (Decoder.put (.slice elem)) := by
  intro m loc src hs
  have hs0 := hs
  rw [Memory.Separated_iff] at hs0
  obtain ⟨hvalid, hwf, hnd, hlocnot⟩ := hs0
  -- the header
  obtain ⟨a, off, len, cap, hl⟩ : ∃ a off len cap, m.load loc = .slice a off len cap := by
    cases hc : m.load loc with
    | slice a off len cap => exact ⟨a, off, len, cap, rfl⟩
    | _ => rw [hc] at hwf; simp [Memory.WellFormed] at hwf
  cases src with
  | list l =>
    rw [put_slice_list elem helem, Memory.view_slice_elems, List.length_map]
    obtain ⟨_, hnc, hcap, hlen, _⟩ := Memory.Separated_slice m elem loc a off len cap hs hl
    rw [hl, hlen]
    by_cases hd : (l.length : Int) - (len : Int) > 0
    · have hput : Decoder.putSliceAt grow putElemAt elem.zeroMem m loc (.list l) =
          (none, Decoder.putSliceAtLoop putElemAt loc l 0
            (m.AppendSlice grow loc ((l.length : Int) - (len : Int)).toNat elem.zeroMem)) := by
        simp only [Decoder.putSliceAt, hl, MemValue.Len, hd, if_true]
      rw [hput, if_pos hd]
      have hk : 0 < ((l.length : Int) - (len : Int)).toNat := by omega
      obtain ⟨a1, off1, cap1, hl1, hs1, hv1, hf1, hsub1⟩ :=
        AppendSlice_spec grow elem m loc a off len cap _ hs hl hk _ rfl
      obtain ⟨hl2, hs2, hv2, hf2, hsub2⟩ :=
        putSliceAtLoop_spec elem putElemAt (Decoder.put elem) hspec loc a1 off1 _ cap1 l 0 _
          hs1 hl1 (by omega) _ rfl
      show _ ∧ Memory.view _ _ (Memory.load _ loc) = _ ∧ Memory.Frame m _ loc _ ∧
        Memory.Separated _ _ loc = true ∧ ∀ x ∈ Memory.reach _ _ (Memory.load _ loc), _
      rw [hl2]
      refine ⟨rfl, ?_, ?_, hs2, ?_⟩
      · simp only [Memory.view]
        rw [hv2, hv1]
        simp
      · exact hf1.seq hf2 hsub1
      · intro x hx
        rcases hsub2 x hx with h | h
        · exact hsub1 x h
        · exact Or.inr (Memory.Has_mono hf1.grows h)
    · have hput : Decoder.putSliceAt grow putElemAt elem.zeroMem m loc (.list l) =
          (none, Decoder.putSliceAtLoop putElemAt loc l 0 m) := by
        simp only [Decoder.putSliceAt, hl, MemValue.Len, hd, if_false]
      rw [hput, if_neg hd]
      obtain ⟨hl2, hs2, hv2, hf2, hsub2⟩ :=
        putSliceAtLoop_spec elem putElemAt (Decoder.put elem) hspec loc a off len cap l 0 _
          hs hl (by omega) _ rfl
      show _ ∧ Memory.view _ _ (Memory.load _ loc) = _ ∧ Memory.Frame m _ loc _ ∧
        Memory.Separated _ _ loc = true ∧ ∀ x ∈ Memory.reach _ _ (Memory.load _ loc), _
      rw [hl2]
      refine ⟨rfl, ?_, ?_, hs2, ?_⟩
      · simp only [Memory.view]
        rw [hv2]
        simp
      · exact hf2
      · intro x hx
        exact hsub2 x hx
  | int i =>
    have : Decoder.put (.slice elem) (m.view (.slice elem) (m.load loc)) (.int i) =
        (some (.typeError (Value.int i).typeName (bytes "slice")),
          m.view (.slice elem) (m.load loc)) := by
      cases elem <;> first | exact absurd rfl helem | simp [Decoder.put, Decoder.putSlice]
    rw [this]
    exact ⟨rfl, rfl, Memory.Frame.refl _ _ _, hs, fun x hx => Or.inl hx⟩
  | string s =>
    have : Decoder.put (.slice elem) (m.view (.slice elem) (m.load loc)) (.string s) =
        (some (.typeError (Value.string s).typeName (bytes "slice")),
          m.view (.slice elem) (m.load loc)) := by
      cases elem <;> first | exact absurd rfl helem | simp [Decoder.put, Decoder.putSlice]
    rw [this]
    exact ⟨rfl, rfl, Memory.Frame.refl _ _ _, hs, fun x hx => Or.inl hx⟩
  | dict d =>
    have : Decoder.put (.slice elem) (m.view (.slice elem) (m.load loc)) (.dict d) =
        (some (.typeError (Value.dict d).typeName (bytes "slice")),
          m.view (.slice elem) (m.load loc)) := by
      cases elem <;> first | exact absurd rfl helem | simp [Decoder.put, Decoder.putSlice]
    rw [this]
    exact ⟨rfl, rfl, Memory.Frame.refl _ _ _, hs, fun x hx => Or.inl hx⟩


/-! ## Maps -/

theorem List.nodup_flatMap_filter {α β : Type} (f : α → List β) (p : α → Bool) :
    ∀ l : List α, (l.flatMap f).Nodup → ((l.filter p).flatMap f).Nodup
  | [], _ => by simp
  | x :: xs, h => by
    rw [List.flatMap_cons, List.nodup_append] at h
    have ih := List.nodup_flatMap_filter f p xs h.2.1
    by_cases hp : p x = true
    · rw [List.filter_cons_of_pos hp, List.flatMap_cons, List.nodup_append]
      refine ⟨h.1, ih, ?_⟩
      intro y hy hy2
      obtain ⟨z, hz, hyz⟩ := List.mem_flatMap.1 hy2
      exact h.2.2 hy (List.mem_flatMap.2 ⟨z, List.mem_of_mem_filter hz, hyz⟩)
    · rw [List.filter_cons_of_neg hp]
      exact ih

theorem Memory.WellFormed_map (m : Memory) (key elem : GoType) (id : Nat) :
    m.WellFormed (.map key elem) (.map id) = true ↔
      id < m.maps.length ∧ ∀ e ∈ m.mapAt id, m.WellFormed elem e.2 = true := by
  simp only [Memory.WellFormed, Bool.and_eq_true, decide_eq_true_eq, List.all_eq_true]

theorem Memory.reach_map (m : Memory) (key elem : GoType) (id : Nat) :
    m.reach (.map key elem) (.map id) =
      .map id :: (m.mapAt id).flatMap (fun e => m.reach elem e.2) := by
  simp only [Memory.reach]

theorem Memory.SetMapIndex_arrays (m : Memory) (loc : Loc) (k : List Nat) (e : MemValue) :
    (m.SetMapIndex loc k e).arrays = m.arrays := by
  simp only [Memory.SetMapIndex]
  split <;> rfl

/-- One iteration of the loop of `putMap` on a map that shares no storage. -/
theorem putMapAt_step (key elem : GoType)
    (putElemAt : Memory → Loc → Value → Option DecodeError × Memory)
    (putElem : GoValue → Value → Option DecodeError × GoValue)
    (hspec : Decoder.Refines elem putElemAt putElem)
    (m : Memory) (loc : Loc) (id : Nat) (k : List Nat) (v : Value)
    (hs : m.Separated (.map key elem) loc = true) (hl : m.load loc = .map id)
    (m1 m2 : Memory)
    (hm1 : m1 = (putElemAt (m.alloc [elem.zeroMem])
      { array := m.arrays.length, index := 0, path := [] } v).2)
    (hm2 : m2 = m1.SetMapIndex loc k
      (m1.load { array := m.arrays.length, index := 0, path := [] })) :
    m2.load loc = .map id ∧ m2.Separated (.map key elem) loc = true ∧
    (m2.mapAt id).map (fun e => (e.1, m2.view elem e.2)) =
      SetMapIndex ((m.mapAt id).map (fun e => (e.1, m.view elem e.2))) k
        (putElem elem.zero v).2 ∧
    m.Frame m2 loc (m.reach (.map key elem) (.map id)) ∧
    (∀ x ∈ m2.reach (.map key elem) (.map id),
      x ∈ m.reach (.map key elem) (.map id) ∨ ¬ m.Has x) := by
  rw [Memory.Separated_iff, hl, Memory.WellFormed_map, Memory.reach_map] at hs
  obtain ⟨hvalid, ⟨hid, hwf⟩, hnd, hloc⟩ := hs
  have hvalid2 := hvalid
  simp only [Memory.Valid, Bool.and_eq_true, decide_eq_true_eq] at hvalid2
  have hlocHas : loc.array < m.arrays.length := hvalid2.1.1
  set m0 := m.alloc [elem.zeroMem] with hm0
  set eloc : Loc := { array := m.arrays.length, index := 0, path := [] } with heloc
  have hz := Memory.view_zeroMem m0 elem
  have hload0 : m0.load eloc = elem.zeroMem := by
    simp [Memory.load, hm0, Memory.alloc_array_self, heloc, MemValue.load]
  have hsep0 : m0.Separated elem eloc = true := by
    rw [Memory.Separated_iff, hload0, hz.2.1]
    refine ⟨?_, hz.2.2, List.nodup_nil, List.not_mem_nil _⟩
    simp [Memory.Valid, hm0, Memory.alloc_arrays_length, Memory.alloc_array_self, heloc,
      MemValue.HasPath]
  obtain ⟨_, hview, hframe, hsep1, hsub⟩ := hspec m0 eloc v hsep0
  rw [← hm1] at hview hframe hsep1 hsub
  rw [hload0, hz.1] at hview
  rw [hload0, hz.2.1] at hframe hsub
  set e1 := m1.load eloc with he1
  rw [Memory.Separated_iff] at hsep1
  obtain ⟨_, hwf1, hnd1, _⟩ := hsep1
  -- the memory before the call is untouched
  have hHas0 : ∀ x, m.Has x → m0.Has x := by
    intro x hx
    cases x with
    | array b => simp only [Memory.Has, hm0, Memory.alloc_arrays_length] at hx ⊢; omega
    | map i => exact hx
  have hsame1 : ∀ x, m.Has x → m.SameAt m1 x := by
    intro x hx
    have h1 : m0.SameAt m1 x := by
      refine hframe.same x (hHas0 x hx) (List.not_mem_nil _) ?_
      intro h
      rw [h] at hx
      simp [Memory.Has, heloc] at hx
    cases x with
    | array b =>
      show m1.array b = m.array b
      have h2 : m1.array b = m0.array b := h1
      rw [h2, hm0, Memory.alloc_array_lt m _ _ hx]
    | map i => exact h1
  have hfresh1 : ∀ x ∈ m1.reach elem e1, ¬ m.Has x := by
    intro x hx hm
    rcases hsub x hx with h | h
    · exact List.not_mem_nil _ h
    · exact h (hHas0 x hm)
  have hl1 : m1.load loc = .map id := by
    rw [Memory.load_eq_of_array m m1 loc (hsame1 (.array loc.array) hlocHas), hl]
  have hmap1 : m1.mapAt id = m.mapAt id := hsame1 (.map id) hid
  -- the memory after `SetMapIndex`
  set E := m.mapAt id with hE
  have hm2arr : m2.arrays = m1.arrays := by rw [hm2, Memory.SetMapIndex_arrays]
  have hm2maps : m2.maps = m1.maps.set id
      (E.filter (fun e => !(e.1.isString k)) ++ [(.string k, e1)]) := by
    rw [hm2]
    simp only [Memory.SetMapIndex, hl1, hmap1]
  have hid1 : id < m1.maps.length := hframe.grows (.map id) (hHas0 _ hid)
  have hm2id : m2.mapAt id = E.filter (fun e => !(e.1.isString k)) ++ [(.string k, e1)] := by
    simp only [Memory.mapAt, hm2maps]
    exact List.getD_set_self _ _ _ _ hid1
  have hm2other : ∀ i, i ≠ id → m2.mapAt i = m1.mapAt i := by
    intro i hi
    simp only [Memory.mapAt, hm2maps]
    exact List.getD_set_ne _ _ _ _ _ (Ne.symm hi)
  have hsame12 : ∀ x, x ≠ .map id → m1.SameAt m2 x := by
    intro x hx
    cases x with
    | array b =>
      show m2.array b = m1.array b
      simp only [Memory.array, hm2arr]
    | map i =>
      exact hm2other i (fun h => hx (by rw [h]))
  have hgrow12 : ∀ x, m1.Has x → m2.Has x := by
    intro x hx
    cases x with
    | array b => simp only [Memory.Has, hm2arr] at hx ⊢; exact hx
    | map i => simp only [Memory.Has, hm2maps, List.length_set] at hx ⊢; exact hx
  have hgrow : ∀ x, m.Has x → m2.Has x :=
    fun x hx => hgrow12 x (hframe.grows x (hHas0 x hx))
  have hsame2 : ∀ x, m.Has x → x ≠ .map id → m.SameAt m2 x :=
    fun x hx hne => (hsame1 x hx).chain (hsame12 x hne)
  have hl2 : m2.load loc = .map id := by
    rw [Memory.load_eq_of_array m m2 loc (hsame2 (.array loc.array) hlocHas (by simp)), hl]
  -- the entries that stay
  have hid_not : ∀ e ∈ E, Addr.map id ∉ m.reach elem e.2 := by
    intro e he hmem
    exact (List.nodup_cons.1 hnd).1 (List.mem_flatMap.2 ⟨e, he, hmem⟩)
  have hold : ∀ e ∈ E, ∀ y ∈ m.reach elem e.2, m.SameAt m2 y := by
    intro e he y hy
    refine hsame2 y (Memory.WellFormed_Has m elem e.2 (hwf e he) y hy) ?_
    intro h
    rw [h] at hy
    exact hid_not e he hy
  have hcongr : ∀ e ∈ E,
      m2.view elem e.2 = m.view elem e.2 ∧ m2.reach elem e.2 = m.reach elem e.2 :=
    fun e he => Memory.view_congr m m2 elem e.2 (hold e he)
  -- the new entry
  have hnew : ∀ y ∈ m1.reach elem e1, m1.SameAt m2 y := by
    intro y hy
    refine hsame12 y ?_
    intro h
    rw [h] at hy
    exact hfresh1 _ hy hid
  have hcongr1 := Memory.view_congr m1 m2 elem e1 hnew
  have hreach2 : m2.reach (.map key elem) (.map id) =
      .map id :: ((E.filter (fun e => !(e.1.isString k))).flatMap (fun e => m.reach elem e.2) ++
        m1.reach elem e1) := by
    rw [Memory.reach_map, hm2id, List.flatMap_append]
    simp only [List.flatMap_cons, List.flatMap_nil, List.append_nil, hcongr1.2]
    congr 2
    exact List.flatMap_congr (fun e he => (hcongr e (List.mem_of_mem_filter he)).2)
  have hsubset : ∀ x ∈ m2.reach (.map key elem) (.map id),
      x ∈ m.reach (.map key elem) (.map id) ∨ ¬ m.Has x := by
    intro x hx
    rw [hreach2] at hx
    rw [Memory.reach_map]
    rcases List.mem_cons.1 hx with h | h
    · exact Or.inl (by rw [h]; exact List.mem_cons_self _ _)
    · rcases List.mem_append.1 h with h | h
      · obtain ⟨e, he, hxe⟩ := List.mem_flatMap.1 h
        exact Or.inl (List.mem_cons_of_mem _
          (List.mem_flatMap.2 ⟨e, List.mem_of_mem_filter he, hxe⟩))
      · exact Or.inr (hfresh1 x h)
  refine ⟨hl2, ?_, ?_, ?_, hsubset⟩
  · rw [Memory.Separated_iff, hl2, Memory.WellFormed_map]
    refine ⟨Memory.Valid_of_array m m2 loc (hsame2 (.array loc.array) hlocHas (by simp)) ?_
      hvalid, ⟨hgrow (.map id) hid, ?_⟩, ?_, ?_⟩
    · by_contra hc
      have := hgrow (.array (m.arrays.length - 1)) (by simp only [Memory.Has]; omega)
      simp only [Memory.Has] at this
      omega
    · intro e he
      rw [hm2id] at he
      rcases List.mem_append.1 he with he | he
      · have heE := List.mem_of_mem_filter he
        exact Memory.WellFormed_congr m m2 hgrow elem e.2 (hwf e heE) (hold e heE)
      · rw [List.mem_singleton] at he
        rw [he]
        exact Memory.WellFormed_congr m1 m2 hgrow12 elem e1 hwf1 hnew
    · rw [hreach2, List.nodup_cons]
      refine ⟨?_, ?_⟩
      · intro hmem
        rcases List.mem_append.1 hmem with h | h
        · obtain ⟨e, he, hxe⟩ := List.mem_flatMap.1 h
          exact hid_not e (List.mem_of_mem_filter he) hxe
        · exact hfresh1 _ h hid
      · rw [List.nodup_append]
        refine ⟨List.nodup_flatMap_filter _ _ _ (List.nodup_cons.1 hnd).2, hnd1, ?_⟩
        intro y hy hy2
        obtain ⟨e, he, hye⟩ := List.mem_flatMap.1 hy
        exact hfresh1 y hy2
          (Memory.WellFormed_Has m elem e.2 (hwf e (List.mem_of_mem_filter he)) y hye)
    · intro hmem
      rcases hsubset _ hmem with h | h
      · rw [Memory.reach_map] at h
        exact hloc h
      · exact h hlocHas
  · rw [hm2id, List.map_append, List.map_singleton, SetMapIndex, hcongr1.1, hview]
    congr 1
    rw [List.filter_map]
    exact List.map_congr_left (fun e he => by rw [(hcongr e (List.mem_of_mem_filter he)).1])
  · refine ⟨hgrow, ?_, ?_⟩
    · intro x hx hnot _
      refine hsame2 x hx ?_
      intro h
      rw [Memory.reach_map] at hnot
      exact hnot (by rw [h]; exact List.mem_cons_self _ _)
    · have h1 : m2.array loc.array = m.array loc.array :=
        hsame2 (.array loc.array) hlocHas (by simp)
      rw [h1, hl2, ← hl, Memory.load, MemValue.store_load, List.set_getD_self]


/-- The loop of `putMap` on a map that shares no storage. -/
theorem putMapAtLoop_spec (key elem : GoType)
    (putElemAt : Memory → Loc → Value → Option DecodeError × Memory)
    (putElem : GoValue → Value → Option DecodeError × GoValue)
    (hspec : Decoder.Refines elem putElemAt putElem) (loc : Loc) (id : Nat) :
    ∀ (kvs : List (List Nat × Value)) (m : Memory),
      m.Separated (.map key elem) loc = true → m.load loc = .map id →
      ∀ m2, m2 = Decoder.putMapAtLoop putElemAt elem.zeroMem loc kvs m →
      m2.load loc = .map id ∧ m2.Separated (.map key elem) loc = true ∧
      (m2.mapAt id).map (fun e => (e.1, m2.view elem e.2)) =
        Decoder.putMapLoop putElem elem.zero kvs
          ((m.mapAt id).map (fun e => (e.1, m.view elem e.2))) ∧
      m.Frame m2 loc (m.reach (.map key elem) (.map id)) ∧
      (∀ x ∈ m2.reach (.map key elem) (.map id),
        x ∈ m.reach (.map key elem) (.map id) ∨ ¬ m.Has x)
  | [], m, hs, hl, m2, hm2 => by
    simp only [Decoder.putMapAtLoop] at hm2
    subst hm2
    exact ⟨hl, hs, by simp [Decoder.putMapLoop], Memory.Frame.refl _ _ _, fun x hx => Or.inl hx⟩
  | (k, v) :: rest, m, hs, hl, m2, hm2 => by
    simp only [Decoder.putMapAtLoop] at hm2
    obtain ⟨hl1, hs1, hv1, hf1, hsub1⟩ :=
      putMapAt_step key elem putElemAt putElem hspec m loc id k v hs hl _ _ rfl rfl
    obtain ⟨hl2, hs2, hv2, hf2, hsub2⟩ :=
      putMapAtLoop_spec key elem putElemAt putElem hspec loc id rest _ hs1 hl1 m2 hm2
    refine ⟨hl2, hs2, ?_, hf1.seq hf2 hsub1, ?_⟩
    · rw [hv2, hv1, Decoder.putMapLoop]
    · intro x hx
      rcases hsub2 x hx with h | h
      · exact hsub1 x h
      · exact Or.inr (Memory.Has_mono hf1.grows h)

/-- A nil map that is replaced by a new, empty map object. -/
theorem MakeMap_spec (key elem : GoType) (m : Memory) (loc : Loc)
    (hs : m.Separated (.map key elem) loc = true) (m1 : Memory)
    (hm1 : m1 = Memory.store { m with maps := m.maps ++ [[]] } loc (.map m.maps.length)) :
    m1.load loc = .map m.maps.length ∧ m1.Separated (.map key elem) loc = true ∧
    m1.mapAt m.maps.length = [] ∧
    m.Frame m1 loc (m.reach (.map key elem) .mapNil) ∧
    (∀ x ∈ m1.reach (.map key elem) (.map m.maps.length),
      x ∈ m.reach (.map key elem) .mapNil ∨ ¬ m.Has x) := by
  rw [Memory.Separated_iff] at hs
  obtain ⟨hvalid, _, _, _⟩ := hs
  have hvalid2 := hvalid
  simp only [Memory.Valid, Bool.and_eq_true, decide_eq_true_eq] at hvalid2
  set m0 : Memory := { m with maps := m.maps ++ [[]] } with hm0
  have hvalid0 : m0.Valid loc = true := hvalid
  have hl1 : m1.load loc = .map m.maps.length := by
    rw [hm1]; exact Memory.load_store m0 loc _ hvalid0
  have hmap : m1.mapAt m.maps.length = [] := by
    rw [hm1, Memory.store_mapAt]
    simp [Memory.mapAt, hm0, List.getD_eq_getElem?_getD]
  have hreach : m1.reach (.map key elem) (.map m.maps.length) = [.map m.maps.length] := by
    rw [Memory.reach_map, hmap]
    rfl
  refine ⟨hl1, ?_, hmap, ?_, ?_⟩
  · rw [Memory.Separated_iff, hl1, Memory.WellFormed_map, hreach, hmap]
    refine ⟨?_, ⟨?_, by simp⟩, List.nodup_singleton _, by simp⟩
    · rw [hm1]; exact Memory.Valid_store m0 loc _ hvalid0
    · rw [hm1, Memory.store_maps]
      simp [hm0]
  · refine ⟨?_, ?_, ?_⟩
    · intro x hx
      cases x with
      | array b =>
        simp only [Memory.Has] at hx ⊢
        rw [hm1, Memory.store_arrays_length]
        exact hx
      | map i =>
        simp only [Memory.Has] at hx ⊢
        rw [hm1, Memory.store_maps]
        simp only [hm0, List.length_append, List.length_singleton]
        omega
    · intro x hx _ hne
      cases x with
      | array b =>
        show m1.array b = m.array b
        rw [hm1, Memory.store_array_ne _ _ _ _ (fun h => hne (by rw [h]))]
        rfl
      | map i =>
        show m1.mapAt i = m.mapAt i
        rw [hm1, Memory.store_mapAt]
        simp only [Memory.Has] at hx
        simp [Memory.mapAt, hm0, List.getD_eq_getElem?_getD, List.getElem?_append_left hx]
    · rw [hm1, Memory.store_array_self, Memory.load_store m0 loc _ hvalid0]
      rfl
  · intro x hx
    rw [hreach, List.mem_singleton] at hx
    right
    rw [hx]
    simp [Memory.Has]

/-- `putMap` on a map that shares no storage does what `putMap` on the value does. -/
theorem putMapAt_Refines (key elem : GoType)
    (putElemAt : Memory → Loc → Value → Option DecodeError × Memory)
    (hspec : Decoder.Refines elem putElemAt (Decoder.put elem)) :
    Decoder.Refines (.map key elem) (Decoder.putMapAt key putElemAt elem.zeroMem)
      (Decoder.put (.map key elem)) := by
  intro m loc src hs
  have hs0 := hs
  rw [Memory.Separated_iff] at hs0
  obtain ⟨hvalid, hwf, hnd, hlocnot⟩ := hs0
  have herr : ∀ (e : DecodeError) (dst : GoValue),
      Decoder.putMapAt key putElemAt elem.zeroMem m loc src = (some e, m) →
      Decoder.put (.map key elem) (m.view (.map key elem) (m.load loc)) src =
        (some e, m.view (.map key elem) (m.load loc)) →
      (Decoder.putMapAt key putElemAt elem.zeroMem m loc src).1 =
        (Decoder.put (.map key elem) (m.view (.map key elem) (m.load loc)) src).1 ∧
      (Decoder.putMapAt key putElemAt elem.zeroMem m loc src).2.view (.map key elem)
          ((Decoder.putMapAt key putElemAt elem.zeroMem m loc src).2.load loc) =
        (Decoder.put (.map key elem) (m.view (.map key elem) (m.load loc)) src).2 ∧
      m.Frame (Decoder.putMapAt key putElemAt elem.zeroMem m loc src).2 loc
        (m.reach (.map key elem) (m.load loc)) ∧
      (Decoder.putMapAt key putElemAt elem.zeroMem m loc src).2.Separated (.map key elem) loc =
        true ∧
      ∀ x ∈ (Decoder.putMapAt key putElemAt elem.zeroMem m loc src).2.reach (.map key elem)
          ((Decoder.putMapAt key putElemAt elem.zeroMem m loc src).2.load loc),
        x ∈ m.reach (.map key elem) (m.load loc) ∨ ¬ m.Has x := by
    intro e dst h1 h2
    rw [h1, h2]
    exact ⟨rfl, rfl, Memory.Frame.refl _ _ _, hs, fun x hx => Or.inl hx⟩
  by_cases hkey : key = .string
  · subst hkey
    cases src with
    | dict d =>
      have hput : Decoder.put (.map .string elem) (m.view (.map .string elem) (m.load loc))
          (.dict d) = (none, .map (Decoder.putMapLoop (Decoder.put elem) elem.zero d.m
            (m.view (.map .string elem) (m.load loc)).entries)) := by
        simp [Decoder.put, Decoder.putMap]
      rw [hput]
      cases hc : m.load loc with
      | map id =>
        have hat : Decoder.putMapAt .string putElemAt elem.zeroMem m loc (.dict d) =
            (none, Decoder.putMapAtLoop putElemAt elem.zeroMem loc d.m m) := by
          simp only [Decoder.putMapAt, hc]
        rw [hat]
        obtain ⟨hl2, hs2, hv2, hf2, hsub2⟩ :=
          putMapAtLoop_spec .string elem putElemAt (Decoder.put elem) hspec loc id d.m m hs hc
            _ rfl
        show _ ∧ Memory.view _ _ (Memory.load _ loc) = _ ∧ Memory.Frame m _ loc _ ∧
          Memory.Separated _ _ loc = true ∧ ∀ x ∈ Memory.reach _ _ (Memory.load _ loc), _
        rw [hl2]
        refine ⟨rfl, ?_, hf2, hs2, hsub2⟩
        simp only [Memory.view, GoValue.entries]
        rw [hv2]
      | mapNil =>
        have hat : Decoder.putMapAt .string putElemAt elem.zeroMem m loc (.dict d) =
            (none, Decoder.putMapAtLoop putElemAt elem.zeroMem loc d.m
              (Memory.store { m with maps := m.maps ++ [[]] } loc (.map m.maps.length))) := by
          simp only [Decoder.putMapAt, hc]
        rw [hat]
        obtain ⟨hl1, hs1, hmap1, hf1, hsub1⟩ := MakeMap_spec .string elem m loc hs _ rfl
        obtain ⟨hl2, hs2, hv2, hf2, hsub2⟩ :=
          putMapAtLoop_spec .string elem putElemAt (Decoder.put elem) hspec loc m.maps.length
            d.m _ hs1 hl1 _ rfl
        show _ ∧ Memory.view _ _ (Memory.load _ loc) = _ ∧ Memory.Frame m _ loc _ ∧
          Memory.Separated _ _ loc = true ∧ ∀ x ∈ Memory.reach _ _ (Memory.load _ loc), _
        rw [hl2]
        refine ⟨rfl, ?_, hf1.seq hf2 hsub1, hs2, ?_⟩
        · simp only [Memory.view, GoValue.entries]
          rw [hv2, hmap1]
          rfl
        · intro x hx
          rcases hsub2 x hx with h | h
          · exact hsub1 x h
          · exact Or.inr (Memory.Has_mono hf1.grows h)
      | _ => rw [hc] at hwf; simp [Memory.WellFormed] at hwf
    | int i =>
      exact herr _ (m.view (.map .string elem) (m.load loc)) rfl
        (by simp [Decoder.put, Decoder.putMap])
    | string s =>
      exact herr _ (m.view (.map .string elem) (m.load loc)) rfl
        (by simp [Decoder.put, Decoder.putMap])
    | list l =>
      exact herr _ (m.view (.map .string elem) (m.load loc)) rfl
        (by simp [Decoder.put, Decoder.putMap])
  · refine herr (.mapKeyError key) (m.view (.map key elem) (m.load loc)) ?_ ?_
    · cases key <;> first | exact absurd rfl hkey | rfl
    · cases key <;> first | exact absurd rfl hkey | simp [Decoder.put, Decoder.putMap]


/-! ## Destinations that hold no reference, and raw bytes -/

/-- A write to a location changes that location only. -/
theorem Memory.store_Frame (m : Memory) (loc : Loc) (v : MemValue) (own : List Addr)
    (hvalid : m.Valid loc = true) : m.Frame (m.store loc v) loc own where
  grows := fun x hx => by
    cases x with
    | array b => simpa [Memory.Has, Memory.store_arrays_length] using hx
    | map i => exact hx
  same := fun x _ _ hne => by
    cases x with
    | array b => exact Memory.store_array_ne m loc v b (fun h => hne (by rw [h]))
    | map i => rfl
  cell := by rw [Memory.store_array_self, Memory.load_store m loc v hvalid]

/-- A destination of a kind that holds no reference, after a write of `v`. -/
theorem store_Refines (ty : GoType) (m : Memory) (loc : Loc) (v : MemValue)
    (hreach : ∀ (m2 : Memory) (c : MemValue), m2.reach ty c = [])
    (hwf : ∀ (m2 : Memory) (c : MemValue), m2.WellFormed ty c = true)
    (hs : m.Separated ty loc = true) :
    m.Frame (m.store loc v) loc (m.reach ty (m.load loc)) ∧
    (m.store loc v).Separated ty loc = true ∧
    (m.store loc v).load loc = v ∧
    ∀ x ∈ (m.store loc v).reach ty ((m.store loc v).load loc),
      x ∈ m.reach ty (m.load loc) ∨ ¬ m.Has x := by
  rw [Memory.Separated_iff] at hs
  refine ⟨Memory.store_Frame m loc v _ hs.1, ?_, Memory.load_store m loc v hs.1, ?_⟩
  · rw [Memory.Separated_iff, hreach]
    exact ⟨Memory.Valid_store m loc v hs.1, hwf _ _, List.nodup_nil, List.not_mem_nil _⟩
  · intro x hx
    rw [hreach] at hx
    exact absurd hx (List.not_mem_nil _)

/-- A call that leaves the memory as it is. -/
theorem Refines_unchanged (ty : GoType) (m : Memory) (loc : Loc)
    (hs : m.Separated ty loc = true) :
    m.Frame m loc (m.reach ty (m.load loc)) ∧ m.Separated ty loc = true ∧
      ∀ x ∈ m.reach ty (m.load loc), x ∈ m.reach ty (m.load loc) ∨ ¬ m.Has x :=
  ⟨Memory.Frame.refl _ _ _, hs, fun _ hx => Or.inl hx⟩

theorem putAt_iface (grow : Nat → Nat → Nat) :
    Decoder.Refines .iface (Decoder.putAt grow .iface) (Decoder.put .iface) := by
  intro m loc src hs
  obtain ⟨h1, h2, h3, h4⟩ := store_Refines .iface m loc (.iface src.Interface)
    (fun _ _ => by simp [Memory.reach]) (fun _ _ => by simp [Memory.WellFormed]) hs
  simp only [Decoder.putAt, Decoder.put]
  refine ⟨trivial, ?_, h1, h2, h4⟩
  rw [h3]
  simp [Memory.view, MemValue.toGoValue]

theorem putAt_int64 (grow : Nat → Nat → Nat) :
    Decoder.Refines .int64 (Decoder.putAt grow .int64) (Decoder.put .int64) := by
  intro m loc src hs
  cases src with
  | int i =>
    obtain ⟨h1, h2, h3, h4⟩ := store_Refines .int64 m loc (.int64 i)
      (fun _ _ => by simp [Memory.reach]) (fun _ _ => by simp [Memory.WellFormed]) hs
    simp only [Decoder.putAt, Decoder.put, Decoder.putInt]
    refine ⟨trivial, ?_, h1, h2, h4⟩
    rw [h3]
    simp [Memory.view, MemValue.toGoValue]
  | string s =>
    obtain ⟨h1, h2, h3⟩ := Refines_unchanged .int64 m loc hs
    simp only [Decoder.putAt, Decoder.put, Decoder.putInt]
    exact ⟨trivial, trivial, h1, h2, h3⟩
  | list l =>
    obtain ⟨h1, h2, h3⟩ := Refines_unchanged .int64 m loc hs
    simp only [Decoder.putAt, Decoder.put, Decoder.putInt]
    exact ⟨trivial, trivial, h1, h2, h3⟩
  | dict d =>
    obtain ⟨h1, h2, h3⟩ := Refines_unchanged .int64 m loc hs
    simp only [Decoder.putAt, Decoder.put, Decoder.putInt]
    exact ⟨trivial, trivial, h1, h2, h3⟩

theorem putAt_string (grow : Nat → Nat → Nat) :
    Decoder.Refines .string (Decoder.putAt grow .string) (Decoder.put .string) := by
  intro m loc src hs
  cases src with
  | string s =>
    obtain ⟨h1, h2, h3, h4⟩ := store_Refines .string m loc (.string s)
      (fun _ _ => by simp [Memory.reach]) (fun _ _ => by simp [Memory.WellFormed]) hs
    simp only [Decoder.putAt, Decoder.put, Decoder.putString]
    refine ⟨trivial, ?_, h1, h2, h4⟩
    rw [h3]
    simp [Memory.view, MemValue.toGoValue]
  | int i =>
    obtain ⟨h1, h2, h3⟩ := Refines_unchanged .string m loc hs
    simp only [Decoder.putAt, Decoder.put, Decoder.putString]
    exact ⟨trivial, trivial, h1, h2, h3⟩
  | list l =>
    obtain ⟨h1, h2, h3⟩ := Refines_unchanged .string m loc hs
    simp only [Decoder.putAt, Decoder.put, Decoder.putString]
    exact ⟨trivial, trivial, h1, h2, h3⟩
  | dict d =>
    obtain ⟨h1, h2, h3⟩ := Refines_unchanged .string m loc hs
    simp only [Decoder.putAt, Decoder.put, Decoder.putString]
    exact ⟨trivial, trivial, h1, h2, h3⟩

theorem putAt_uint8 (grow : Nat → Nat → Nat) :
    Decoder.Refines .uint8 (Decoder.putAt grow .uint8) (Decoder.put .uint8) := by
  intro m loc src hs
  obtain ⟨h1, h2, h3⟩ := Refines_unchanged .uint8 m loc hs
  simp only [Decoder.putAt, Decoder.put]
  exact ⟨trivial, trivial, h1, h2, h3⟩

theorem putAt_ptr (grow : Nat → Nat → Nat) (elem : GoType) :
    Decoder.Refines (.ptr elem) (Decoder.putAt grow (.ptr elem)) (Decoder.put (.ptr elem)) := by
  intro m loc src hs
  obtain ⟨h1, h2, h3⟩ := Refines_unchanged (.ptr elem) m loc hs
  simp only [Decoder.putAt, Decoder.put]
  exact ⟨trivial, trivial, h1, h2, h3⟩

theorem putAt_other (grow : Nat → Nat → Nat) (kind : Nat) :
    Decoder.Refines (.other kind) (Decoder.putAt grow (.other kind))
      (Decoder.put (.other kind)) := by
  intro m loc src hs
  obtain ⟨h1, h2, h3⟩ := Refines_unchanged (.other kind) m loc hs
  simp only [Decoder.putAt, Decoder.put]
  exact ⟨trivial, trivial, h1, h2, h3⟩

theorem Memory.reach_slice_nil (m : Memory) (elem : GoType) (a off len cap : Nat)
    (h : len = 0 ∧ cap = 0) : m.reach (.slice elem) (.slice a off len cap) = [] := by
  simp only [Memory.reach, h, and_self, if_true]

/-- `putBencode` on a `[]byte` destination. -/
theorem putAt_bytes (grow : Nat → Nat → Nat) :
    Decoder.Refines (.slice .uint8) (Decoder.putAt grow (.slice .uint8))
      (Decoder.put (.slice .uint8)) := by
  intro m loc src hs
  have hs0 := hs
  rw [Memory.Separated_iff] at hs0
  obtain ⟨hvalid, _, _, _⟩ := hs0
  have hvalid2 := hvalid
  simp only [Memory.Valid, Bool.and_eq_true, decide_eq_true_eq] at hvalid2
  have hlocHas : loc.array < m.arrays.length := hvalid2.1.1
  set n := src.Bencode.length with hn
  set g := grow 0 n with hg
  set arr := src.Bencode.map MemValue.uint8 ++ List.replicate g (.uint8 0) with harr
  set m0 := m.alloc arr with hm0
  set m1 := m0.store loc (.slice m.arrays.length 0 n (n + g)) with hm1
  have hput : Decoder.putAt grow (.slice .uint8) m loc src = (none, m1) := by
    simp only [Decoder.putAt]
  have hput2 : Decoder.put (.slice .uint8) (m.view (.slice .uint8) (m.load loc)) src =
      (none, .slice (src.Bencode.map GoValue.uint8)) := by
    simp only [Decoder.put, Decoder.putBencode]
  rw [hput, hput2]
  have hnew : m.arrays.length ≠ loc.array := by omega
  have hvalid0 : m0.Valid loc = true :=
    Memory.Valid_of_array m m0 loc (Memory.alloc_array_lt m _ _ hlocHas)
      (by rw [hm0, Memory.alloc_arrays_length]; omega) hvalid
  have hl1 : m1.load loc = .slice m.arrays.length 0 n (n + g) :=
    Memory.load_store m0 loc _ hvalid0
  have hm1a : m1.array m.arrays.length = arr := by
    rw [hm1, Memory.store_array_ne _ _ _ _ hnew, hm0, Memory.alloc_array_self]
  have helems : m1.elems (.slice m.arrays.length 0 n (n + g)) =
      src.Bencode.map MemValue.uint8 := by
    simp only [Memory.elems, hm1a, List.drop_zero, harr]
    rw [List.take_append_of_le_length (by simp [hn]), List.take_of_length_le (by simp [hn])]
  have hreach : ∀ x ∈ m1.reach (.slice .uint8) (.slice m.arrays.length 0 n (n + g)),
      x = .array m.arrays.length := by
    intro x hx
    by_cases h0 : n = 0 ∧ n + g = 0
    · rw [Memory.reach_slice_nil m1 .uint8 _ 0 n (n + g) h0] at hx
      exact absurd hx (List.not_mem_nil _)
    · rw [Memory.reach_slice m1 .uint8 _ 0 n (n + g) h0] at hx
      rcases List.mem_cons.1 hx with h | h
      · exact h
      · obtain ⟨e, _, hxe⟩ := List.mem_flatMap.1 h
        simp [Memory.reach] at hxe
  have hnd : (m1.reach (.slice .uint8) (.slice m.arrays.length 0 n (n + g))).Nodup := by
    by_cases h0 : n = 0 ∧ n + g = 0
    · rw [Memory.reach_slice_nil m1 .uint8 _ 0 n (n + g) h0]
      exact List.nodup_nil
    · rw [Memory.reach_slice m1 .uint8 _ 0 n (n + g) h0]
      have : (m1.elems (.slice m.arrays.length 0 n (n + g))).flatMap (m1.reach .uint8) = [] := by
        rw [List.flatMap_eq_nil_iff]
        intro e _
        simp [Memory.reach]
      rw [this]
      exact List.nodup_singleton _
  show _ ∧ Memory.view _ _ (Memory.load _ loc) = _ ∧ Memory.Frame m _ loc _ ∧
    Memory.Separated _ _ loc = true ∧ ∀ x ∈ Memory.reach _ _ (Memory.load _ loc), _
  rw [hl1]
  refine ⟨rfl, ?_, ?_, ?_, ?_⟩
  · simp only [Memory.view, helems, List.map_map]
    congr 1
  · refine ⟨?_, ?_, ?_⟩
    · intro x hx
      cases x with
      | array b =>
        simp only [Memory.Has] at hx ⊢
        rw [hm1, Memory.store_arrays_length, hm0, Memory.alloc_arrays_length]
        omega
      | map i => exact hx
    · intro x hx _ hne
      cases x with
      | array b =>
        show m1.array b = m.array b
        rw [hm1, Memory.store_array_ne _ _ _ _ (fun h => hne (by rw [h])), hm0,
          Memory.alloc_array_lt m _ _ hx]
      | map i => rfl
    · rw [hm1, Memory.store_array_self, hm0, Memory.alloc_array_lt m _ _ hlocHas, ← hm0,
        Memory.load_store m0 loc _ hvalid0]
  · rw [Memory.Separated_iff, hl1, Memory.WellFormed_slice]
    refine ⟨Memory.Valid_store m0 loc _ hvalid0, ⟨by omega, Or.inr ⟨?_, ?_⟩, ?_⟩, hnd, ?_⟩
    · rw [hm1, Memory.store_arrays_length, hm0, Memory.alloc_arrays_length]
      omega
    · rw [hm1a, harr]
      simp [hn]
    · intro e _
      simp [Memory.WellFormed]
    · intro hmem
      have := hreach _ hmem
      injection this with this
      omega
  · intro x hx
    right
    rw [hreach x hx]
    simp [Memory.Has]


/-! ## Structs -/

theorem List.set_length_append {α : Type} (pre : List α) (c c1 : α) (cs : List α) :
    (pre ++ c :: cs).set pre.length c1 = pre ++ c1 :: cs := by
  induction pre with
  | nil => rfl
  | cons x xs ih => simp [ih]

theorem List.getD_length_append {α : Type} (pre : List α) (c d : α) (cs : List α) :
    (pre ++ c :: cs).getD pre.length d = c := by
  induction pre with
  | nil => rfl
  | cons x xs ih => simpa using ih

theorem Memory.Valid_Field (m : Memory) (loc : Loc) (fs0 : List MemValue) (i : Nat)
    (hvalid : m.Valid loc = true) (hl : m.load loc = .struct fs0) (hi : i < fs0.length) :
    m.Valid (loc.Field i) = true ∧ m.load (loc.Field i) = fs0.getD i (.other 0) := by
  simp only [Memory.Valid, Bool.and_eq_true, decide_eq_true_eq] at hvalid ⊢
  simp only [Memory.load] at hl
  simp only [Loc.Field, Memory.load, MemValue.HasPath_append, MemValue.load_append, hl,
    Bool.and_eq_true, MemValue.HasPath, MemValue.fieldValues, MemValue.load, decide_eq_true_eq,
    and_true]
  exact ⟨hvalid.1, hvalid.2, hi⟩

/-- A write to a field of a struct is a write to the struct. -/
theorem Memory.Frame_Field (m m1 : Memory) (loc : Loc) (fs0 : List MemValue) (i : Nat)
    (own : List Addr) (hvalid : m.Valid loc = true) (hl : m.load loc = .struct fs0)
    (hf : m.Frame m1 (loc.Field i) own) :
    m1.load loc = .struct (fs0.set i (m1.load (loc.Field i))) ∧ m.Frame m1 loc own ∧
      m1.Valid loc = true := by
  have hv := hvalid
  simp only [Memory.Valid, Bool.and_eq_true, decide_eq_true_eq] at hv
  obtain ⟨⟨hA, hidx⟩, hpath⟩ := hv
  have hcell := hf.cell
  simp only [Loc.Field] at hcell
  have hl0 := hl
  simp only [Memory.load] at hl0
  rw [MemValue.store_append _ _ _ _ hpath, hl0] at hcell
  have hst : MemValue.store [i] (.struct fs0) (m1.load (loc.Field i)) =
      .struct (fs0.set i (m1.load (loc.Field i))) := by
    simp [MemValue.store]
  have hl1 : m1.load loc = .struct (fs0.set i (m1.load (loc.Field i))) := by
    rw [Memory.load, hcell, List.getD_set_self _ _ _ _ hidx, MemValue.load_store_path _ _ _ hpath]
    exact hst
  refine ⟨hl1, ⟨hf.grows, hf.same, ?_⟩, ?_⟩
  · rw [hl1, ← hst]
    exact hcell
  · simp only [Memory.Valid, Bool.and_eq_true, decide_eq_true_eq]
    refine ⟨⟨hf.grows (.array loc.array) hA, ?_⟩, ?_⟩
    · rw [hcell, List.length_set]
      exact hidx
    · rw [hcell, List.getD_set_self _ _ _ _ hidx]
      exact MemValue.HasPath_store _ _ _ hpath

/-- The fields after a field are untouched by a write to the field. -/
theorem fields_rest_untouched (ty : GoType) (fs : List (StructFieldOf GoType))
    (m m1 : Memory) (loc : Loc) (c : MemValue) (cs : List MemValue)
    (hwfs : m.WellFormedFields fs cs = true)
    (hnd : (m.reach ty c ++ m.reachFields fs cs).Nodup)
    (hloc : Addr.array loc.array ∉ m.reach ty c ++ m.reachFields fs cs)
    (hf1 : m.Frame m1 loc (m.reach ty c)) :
    m1.WellFormedFields fs cs = true ∧ m1.reachFields fs cs = m.reachFields fs cs ∧
      m1.viewFields fs cs = m.viewFields fs cs := by
  have hsame : ∀ x ∈ m.reachFields fs cs, m.SameAt m1 x := by
    intro x hx
    refine hf1.same x (Memory.WellFormedFields_Has m fs cs hwfs x hx) ?_ ?_
    · intro h
      exact (List.nodup_append.1 hnd).2.2 h hx
    · intro h
      rw [h] at hx
      exact hloc (List.mem_append.2 (Or.inr hx))
  have := Memory.viewFields_congr m m1 fs cs hsame
  exact ⟨Memory.WellFormedFields_congr m m1 hf1.grows fs cs hwfs hsame, this.2, this.1⟩

/-- A field that was written stays as it is while the fields after it are written. -/
theorem fields_after_rest (ty : GoType) (fs : List (StructFieldOf GoType))
    (m m1 m2 : Memory) (loc : Loc) (c c1 : MemValue) (cs cs2 : List MemValue)
    (hwfs : m.WellFormedFields fs cs = true)
    (hnd : (m.reach ty c ++ m.reachFields fs cs).Nodup)
    (hloc : Addr.array loc.array ∉ m.reach ty c ++ m.reachFields fs cs)
    (hlocHas : m.Has (.array loc.array))
    (hf1 : m.Frame m1 loc (m.reach ty c))
    (hwf1 : m1.WellFormed ty c1 = true) (hnd1 : (m1.reach ty c1).Nodup)
    (hsub1 : ∀ x ∈ m1.reach ty c1, x ∈ m.reach ty c ∨ ¬ m.Has x)
    (hf2 : m1.Frame m2 loc (m1.reachFields fs cs))
    (hnd2 : (m2.reachFields fs cs2).Nodup)
    (hsub2 : ∀ x ∈ m2.reachFields fs cs2, x ∈ m1.reachFields fs cs ∨ ¬ m1.Has x) :
    m2.view ty c1 = m1.view ty c1 ∧ m2.WellFormed ty c1 = true ∧
    (m2.reach ty c1 ++ m2.reachFields fs cs2).Nodup ∧
    m.Frame m2 loc (m.reach ty c ++ m.reachFields fs cs) ∧
    (∀ x ∈ m2.reach ty c1 ++ m2.reachFields fs cs2,
      x ∈ m.reach ty c ++ m.reachFields fs cs ∨ ¬ m.Has x) := by
  obtain ⟨_, hr1, _⟩ := fields_rest_untouched ty fs m m1 loc c cs hwfs hnd hloc hf1
  have hnot : ∀ x ∈ m1.reach ty c1, x ∉ m1.reachFields fs cs := by
    intro x hx hx2
    rw [hr1] at hx2
    rcases hsub1 x hx with h | h
    · exact (List.nodup_append.1 hnd).2.2 h hx2
    · exact h (Memory.WellFormedFields_Has m fs cs hwfs x hx2)
  have hloc1 : Addr.array loc.array ∉ m1.reach ty c1 := by
    intro hx
    rcases hsub1 _ hx with h | h
    · exact hloc (List.mem_append.2 (Or.inl h))
    · exact h hlocHas
  have hsame : ∀ x ∈ m1.reach ty c1, m1.SameAt m2 x := by
    intro x hx
    refine hf2.same x (Memory.WellFormed_Has m1 ty c1 hwf1 x hx) (hnot x hx) ?_
    intro h
    rw [h] at hx
    exact hloc1 hx
  have hc := Memory.view_congr m1 m2 ty c1 hsame
  refine ⟨hc.1, Memory.WellFormed_congr m1 m2 hf2.grows ty c1 hwf1 hsame, ?_, ?_, ?_⟩
  · rw [hc.2, List.nodup_append]
    refine ⟨hnd1, hnd2, ?_⟩
    intro x hx hx2
    rcases hsub2 x hx2 with h | h
    · exact hnot x hx h
    · exact h (Memory.WellFormed_Has m1 ty c1 hwf1 x hx)
  · refine Memory.Frame.seq (hf1.widen (fun x hx => List.mem_append.2 (Or.inl hx))) hf2 ?_
    intro x hx
    rw [hr1] at hx
    exact Or.inl (List.mem_append.2 (Or.inr hx))
  · intro x hx
    rw [hc.2] at hx
    rcases List.mem_append.1 hx with h | h
    · rcases hsub1 x h with h2 | h2
      · exact Or.inl (List.mem_append.2 (Or.inl h2))
      · exact Or.inr h2
    · rcases hsub2 x h with h2 | h2
      · rw [hr1] at h2
        exact Or.inl (List.mem_append.2 (Or.inr h2))
      · exact Or.inr (Memory.Has_mono hf1.grows h2)


theorem putAt_slice_eq (grow : Nat → Nat → Nat) (elem : GoType) (h : elem ≠ .uint8)
    (m : Memory) (loc : Loc) (src : Value) :
    Decoder.putAt grow (.slice elem) m loc src =
      Decoder.putSliceAt grow (Decoder.putAt grow elem) elem.zeroMem m loc src := by
  cases elem <;> first | exact absurd rfl h | simp only [Decoder.putAt]

theorem putAt_map_eq (grow : Nat → Nat → Nat) (key elem : GoType)
    (m : Memory) (loc : Loc) (src : Value) :
    Decoder.putAt grow (.map key elem) m loc src =
      Decoder.putMapAt key (Decoder.putAt grow elem) elem.zeroMem m loc src := by
  simp only [Decoder.putAt]

theorem put_struct_eq (fields : List (StructFieldOf GoType)) (dst : GoValue) (d : Dict) :
    Decoder.put (.struct fields) dst (.dict d) =
      ((Decoder.putStructFields fields dst.fieldValues d).1,
        .struct (Decoder.putStructFields fields dst.fieldValues d).2) := by
  simp only [Decoder.put]

mutual
/-- On a destination that shares no storage, `put` on the memory does what `put` on the
value does. -/
theorem putAt_Refines (grow : Nat → Nat → Nat) :
    (ty : GoType) → Decoder.Refines ty (Decoder.putAt grow ty) (Decoder.put ty)
  | .iface => putAt_iface grow
  | .int64 => putAt_int64 grow
  | .string => putAt_string grow
  | .uint8 => putAt_uint8 grow
  | .ptr elem => putAt_ptr grow elem
  | .other kind => putAt_other grow kind
  | .slice elem => by
    by_cases h : elem = .uint8
    · subst h
      exact putAt_bytes grow
    · intro m loc src hs
      have := putSliceAt_Refines grow elem h _ (putAt_Refines grow elem) m loc src hs
      rw [← putAt_slice_eq grow elem h m loc src] at this
      exact this
  | .map key elem => by
    intro m loc src hs
    have := putMapAt_Refines key elem _ (putAt_Refines grow elem) m loc src hs
    rw [← putAt_map_eq grow key elem m loc src] at this
    exact this
  | .struct fields => by
    intro m loc src hs
    have hs0 := hs
    rw [Memory.Separated_iff] at hs0
    obtain ⟨hvalid, hwf, hnd, hloc⟩ := hs0
    cases hc : m.load loc with
    | struct cs =>
      rw [hc] at hwf hnd hloc
      simp only [Memory.WellFormed] at hwf
      simp only [Memory.reach, MemValue.fieldValues] at hnd hloc
      cases src with
      | dict d =>
        obtain ⟨cs2, hl2, he, hv, hf, hvalid2, hwf2, hnd2, hsub2⟩ :=
          putStructFieldsAt_spec grow fields 0 m loc d [] cs hvalid hc rfl hwf hnd hloc _ rfl
        have heq : Decoder.putAt grow (.struct fields) m loc (.dict d) =
            Decoder.putStructFieldsAt grow fields 0 m loc d := by
          simp only [Decoder.putAt]
        rw [heq, put_struct_eq]
        show _ ∧ Memory.view _ _ (Memory.load _ loc) = _ ∧ Memory.Frame m _ loc _ ∧
          Memory.Separated _ _ loc = true ∧ ∀ x ∈ Memory.reach _ _ (Memory.load _ loc), _
        simp only [List.nil_append] at hl2
        rw [hl2]
        simp only [Memory.view, Memory.reach, MemValue.fieldValues, GoValue.fieldValues]
        refine ⟨he, by rw [hv], hf, ?_, hsub2⟩
        rw [Memory.Separated_iff, hl2]
        simp only [Memory.WellFormed, Memory.reach, MemValue.fieldValues]
        refine ⟨hvalid2, hwf2, hnd2, ?_⟩
        intro hmem
        rcases hsub2 _ hmem with h | h
        · exact hloc h
        · simp only [Memory.Valid, Bool.and_eq_true, decide_eq_true_eq] at hvalid
          exact h hvalid.1.1
      | int i =>
        have h1 : Decoder.put (.struct fields) (m.view (.struct fields) (.struct cs)) (.int i) =
            (some (.typeError (Value.int i).typeName (bytes "struct")),
              m.view (.struct fields) (.struct cs)) := by
          simp only [Decoder.put]
        have h2 : Decoder.putAt grow (.struct fields) m loc (.int i) =
            (some (.typeError (Value.int i).typeName (bytes "struct")), m) := by
          simp only [Decoder.putAt]
        rw [h1, h2]
        exact ⟨rfl, by rw [hc], hc ▸ Memory.Frame.refl _ _ _, hs, fun x hx => Or.inl (hc ▸ hx)⟩
      | string s =>
        have h1 : Decoder.put (.struct fields) (m.view (.struct fields) (.struct cs))
            (.string s) =
            (some (.typeError (Value.string s).typeName (bytes "struct")),
              m.view (.struct fields) (.struct cs)) := by
          simp only [Decoder.put]
        have h2 : Decoder.putAt grow (.struct fields) m loc (.string s) =
            (some (.typeError (Value.string s).typeName (bytes "struct")), m) := by
          simp only [Decoder.putAt]
        rw [h1, h2]
        exact ⟨rfl, by rw [hc], hc ▸ Memory.Frame.refl _ _ _, hs, fun x hx => Or.inl (hc ▸ hx)⟩
      | list l =>
        have h1 : Decoder.put (.struct fields) (m.view (.struct fields) (.struct cs)) (.list l) =
            (some (.typeError (Value.list l).typeName (bytes "struct")),
              m.view (.struct fields) (.struct cs)) := by
          simp only [Decoder.put]
        have h2 : Decoder.putAt grow (.struct fields) m loc (.list l) =
            (some (.typeError (Value.list l).typeName (bytes "struct")), m) := by
          simp only [Decoder.putAt]
        rw [h1, h2]
        exact ⟨rfl, by rw [hc], hc ▸ Memory.Frame.refl _ _ _, hs, fun x hx => Or.inl (hc ▸ hx)⟩
    | _ => rw [hc] at hwf; simp [Memory.WellFormed] at hwf
/-- The loop over the fields of `putStruct`, from field `i` on, on a struct whose fields from
`i` on share no storage. -/
theorem putStructFieldsAt_spec (grow : Nat → Nat → Nat) :
    (fs : List (StructFieldOf GoType)) → ∀ (i : Nat) (m : Memory) (loc : Loc) (dict : Dict)
      (cpre cs : List MemValue),
      m.Valid loc = true → m.load loc = .struct (cpre ++ cs) → cpre.length = i →
      m.WellFormedFields fs cs = true → (m.reachFields fs cs).Nodup →
      Addr.array loc.array ∉ m.reachFields fs cs →
      ∀ r, r = Decoder.putStructFieldsAt grow fs i m loc dict →
      ∃ cs2 : List MemValue,
        r.2.load loc = .struct (cpre ++ cs2) ∧
        r.1 = (Decoder.putStructFields fs (m.viewFields fs cs) dict).1 ∧
        r.2.viewFields fs cs2 = (Decoder.putStructFields fs (m.viewFields fs cs) dict).2 ∧
        m.Frame r.2 loc (m.reachFields fs cs) ∧
        r.2.Valid loc = true ∧ r.2.WellFormedFields fs cs2 = true ∧
        (r.2.reachFields fs cs2).Nodup ∧
        (∀ x ∈ r.2.reachFields fs cs2, x ∈ m.reachFields fs cs ∨ ¬ m.Has x)
  | [], i, m, loc, dict, cpre, cs, hvalid, hl, _, hwf, hnd, _, r, hr => by
    cases cs with
    | cons c cs => simp [Memory.WellFormedFields] at hwf
    | nil =>
      simp only [Decoder.putStructFieldsAt] at hr
      subst hr
      exact ⟨[], hl, by simp [Decoder.putStructFields, Memory.viewFields],
        by simp [Decoder.putStructFields, Memory.viewFields], Memory.Frame.refl _ _ _, hvalid,
        hwf, hnd, fun x hx => Or.inl hx⟩
  | ⟨tag, exported, ty⟩ :: fs, i, m, loc, dict, cpre, cs, hvalid, hl, hlen, hwf, hnd, hloc,
      r, hr => by
    cases cs with
    | nil => simp [Memory.WellFormedFields] at hwf
    | cons c cs =>
      simp only [Memory.WellFormedFields, Bool.and_eq_true] at hwf
      simp only [Memory.reachFields] at hnd hloc
      have hlocHas : m.Has (.array loc.array) := by
        simp only [Memory.Valid, Bool.and_eq_true, decide_eq_true_eq] at hvalid
        exact hvalid.1.1
      have hndc : (m.reach ty c).Nodup := (List.nodup_append.1 hnd).1
      have hnds : (m.reachFields fs cs).Nodup := (List.nodup_append.1 hnd).2.1
      have hlocc : Addr.array loc.array ∉ m.reach ty c :=
        fun h => hloc (List.mem_append.2 (Or.inl h))
      have hlocs : Addr.array loc.array ∉ m.reachFields fs cs :=
        fun h => hloc (List.mem_append.2 (Or.inr h))
      simp only [Decoder.putStructFieldsAt] at hr
      simp only [Memory.viewFields, Decoder.putStructFields, Memory.reachFields]
      by_cases hex : exported = false
      · rw [if_pos hex] at hr
        rw [if_pos hex]
        subst hr
        exact ⟨c :: cs, hl, rfl, rfl, Memory.Frame.refl _ _ _, hvalid,
          by simp [Memory.WellFormedFields, hwf], hnd, fun x hx => Or.inl hx⟩
      · rw [if_neg hex] at hr
        rw [if_neg hex]
        cases hg : dict.Get (tag.getD []) with
        | none =>
          simp only [hg] at hr ⊢
          obtain ⟨cs2, hl2, he2, hv2, hf2, hvalid2, hwf2, hnd2, hsub2⟩ :=
            putStructFieldsAt_spec grow fs (i + 1) m loc dict (cpre ++ [c]) cs hvalid
              (by simpa using hl) (by simp [hlen]) hwf.2 hnds hlocs r hr
          obtain ⟨hB1, hB2, hB3, hB4, hB5⟩ :=
            fields_after_rest ty fs m m r.2 loc c c cs cs2 hwf.2 hnd hloc hlocHas
              (Memory.Frame.refl _ _ _) hwf.1 hndc (fun x hx => Or.inl hx) hf2 hnd2 hsub2
          refine ⟨c :: cs2, by simpa using hl2, he2, ?_, hB4, hvalid2, ?_, hB3, hB5⟩
          · simp only [Memory.viewFields]
            rw [hB1, hv2]
          · simp only [Memory.WellFormedFields, Bool.and_eq_true]
            exact ⟨hB2, hwf2⟩
        | some value =>
          simp only [hg] at hr ⊢
          have hi : i < (cpre ++ c :: cs).length := by
            simp only [List.length_append, List.length_cons]
            omega
          obtain ⟨hvF, hlF⟩ := Memory.Valid_Field m loc _ i hvalid hl hi
          have hlF2 : m.load (loc.Field i) = c := by
            rw [hlF, ← hlen, List.getD_length_append]
          have hsepF : m.Separated ty (loc.Field i) = true := by
            rw [Memory.Separated_iff, hlF2]
            exact ⟨hvF, hwf.1, hndc, hlocc⟩
          have hRef := putAt_Refines grow ty m (loc.Field i) value hsepF
          rw [hlF2] at hRef
          rcases hP : Decoder.putAt grow ty m (loc.Field i) value with ⟨eP, m1⟩
          rw [hP] at hRef hr
          simp only at hRef
          obtain ⟨hE, hV, hF, hS, hSub⟩ := hRef
          obtain ⟨hl1, hf1, hvalid1⟩ := Memory.Frame_Field m m1 loc _ i _ hvalid hl hF
          have hset : (cpre ++ c :: cs).set i (m1.load (loc.Field i)) =
              cpre ++ m1.load (loc.Field i) :: cs := by
            rw [← hlen]
            exact List.set_length_append _ _ _ _
          rw [hset] at hl1
          rw [Memory.Separated_iff] at hS
          obtain ⟨_, hwf1, hnd1, _⟩ := hS
          obtain ⟨hA1, hA2, hA3⟩ := fields_rest_untouched ty fs m m1 loc c cs hwf.2 hnd hloc hf1
          rcases hT : Decoder.put ty (m.view ty c) value with ⟨eT, vT⟩
          rw [hT] at hE hV
          simp only at hE hV
          subst hE
          cases eP with
          | some err =>
            simp only at hr ⊢
            subst hr
            obtain ⟨hB1, hB2, hB3, hB4, hB5⟩ :=
              fields_after_rest ty fs m m1 m1 loc c _ cs cs hwf.2 hnd hloc hlocHas hf1 hwf1 hnd1
                hSub (Memory.Frame.refl _ _ _) (hA2 ▸ hnds) (fun x hx => Or.inl hx)
            refine ⟨m1.load (loc.Field i) :: cs, hl1, rfl, ?_, hB4, hvalid1, ?_, hB3, hB5⟩
            · simp only [Memory.viewFields]
              rw [hV, hA3]
            · simp only [Memory.WellFormedFields, Bool.and_eq_true]
              exact ⟨hwf1, hA1⟩
          | none =>
            simp only at hr ⊢
            obtain ⟨cs2, hl2, he2, hv2, hf2, hvalid2, hwf2, hnd2, hsub2⟩ :=
              putStructFieldsAt_spec grow fs (i + 1) m1 loc dict
                (cpre ++ [m1.load (loc.Field i)]) cs hvalid1 (by simpa using hl1)
                (by simp [hlen]) hA1 (hA2 ▸ hnds) (hA2 ▸ hlocs) r hr
            obtain ⟨hB1, hB2, hB3, hB4, hB5⟩ :=
              fields_after_rest ty fs m m1 r.2 loc c _ cs cs2 hwf.2 hnd hloc hlocHas hf1 hwf1
                hnd1 hSub hf2 hnd2 hsub2
            rw [hA3] at he2 hv2
            refine ⟨m1.load (loc.Field i) :: cs2, by simpa using hl2, he2, ?_, hB4, hvalid2, ?_,
              hB3, hB5⟩
            · simp only [Memory.viewFields]
              rw [hB1, hV, hv2]
            · simp only [Memory.WellFormedFields, Bool.and_eq_true]
              exact ⟨hB2, hwf2⟩
end


/-- The `putStruct` loop on the memory looks at the dict through the keys of the fields
only. -/
theorem putStructFieldsAt_congr (grow : Nat → Nat → Nat) :
    ∀ (fs : List (StructFieldOf GoType)) (i : Nat) (m : Memory) (loc : Loc) (d d2 : Dict),
      (∀ f ∈ fs, d2.Get (f.Tag.getD []) = d.Get (f.Tag.getD [])) →
      Decoder.putStructFieldsAt grow fs i m loc d2 = Decoder.putStructFieldsAt grow fs i m loc d
  | [], i, m, loc, d, d2, _ => by simp [Decoder.putStructFieldsAt]
  | ⟨tag, exported, ty⟩ :: fs, i, m, loc, d, d2, h => by
    have h0 := h ⟨tag, exported, ty⟩ (by simp)
    simp only at h0
    have ih : ∀ m1, Decoder.putStructFieldsAt grow fs (i + 1) m1 loc d2 =
        Decoder.putStructFieldsAt grow fs (i + 1) m1 loc d :=
      fun m1 => putStructFieldsAt_congr grow fs (i + 1) m1 loc d d2
        (fun f hf => h f (by simp [hf]))
    simp only [Decoder.putStructFieldsAt, h0, ih]

theorem Memory.viewFields_length (m : Memory) :
    ∀ (fs : List (StructFieldOf GoType)) (cs : List MemValue),
      m.WellFormedFields fs cs = true → (m.viewFields fs cs).length = fs.length
  | [], [], _ => by simp [Memory.viewFields]
  | [], _ :: _, h => by simp [Memory.WellFormedFields] at h
  | _ :: _, [], h => by simp [Memory.WellFormedFields] at h
  | ⟨_, _, ty⟩ :: fs, c :: cs, h => by
    simp only [Memory.WellFormedFields, Bool.and_eq_true] at h
    simp [Memory.viewFields, Memory.viewFields_length m fs cs h.2]

/-- A struct that shares no storage, as a value: it has the fields of its type. -/
theorem Memory.view_struct (m : Memory) (fields : List (StructFieldOf GoType)) (loc : Loc)
    (hs : m.Separated (.struct fields) loc = true) :
    ∃ old : List GoValue, m.view (.struct fields) (m.load loc) = .struct old ∧
      old.length = fields.length := by
  rw [Memory.Separated_iff] at hs
  obtain ⟨_, hwf, _, _⟩ := hs
  cases hc : m.load loc with
  | struct cs =>
    rw [hc] at hwf
    simp only [Memory.WellFormed] at hwf
    exact ⟨m.viewFields fields cs, by simp [Memory.view, MemValue.fieldValues],
      Memory.viewFields_length m fields cs hwf⟩
  | _ => rw [hc] at hwf; simp [Memory.WellFormed] at hwf

/-- An element of a slice that shares no storage shares no storage. -/
theorem Memory.Separated_Index (m : Memory) (elem : GoType) (loc : Loc) (a off n cap i : Nat)
    (hs : m.Separated (.slice elem) loc = true) (hl : m.load loc = .slice a off n cap)
    (hi : i < n) :
    m.Separated elem (m.Index loc i) = true ∧
      m.load (m.Index loc i) = (m.elems (.slice a off n cap)).getD i (.other 0) := by
  rw [Memory.Separated_iff, hl, Memory.WellFormed_slice] at hs
  obtain ⟨_, ⟨hnc, hcap, hwf⟩, hnd, _⟩ := hs
  have h0 : ¬ (n = 0 ∧ cap = 0) := by omega
  have hcap2 : a < m.arrays.length ∧ off + cap ≤ (m.array a).length := by
    rcases hcap with h | h
    · omega
    · exact h
  rw [Memory.reach_slice m elem a off n cap h0] at hnd
  have hlen := Memory.elems_length m a off n cap hnc hcap
  have hidx : m.Index loc i = { array := a, index := off + i, path := [] } := by
    simp [Memory.Index, hl]
  have hload : m.load (m.Index loc i) = (m.elems (.slice a off n cap)).getD i (.other 0) := by
    rw [hidx, Memory.elems_getD m a off n cap i hi]
    rfl
  have hemem : (m.elems (.slice a off n cap)).getD i (.other 0) ∈ m.elems (.slice a off n cap) := by
    rw [List.getD_eq_getElem?_getD, List.getElem?_eq_getElem (by omega), Option.getD_some]
    exact List.getElem_mem _
  refine ⟨?_, hload⟩
  rw [Memory.Separated_iff, hload]
  refine ⟨?_, hwf _ hemem, (List.nodup_flatMap.1 (List.nodup_cons.1 hnd).2).1 _ hemem, ?_⟩
  · rw [hidx]
    simp only [Memory.Valid, MemValue.HasPath, Bool.and_true, Bool.and_eq_true,
      decide_eq_true_eq]
    exact ⟨hcap2.1, by omega⟩
  · rw [hidx]
    intro hmem
    exact (List.nodup_cons.1 hnd).1 (List.mem_flatMap.2 ⟨_, hemem, hmem⟩)

theorem Memory.reachFields_getElem (m : Memory) :
    ∀ (fs : List (StructFieldOf GoType)) (cs : List MemValue) (i : Nat)
      (f : StructFieldOf GoType) (c : MemValue),
      fs[i]? = some f → cs[i]? = some c →
      m.WellFormedFields fs cs = true → (m.reachFields fs cs).Nodup →
      m.WellFormed f.Typ c = true ∧ (m.reach f.Typ c).Nodup ∧
        (∀ x ∈ m.reach f.Typ c, x ∈ m.reachFields fs cs) ∧
        m.viewFields fs cs = (m.viewFields fs cs).set i (m.view f.Typ c)
  | [], _, i, f, c, hf, _, _, _ => by simp at hf
  | _ :: _, [], i, f, c, _, hc, _, _ => by simp at hc
  | ⟨tag, ex, ty⟩ :: fs, c0 :: cs, 0, f, c, hf, hc, hwf, hnd => by
    simp only [List.getElem?_cons_zero, Option.some.injEq] at hf hc
    subst hf; subst hc
    simp only [Memory.WellFormedFields, Bool.and_eq_true] at hwf
    simp only [Memory.reachFields] at hnd ⊢
    exact ⟨hwf.1, (List.nodup_append.1 hnd).1, fun x hx => List.mem_append.2 (Or.inl hx),
      by simp [Memory.viewFields]⟩
  | ⟨tag, ex, ty⟩ :: fs, c0 :: cs, i + 1, f, c, hf, hc, hwf, hnd => by
    simp only [List.getElem?_cons_succ] at hf hc
    simp only [Memory.WellFormedFields, Bool.and_eq_true] at hwf
    simp only [Memory.reachFields] at hnd ⊢
    obtain ⟨h1, h2, h3, h4⟩ := Memory.reachFields_getElem m fs cs i f c hf hc hwf.2
      (List.nodup_append.1 hnd).2.1
    refine ⟨h1, h2, fun x hx => List.mem_append.2 (Or.inr (h3 x hx)), ?_⟩
    simp only [Memory.viewFields, List.set_cons_succ]
    rw [← h4]

/-- A field of a struct that shares no storage shares no storage. -/
theorem Memory.Separated_Field (m : Memory) (fields : List (StructFieldOf GoType)) (loc : Loc)
    (i : Nat) (f : StructFieldOf GoType)
    (hs : m.Separated (.struct fields) loc = true) (hf : fields[i]? = some f) :
    m.Separated f.Typ (loc.Field i) = true ∧
      (m.view (.struct fields) (m.load loc)).fieldValues[i]? =
        some (m.view f.Typ (m.load (loc.Field i))) := by
  rw [Memory.Separated_iff] at hs
  obtain ⟨hvalid, hwf, hnd, hloc⟩ := hs
  cases hc : m.load loc with
  | struct cs =>
    rw [hc] at hwf hnd hloc
    simp only [Memory.WellFormed] at hwf
    simp only [Memory.reach, MemValue.fieldValues] at hnd hloc
    have hlen := Memory.viewFields_length m fields cs hwf
    have hi : i < fields.length := by
      rcases Nat.lt_or_ge i fields.length with h | h
      · exact h
      · rw [List.getElem?_eq_none h] at hf; cases hf
    have hlen2 : cs.length = fields.length := by
      clear hlen hnd hloc hc hf hi
      induction fields generalizing cs with
      | nil => cases cs with
        | nil => rfl
        | cons c cs => simp [Memory.WellFormedFields] at hwf
      | cons f0 fs ih => cases cs with
        | nil => simp [Memory.WellFormedFields] at hwf
        | cons c cs =>
          obtain ⟨t, e, ty⟩ := f0
          simp only [Memory.WellFormedFields, Bool.and_eq_true] at hwf
          simp [ih cs hwf.2]
    have hics : i < cs.length := by omega
    obtain ⟨hvF, hlF⟩ := Memory.Valid_Field m loc cs i hvalid hc hics
    have hcs : cs[i]? = some (cs.getD i (.other 0)) := by
      rw [List.getD_eq_getElem?_getD, List.getElem?_eq_getElem hics, Option.getD_some]
    obtain ⟨h1, h2, h3, h4⟩ := Memory.reachFields_getElem m fields cs i f _ hf hcs hwf hnd
    refine ⟨?_, ?_⟩
    · rw [Memory.Separated_iff, hlF]
      exact ⟨hvF, h1, h2, fun hmem => hloc (h3 _ hmem)⟩
    · simp only [Memory.view, MemValue.fieldValues, GoValue.fieldValues]
      rw [h4, hlF, List.getElem?_set]
      simp [hlen, hi]
  | _ => rw [hc] at hwf; simp [Memory.WellFormed] at hwf


/-! ## The claims -/

/-- C1. Round trip: for every tree `t` that exists as a Go value (64-bit integers, strings the
runtime can hold, every `Dict` as `NewDict`/`Set` build it), `Parse` on the bytes `t.Bencode()`
succeeds, returns `t` itself and has read all the bytes. -/
theorem Parse_Bencode (maxAlloc : Nat) (t : Value) (h : t.Valid maxAlloc = true) :
    (NewParser t.Bencode).Parse maxAlloc =
      .ok t { reader := [], offset := (t.Bencode.length : Int) } := by
  have := parseValue_Bencode maxAlloc t h (3 * t.Bencode.length + 1) [] 0 (le_refl _)
  simpa [NewParser, Parser.Parse] using this

/-- Witness of C1 on a list that holds a string, a negative integer and a dict built with a
repeated key. -/
theorem Parse_Bencode_witness :
    (Value.list [.string (bytes "spam"), .int (-42),
        .dict (NewDict [⟨bytes "a", .int 1⟩, ⟨bytes "b", .list []⟩, ⟨bytes "a", .int 3⟩])]).Valid
        (2 ^ 48) = true ∧
    (NewParser (Value.list [.string (bytes "spam"), .int (-42),
        .dict (NewDict [⟨bytes "a", .int 1⟩, ⟨bytes "b", .list []⟩,
          ⟨bytes "a", .int 3⟩])]).Bencode).Parse (2 ^ 48) =
      .ok (Value.list [.string (bytes "spam"), .int (-42),
        .dict (NewDict [⟨bytes "a", .int 1⟩, ⟨bytes "b", .list []⟩, ⟨bytes "a", .int 3⟩])])
        { reader := [],
          offset := ((Value.list [.string (bytes "spam"), .int (-42),
            .dict (NewDict [⟨bytes "a", .int 1⟩, ⟨bytes "b", .list []⟩,
              ⟨bytes "a", .int 3⟩])]).Bencode.length : Int) } :=
  ⟨by decide, Parse_Bencode (2 ^ 48) _ (by decide)⟩

/-- C2, counterexample. The input `i042e` has no dict and no `-0`; `Parse` succeeds on it and
reads all of it, and the tree it returns encodes to `i42e`. -/
theorem reencode_counterexample :
    (NewParser (bytes "i042e")).Parse (2 ^ 48) =
        .ok (.int 42) { reader := [], offset := 5 } ∧
      (Value.int 42).Bencode ≠ bytes "i042e" := by
  decide

/-- C2, amended. For every byte sequence `b` in canonical form (the grammar of the wire format
with integer and length texts free of `+`, of superfluous leading zeros and of `-0`, every dict
key followed by a value, no dict key twice), `Parse` succeeds, reads all of `b`, and the tree
it returns encodes to `b` byte for byte. -/
theorem Parse_Canonical (maxAlloc : Nat) (b : List Nat) (h : Canonical maxAlloc b) :
    ∃ t : Value, (NewParser b).Parse maxAlloc =
        .ok t { reader := [], offset := (b.length : Int) } ∧ t.Bencode = b := by
  obtain ⟨t, ht, hb⟩ := Canonical.exists_tree maxAlloc b h
  refine ⟨t, ?_, hb⟩
  have := parseValue_Bencode maxAlloc t ht (3 * t.Bencode.length + 1) [] 0 (le_refl _)
  rw [hb] at this
  simpa [NewParser, Parser.Parse] using this

/-- Witness of C2 (amended) on the canonical input `l4:spami-42ee`. -/
theorem Parse_Canonical_witness :
    Canonical (2 ^ 48) (108 :: ([bytes "4:spam", bytes "i-42e"].flatten ++ [101])) ∧
    ∃ t : Value, (NewParser (108 :: ([bytes "4:spam", bytes "i-42e"].flatten ++ [101]))).Parse
        (2 ^ 48) =
        .ok t { reader := [],
                offset := ((108 :: ([bytes "4:spam", bytes "i-42e"].flatten ++ [101])).length :
                  Int) } ∧
      t.Bencode = 108 :: ([bytes "4:spam", bytes "i-42e"].flatten ++ [101]) := by
  have hs : Canonical (2 ^ 48) (bytes "4:spam") :=
    Canonical.string _ (bytes "spam")
      ⟨bytes "4", by decide, ⟨⟨by decide, by decide⟩, by decide⟩, by decide, by decide,
        by decide⟩
  have hi : Canonical (2 ^ 48) (bytes "i-42e") :=
    Canonical.int (bytes "-42") (-42)
      ⟨by decide, by decide,
        Or.inr ⟨bytes "42", by decide, ⟨⟨by decide, by decide⟩, by decide⟩, by decide,
          by decide⟩⟩
  have hl : Canonical (2 ^ 48) (108 :: ([bytes "4:spam", bytes "i-42e"].flatten ++ [101])) :=
    Canonical.list _ (by
      intro b hb
      simp only [List.mem_cons, List.mem_singleton, List.not_mem_nil, or_false] at hb
      rcases hb with rfl | rfl
      · exact hs
      · exact hi)
  exact ⟨hl, Parse_Canonical (2 ^ 48) _ hl⟩

/-- C3. `Dict.Set` on a consistent `Dict` (as every `Dict` built by `NewDict`, `Set` and `Parse`
is): the key sequence afterwards is the old one without `k`, the other keys in their order,
followed by `k`; `k` maps to `v`; and the encoding emits the pairs of the other keys as
before, then the pair of `k`. -/
theorem Dict_Set_order (d : Dict) (k : List Nat) (v : Value) (h : d.Consistent) :
    (d.Set k v).keys = d.keys.filter (fun x => decide (x ≠ k)) ++ [k] ∧
    (d.Set k v).Get k = some v ∧
    (d.Set k v).Bencode =
      100 :: (Dict.bencodeItems (d.keys.filter (fun x => decide (x ≠ k))) (Dict.bencodeMap d.m) ++
        (String.Bencode k ++ v.Bencode) ++ [101]) :=
  ⟨Dict.Set_keys d k v h, by simp [Dict.Get, Dict.Set, GoMap.get_set_self],
    Dict.Set_Bencode d k v h⟩

/-- Witness of C3: `Set` of the first key of a two-key `Dict`. -/
theorem Dict_Set_order_witness :
    (NewDict [⟨bytes "a", .int 1⟩, ⟨bytes "b", .int 2⟩]).Consistent ∧
    ((NewDict [⟨bytes "a", .int 1⟩, ⟨bytes "b", .int 2⟩]).Set (bytes "a") (.int 3)).keys =
      (NewDict [⟨bytes "a", .int 1⟩, ⟨bytes "b", .int 2⟩]).keys.filter
        (fun x => decide (x ≠ bytes "a")) ++ [bytes "a"] ∧
    ((NewDict [⟨bytes "a", .int 1⟩, ⟨bytes "b", .int 2⟩]).Set (bytes "a") (.int 3)).Get
      (bytes "a") = some (.int 3) ∧
    ((NewDict [⟨bytes "a", .int 1⟩, ⟨bytes "b", .int 2⟩]).Set (bytes "a") (.int 3)).Bencode =
      100 :: (Dict.bencodeItems
        ((NewDict [⟨bytes "a", .int 1⟩, ⟨bytes "b", .int 2⟩]).keys.filter
          (fun x => decide (x ≠ bytes "a")))
        (Dict.bencodeMap (NewDict [⟨bytes "a", .int 1⟩, ⟨bytes "b", .int 2⟩]).m) ++
        (String.Bencode (bytes "a") ++ (Value.int 3).Bencode) ++ [101]) :=
  ⟨NewDict_Consistent _, Dict_Set_order _ _ _ (NewDict_Consistent _)⟩

/-- C4. The consistency of a `Dict` (no key twice in the key sequence; a key is in the
sequence exactly when the mapping binds it) is preserved by `Set`, holds for every `Dict`
obtained from `NewDict(items...)` by any sequence of `Set` calls, and holds for every `Dict`,
at any depth, of what `Parse` returns, on every input (and `Parse` does return: its call
budget is never used up). -/
theorem Dict_Consistent_invariant :
    (∀ (d : Dict) (k : List Nat) (v : Value), d.Consistent → (d.Set k v).Consistent) ∧
    (∀ items sets : List DictItem,
      (sets.foldl (fun d it => Dict.Set d it.Key it.Value) (NewDict items)).Consistent) ∧
    (∀ (maxAlloc : Nat) (p : Parser),
      p.Parse maxAlloc ≠ .outOfFuel ∧ (p.Parse maxAlloc).DictsConsistent) :=
  ⟨Dict.Set_Consistent,
    fun items sets => foldl_Set_Consistent sets _ (NewDict_Consistent items),
    fun maxAlloc p =>
      ⟨Parser.parseValue_fuel maxAlloc p, (parse_DictsConsistent maxAlloc _).1 p⟩⟩

/-- Witness of C4: a `Set` on a built `Dict`, and the dicts of a parsed input with a repeated
key. -/
theorem Dict_Consistent_invariant_witness :
    (NewDict [⟨bytes "a", .int 1⟩]).Consistent ∧
    ((NewDict [⟨bytes "a", .int 1⟩]).Set (bytes "a") (.int 2)).Consistent ∧
    ((NewParser (bytes "d1:ai1e1:bde1:ai2ee")).Parse (2 ^ 48) ≠ .outOfFuel ∧
      ((NewParser (bytes "d1:ai1e1:bde1:ai2ee")).Parse (2 ^ 48)).DictsConsistent) :=
  ⟨NewDict_Consistent _,
    Dict_Consistent_invariant.1 _ _ _ (NewDict_Consistent _),
    Dict_Consistent_invariant.2.2 _ _⟩


/-- C5, counterexample. The declared length `9223372036854775808` (2^63) with an empty
payload: the error is about the length text, not "string length is wrong". -/
theorem declared_length_counterexample :
    (NewParser (bytes "9223372036854775808:")).Parse (2 ^ 48) =
        .fail (some (.string []))
          (.ErrSyntax
            { msg := bytes "cannot parse string length '9223372036854775808' as integer",
              pos := 0 })
          { reader := [], offset := 0 } ∧
      bytes "cannot parse string length '9223372036854775808' as integer" ≠
        bytes "string length is wrong" := by
  decide

/-- C5, amended. For every input that starts with a decimal length text `ds` denoting `L`,
then `:`, then a payload `p`, where `L` fits a signed 64-bit integer and is a length `make`
provides: `Parse` returns the string of the first `L` bytes of `p`, whatever they are, when
`p` has at least `L` bytes, and fails with the syntax error "string length is wrong" when `p`
has fewer. -/
theorem Parse_declared_length (maxAlloc : Nat) (ds p : List Nat) (hds : IsDecimal ds)
    (h63 : decimalValue ds < 2 ^ 63) (hmax : decimalValue ds ≤ maxAlloc) :
    (decimalValue ds ≤ p.length →
      (NewParser (ds ++ 58 :: p)).Parse maxAlloc =
        .ok (.string (p.take (decimalValue ds)))
          { reader := p.drop (decimalValue ds),
            offset := (ds.length : Int) + 1 + (decimalValue ds : Int) }) ∧
    (p.length < decimalValue ds →
      (NewParser (ds ++ 58 :: p)).Parse maxAlloc =
        .fail (some (.string []))
          (.ErrSyntax { msg := bytes "string length is wrong", pos := (ds.length : Int) + 1 })
          { reader := [], offset := (ds.length : Int) + 1 }) := by
  obtain ⟨hne, hdig⟩ := hds
  have hnot : 58 ∉ ds := by
    intro h
    have := hdig 58 h
    omega
  have hparse : strconv.ParseInt ds = some (decimalValue ds : Int) := by
    rw [ParseInt_eq_some_iff]
    exact ⟨[], ds, rfl, Or.inl rfl, ⟨hne, hdig⟩, by simp, by omega, by omega⟩
  have hno : ¬ (((decimalValue ds : Nat) : Int) < 0 ∨
      (maxAlloc : Int) < ((decimalValue ds : Nat) : Int)) := by omega
  cases ds with
  | nil => exact absurd rfl hne
  | cons a as =>
    have ha := hdig a (by simp)
    have key := parseString_eq maxAlloc (a :: as) p 0 hnot
    rw [hparse] at key
    simp only [hno, if_false, Int.toNat_ofNat] at key
    simp only [NewParser, Parser.Parse, List.cons_append]
    rw [parseValue_digit _ _ _ _ _ ha]
    simp only [List.cons_append] at key
    rw [key]
    constructor
    · intro hle
      have : ¬ p.length < decimalValue (a :: as) := by omega
      simp only [this, if_false]
      simp
    · intro hlt
      simp only [hlt, if_true]
      simp

/-- Witness of C5 (amended): the payload holds delimiter bytes; with the length text `5` it
is long enough, with `9` it is too short. -/
theorem Parse_declared_length_witness :
    (IsDecimal (bytes "5") ∧ decimalValue (bytes "5") < 2 ^ 63 ∧
      decimalValue (bytes "5") ≤ 2 ^ 48) ∧
    ((decimalValue (bytes "5") ≤ (bytes "e:i1dl").length →
      (NewParser (bytes "5" ++ 58 :: bytes "e:i1dl")).Parse (2 ^ 48) =
        .ok (.string ((bytes "e:i1dl").take (decimalValue (bytes "5"))))
          { reader := (bytes "e:i1dl").drop (decimalValue (bytes "5")),
            offset := ((bytes "5").length : Int) + 1 + (decimalValue (bytes "5") : Int) }) ∧
    ((bytes "e:i1dl").length < decimalValue (bytes "5") →
      (NewParser (bytes "5" ++ 58 :: bytes "e:i1dl")).Parse (2 ^ 48) =
        .fail (some (.string []))
          (.ErrSyntax { msg := bytes "string length is wrong",
                        pos := ((bytes "5").length : Int) + 1 })
          { reader := [], offset := ((bytes "5").length : Int) + 1 })) :=
  ⟨⟨⟨by decide, by decide⟩, by decide, by decide⟩,
    Parse_declared_length (2 ^ 48) (bytes "5") (bytes "e:i1dl") ⟨by decide, by decide⟩
      (by decide) (by decide)⟩

/-- C6, counterexample. The text `+42` is not of the form `['-'] digit+`, and `Parse` returns
`Int(42)` on `i+42e`. -/
theorem int_grammar_counterexample :
    (NewParser (bytes "i+42e")).Parse (2 ^ 48) =
        .ok (.int 42) { reader := [], offset := 5 } ∧
      ¬ IsIntText (bytes "+42") := by
  refine ⟨by decide, ?_⟩
  rintro (⟨_, h⟩ | ⟨ds, h, _⟩)
  · have := h 43 (by decide)
    omega
  · have := congrArg List.head? h
    simp [bytes] at this

/-- C6, amended. For every text `s` without `e`, `Parse` of `i` ++ `s` ++ `e` returns `Int(n)`
exactly when `s` is an optional sign `+` or `-` followed by decimal digits and denotes `n`
within the signed 64-bit range; for every other `s` it fails with the syntax error whose
message names `s`. -/
theorem Parse_int_grammar (maxAlloc : Nat) (s : List Nat) (h : 101 ∉ s) :
    (∀ (n : Int) (p : Parser),
      (NewParser (105 :: (s ++ [101]))).Parse maxAlloc = .ok (.int n) p ↔
        (SignedDecimal s n ∧ p = { reader := [], offset := (s.length : Int) + 2 })) ∧
    ((∀ n, ¬ SignedDecimal s n) →
      (NewParser (105 :: (s ++ [101]))).Parse maxAlloc =
        .fail (some (.int 0))
          (.ErrSyntax { msg := bytes "cannot parse '" ++ s ++ bytes "' as integer",
                        pos := (s.length : Int) + 2 })
          { reader := [], offset := (s.length : Int) + 2 }) := by
  have key := parseInt_eq s [] 0 h
  have hP : (NewParser (105 :: (s ++ [101]))).Parse maxAlloc =
      Parser.parseInt { reader := 105 :: (s ++ [101]), offset := 0 } := by
    simp only [NewParser, Parser.Parse]
    rw [parseValue_int]
  rw [hP, key]
  constructor
  · intro n p
    cases hp : strconv.ParseInt s with
    | none =>
      have : ¬ SignedDecimal s n := by
        rw [← ParseInt_eq_some_iff, hp]; simp
      simp [this]
    | some i =>
      simp only [Outcome.ok.injEq, Value.int.injEq]
      constructor
      · rintro ⟨rfl, rfl⟩
        refine ⟨(ParseInt_eq_some_iff s i).1 hp, ?_⟩
        simp
        omega
      · rintro ⟨hs, rfl⟩
        have := (ParseInt_eq_some_iff s n).2 hs
        rw [hp] at this
        simp only [Option.some.injEq] at this
        refine ⟨this, ?_⟩
        simp
        omega
  · intro hno
    cases hp : strconv.ParseInt s with
    | none =>
      simp
      omega
    | some i => exact absurd ((ParseInt_eq_some_iff s i).1 hp) (hno i)

/-- Witness of C6 (amended) on the text `-7`. -/
theorem Parse_int_grammar_witness :
    101 ∉ bytes "-7" ∧
    ((∀ (n : Int) (p : Parser),
      (NewParser (105 :: (bytes "-7" ++ [101]))).Parse (2 ^ 48) = .ok (.int n) p ↔
        (SignedDecimal (bytes "-7") n ∧
          p = { reader := [], offset := ((bytes "-7").length : Int) + 2 })) ∧
    ((∀ n, ¬ SignedDecimal (bytes "-7") n) →
      (NewParser (105 :: (bytes "-7" ++ [101]))).Parse (2 ^ 48) =
        .fail (some (.int 0))
          (.ErrSyntax { msg := bytes "cannot parse '" ++ bytes "-7" ++ bytes "' as integer",
                        pos := ((bytes "-7").length : Int) + 2 })
          { reader := [], offset := ((bytes "-7").length : Int) + 2 })) :=
  ⟨by decide, Parse_int_grammar (2 ^ 48) (bytes "-7") (by decide)⟩

/-- C7, the code at the failing inputs. On `e` and on `d1:ae` (a dict key followed directly by
`e`) `Parse` returns the internal `errValueEnd`. -/
theorem Parse_returns_errValueEnd :
    (NewParser (bytes "e")).Parse (2 ^ 48) =
        .fail none .errValueEnd { reader := [], offset := 1 } ∧
    (NewParser (bytes "d1:ae")).Parse (2 ^ 48) =
        .fail (some (.dict (NewDict []))) .errValueEnd { reader := [], offset := 5 } := by
  decide

/-- C8, the code at the failing inputs. On the empty input, an unterminated list, an
unterminated dict and a dict key without a value, `Parse` returns `io.EOF` as it comes from
`Peek`, not an `ErrSyntax`. -/
theorem Parse_returns_EOF :
    (NewParser []).Parse (2 ^ 48) = .fail none .EOF { reader := [], offset := 0 } ∧
    (NewParser (bytes "l4:spam")).Parse (2 ^ 48) =
        .fail (some (.list [.string (bytes "spam")])) .EOF { reader := [], offset := 7 } ∧
    (NewParser (bytes "d4:spam4:eggs")).Parse (2 ^ 48) =
        .fail (some (.dict (NewDict [⟨bytes "spam", .string (bytes "eggs")⟩]))) .EOF
          { reader := [], offset := 13 } ∧
    (NewParser (bytes "d4:spam")).Parse (2 ^ 48) =
        .fail (some (.dict (NewDict []))) .EOF { reader := [], offset := 7 } := by
  decide


/-- C9. Dict parsing applies `Set` in encounter order: for every sequence of items (string
keys, duplicates allowed, and trees, all of them Go values), `Parse` of `d`, the encoded keys
and values in turn, and `e` returns the `Dict` that `Set` builds from the empty `Dict` item by
item, which is `NewDict(items...)`; so each key stands at the position of its last occurrence
and maps to the value of its last occurrence. -/
theorem Parse_dict_Set_order (maxAlloc : Nat) (items : List DictItem)
    (h : Value.ValidMap maxAlloc (items.map (fun it => (it.Key, it.Value))) = true) :
    (NewParser (100 :: (bencodePairs (items.map (fun it => (it.Key, it.Value))) ++
        [101]))).Parse maxAlloc =
      .ok (.dict (items.foldl (fun d it => Dict.Set d it.Key it.Value) (NewDict [])))
        { reader := [],
          offset := ((bencodePairs (items.map (fun it => (it.Key, it.Value)))).length : Int)
            + 2 } ∧
    items.foldl (fun d it => Dict.Set d it.Key it.Value) (NewDict []) = NewDict items ∧
    (NewDict items).keys = (items.map (fun it => it.Key)).dedup ∧
    ∀ k, (NewDict items).Get k =
      (items.reverse.find? (fun it => decide (it.Key = k))).map (fun it => it.Value) := by
  refine ⟨?_, by simp [NewDict], NewDict_keys items, NewDict_Get items⟩
  simp only [NewParser, Parser.Parse]
  generalize hF : 3 * (100 :: (bencodePairs (items.map (fun it => (it.Key, it.Value))) ++
    [101])).length + 1 = F
  simp only [List.length_cons, List.length_append, List.length_singleton, List.length_nil]
    at hF
  obtain ⟨f, rfl⟩ : ∃ f, F = f + 2 := ⟨F - 2, by omega⟩
  rw [parseValue_dict, parseDictLoop_Bencode maxAlloc _ h f (NewDict []) [] _ (by omega),
    List.foldl_map]
  simp
  omega

/-- Witness of C9 on three items, the first key repeated by the third. -/
theorem Parse_dict_Set_order_witness :
    Value.ValidMap (2 ^ 48)
      (([⟨bytes "a", .int 1⟩, ⟨bytes "b", .int 2⟩, ⟨bytes "a", .int 3⟩] : List DictItem).map
        (fun it => (it.Key, it.Value))) = true ∧
    ((NewParser (100 :: (bencodePairs
        (([⟨bytes "a", .int 1⟩, ⟨bytes "b", .int 2⟩, ⟨bytes "a", .int 3⟩] : List DictItem).map
          (fun it => (it.Key, it.Value))) ++ [101]))).Parse (2 ^ 48) =
      .ok (.dict (([⟨bytes "a", .int 1⟩, ⟨bytes "b", .int 2⟩,
          ⟨bytes "a", .int 3⟩] : List DictItem).foldl
          (fun d it => Dict.Set d it.Key it.Value) (NewDict [])))
        { reader := [],
          offset := ((bencodePairs
            (([⟨bytes "a", .int 1⟩, ⟨bytes "b", .int 2⟩,
              ⟨bytes "a", .int 3⟩] : List DictItem).map
              (fun it => (it.Key, it.Value)))).length : Int) + 2 } ∧
    ([⟨bytes "a", .int 1⟩, ⟨bytes "b", .int 2⟩, ⟨bytes "a", .int 3⟩] : List DictItem).foldl
        (fun d it => Dict.Set d it.Key it.Value) (NewDict []) =
      NewDict [⟨bytes "a", .int 1⟩, ⟨bytes "b", .int 2⟩, ⟨bytes "a", .int 3⟩] ∧
    (NewDict [⟨bytes "a", .int 1⟩, ⟨bytes "b", .int 2⟩, ⟨bytes "a", .int 3⟩]).keys =
      (([⟨bytes "a", .int 1⟩, ⟨bytes "b", .int 2⟩, ⟨bytes "a", .int 3⟩] : List DictItem).map
        (fun it => it.Key)).dedup ∧
    ∀ k, (NewDict [⟨bytes "a", .int 1⟩, ⟨bytes "b", .int 2⟩, ⟨bytes "a", .int 3⟩]).Get k =
      ((([⟨bytes "a", .int 1⟩, ⟨bytes "b", .int 2⟩,
        ⟨bytes "a", .int 3⟩] : List DictItem).reverse.find?
        (fun it => decide (it.Key = k))).map (fun it => it.Value))) :=
  ⟨by decide, Parse_dict_Set_order (2 ^ 48) _ (by decide)⟩

/-- C10. Canonical integer text: for every integer `n` (so for every signed 64-bit `n`),
`Int(n).Bencode()` is `i`, a text `d`, `e`, where `d` is a `-` exactly when `n < 0` followed
by a non-empty text of decimal digits whose value is the magnitude of `n` and which has no
leading zero unless it is `0` itself; for `n = 0` the text `d` is `0`. -/
theorem Int_Bencode_canonical (n : Int) :
    ∃ ds : List Nat, IsCanonicalDecimal ds ∧ decimalValue ds = n.natAbs ∧
      Int.Bencode n = 105 :: ((if n < 0 then 45 :: ds else ds) ++ [101]) ∧
      ((if n < 0 then 45 :: ds else ds).head? = some 45 ↔ n < 0) ∧
      (n = 0 → (if n < 0 then 45 :: ds else ds) = [48]) := by
  refine ⟨strconv.FormatUint n.natAbs, FormatUint_IsCanonicalDecimal _,
    decimalValue_FormatUint _, ?_, ?_, ?_⟩
  · rw [Int_Bencode_eq]
    by_cases hn : n < 0
    · simp [strconv.FormatInt, hn]
    · have : n.toNat = n.natAbs := by omega
      simp [strconv.FormatInt, hn, this]
  · by_cases hn : n < 0
    · simp [hn]
    · simp only [hn, if_false, iff_false]
      intro h
      have hmem : 45 ∈ strconv.FormatUint n.natAbs := List.mem_of_mem_head? h
      have := (FormatUint_IsCanonicalDecimal n.natAbs).1.2 45 hmem
      omega
  · intro h0
    subst h0
    decide


/-- C11. `Dict.Get` after `Set`: after `d.Set(k, v)`, `Get(k)` returns `v` and `Get` of any
other key returns what it returned before; `Get` on the empty `NewDict()` returns nil, and so
does `Get` of a key that none of the items of `NewDict(items...)` has. -/
theorem Dict_Get_after_Set (d : Dict) (k k2 : List Nat) (v : Value) (h : k2 ≠ k) :
    (d.Set k v).Get k = some v ∧ (d.Set k v).Get k2 = d.Get k2 ∧
    (NewDict []).Get k = none ∧
    ∀ items : List DictItem, (∀ it ∈ items, it.Key ≠ k) → (NewDict items).Get k = none := by
  refine ⟨by simp [Dict.Get, Dict.Set, GoMap.get_set_self],
    by simp [Dict.Get, Dict.Set, GoMap.get_set_other _ _ _ _ h],
    by simp [NewDict, Dict.Get, GoMap.get], ?_⟩
  intro items hitems
  rw [NewDict_Get]
  have : items.reverse.find? (fun it => decide (it.Key = k)) = none := by
    rw [List.find?_eq_none]
    intro it hit
    simpa using hitems it (by simpa using hit)
  rw [this]
  rfl

/-- Witness of C11 on a `Dict` with the keys `a` and `b`. -/
theorem Dict_Get_after_Set_witness :
    bytes "b" ≠ bytes "a" ∧
    ((NewDict [⟨bytes "a", .int 1⟩, ⟨bytes "b", .int 2⟩]).Set (bytes "a") (.int 3)).Get
        (bytes "a") = some (.int 3) ∧
    ((NewDict [⟨bytes "a", .int 1⟩, ⟨bytes "b", .int 2⟩]).Set (bytes "a") (.int 3)).Get
        (bytes "b") = (NewDict [⟨bytes "a", .int 1⟩, ⟨bytes "b", .int 2⟩]).Get (bytes "b") ∧
    (NewDict []).Get (bytes "a") = none ∧
    ∀ items : List DictItem, (∀ it ∈ items, it.Key ≠ bytes "a") →
      (NewDict items).Get (bytes "a") = none :=
  ⟨by decide, Dict_Get_after_Set _ (bytes "a") (bytes "b") (.int 3) (by decide)⟩

/-- C12. Invalid destination: whatever the data and the state of the decoder, `Decode` and
`Unmarshal` with a destination that is the nil interface, a value that is not a pointer, or a
nil pointer return an `ErrInvalidArgument` (with the type of the destination) and leave the
destination alone. -/
theorem Decode_invalid_destination (maxAlloc : Nat) (data : List Nat) (d : Decoder) :
    (d.Decode maxAlloc .nil = .ret (some (.ErrInvalidArgument none)) .nil ∧
      Unmarshal maxAlloc data .nil = .ret (some (.ErrInvalidArgument none)) .nil) ∧
    (∀ ty v, d.Decode maxAlloc (.value ty v) =
        .ret (some (.ErrInvalidArgument (some ty))) (.value ty v) ∧
      Unmarshal maxAlloc data (.value ty v) =
        .ret (some (.ErrInvalidArgument (some ty))) (.value ty v)) ∧
    (∀ ty, d.Decode maxAlloc (.nilPtr ty) =
        .ret (some (.ErrInvalidArgument (some (.ptr ty)))) (.nilPtr ty) ∧
      Unmarshal maxAlloc data (.nilPtr ty) =
        .ret (some (.ErrInvalidArgument (some (.ptr ty)))) (.nilPtr ty)) := by
  refine ⟨⟨rfl, rfl⟩, fun ty v => ⟨rfl, rfl⟩, fun ty => ⟨rfl, rfl⟩⟩

/-- C13. Scalar destinations: `put` of a tree `v` into an `int64` destination returns no
error exactly when `v` is `Int(n)`, and then the destination holds `n`; into a `string`
destination exactly when `v` is `String(s)`, and then the destination holds the bytes of `s`;
in every other case the type error is returned and the destination is as before. -/
theorem put_scalar (dst : GoValue) (v : Value) :
    (((Decoder.put .int64 dst v).1 = none ↔ ∃ n, v = .int n) ∧
      (∀ n, v = .int n → Decoder.put .int64 dst v = (none, .int64 n)) ∧
      ((∀ n, v ≠ .int n) →
        Decoder.put .int64 dst v = (some (.typeError v.typeName (bytes "int")), dst))) ∧
    (((Decoder.put .string dst v).1 = none ↔ ∃ s, v = .string s) ∧
      (∀ s, v = .string s → Decoder.put .string dst v = (none, .string s)) ∧
      ((∀ s, v ≠ .string s) →
        Decoder.put .string dst v = (some (.typeError v.typeName (bytes "string")), dst))) := by
  cases v <;> simp [Decoder.put, Decoder.putInt, Decoder.putString]

/-- Witness of C13: an integer and a string into an `int64` and into a `string`
destination. -/
theorem put_scalar_witness :
    Decoder.put .int64 (.int64 5) (.int 42) = (none, .int64 42) ∧
    Decoder.put .int64 (.int64 5) (.string (bytes "spam")) =
      (some (.typeError (bytes "bencode.String") (bytes "int")), .int64 5) ∧
    Decoder.put .string (.string (bytes "old")) (.string (bytes "spam")) =
      (none, .string (bytes "spam")) ∧
    Decoder.put .string (.string (bytes "old")) (.int 42) =
      (some (.typeError (bytes "bencode.Int") (bytes "string")), .string (bytes "old")) :=
  ⟨(put_scalar (.int64 5) (.int 42)).1.2.1 42 rfl,
    (put_scalar (.int64 5) (.string (bytes "spam"))).1.2.2 (by intro n h; cases h),
    (put_scalar (.string (bytes "old")) (.string (bytes "spam"))).2.2.1 _ rfl,
    (put_scalar (.string (bytes "old")) (.int 42)).2.2.2 (by intro n h; cases h)⟩

/-- C14, the code at the failing inputs. `put` of `Int(42)` into a `string` fails, yet
`Unmarshal` of `li42ee` into a `[]string` and of `d1:ai42ee` into a `map[string]string`
return no error and leave a zero element behind; `put` of a list into a slice and of a dict
into a string-keyed map never return an error, whatever the elements. -/
theorem Decode_drops_element_errors :
    (Decoder.put .string (.string []) (.int 42)).1 =
      some (.typeError (bytes "bencode.Int") (bytes "string")) ∧
    Unmarshal (2 ^ 48) (bytes "li42ee") (.ptr (.slice .string) (.slice [])) =
      .ret none (.ptr (.slice .string) (.slice [.string []])) ∧
    Unmarshal (2 ^ 48) (bytes "d1:ai42ee") (.ptr (.map .string .string) .mapNil) =
      .ret none (.ptr (.map .string .string) (.map [(.string (bytes "a"), .string [])])) ∧
    (∀ (elem : GoType) (dst : GoValue) (l : List Value),
      (Decoder.put (.slice elem) dst (.list l)).1 = none) ∧
    (∀ (elem : GoType) (dst : GoValue) (d : Dict),
      (Decoder.put (.map .string elem) dst (.dict d)).1 = none) := by
  refine ⟨by decide, by decide, by decide, ?_, ?_⟩
  · intro elem dst l
    cases elem <;> simp [Decoder.put, Decoder.putSlice, Decoder.putBencode]
  · intro elem dst d
    simp [Decoder.put, Decoder.putMap]

/-- C16. Non-string-keyed maps are always rejected: `put` into a map destination whose key
type is not `string` returns the key-type error and leaves the destination as it was,
whatever the source, a `Dict` of any content or not a `Dict`. -/
theorem putMap_key_type (key elem : GoType) (dst : GoValue) (src : Value)
    (h : key ≠ .string) :
    Decoder.put (.map key elem) dst src = (some (.mapKeyError key), dst) := by
  cases key <;> first | exact absurd rfl h | simp [Decoder.put, Decoder.putMap]

/-- Witness of C16: the empty `Dict` into a nil `map[int64]int64`. -/
theorem putMap_key_type_witness :
    GoType.int64 ≠ GoType.string ∧
    Decoder.put (.map .int64 .int64) .mapNil (.dict (NewDict [])) =
      (some (.mapKeyError .int64), .mapNil) :=
  ⟨by decide, putMap_key_type .int64 .int64 .mapNil _ (by decide)⟩


/-- C18, the code at the failing input. The dict of `d0:i7ee` binds the empty key; `Unmarshal`
into a struct whose only field is a settable `int64` without a wire-key annotation sets that
field to 7. -/
theorem Unmarshal_sets_unannotated_field :
    Unmarshal (2 ^ 48) (bytes "d0:i7ee")
        (.ptr (.struct [⟨none, true, .int64⟩]) (.struct [.int64 0])) =
      .ret none (.ptr (.struct [⟨none, true, .int64⟩]) (.struct [.int64 7])) := by
  decide

/-- C19. Opaque byte passthrough: for every key `k` and every tree `t` (Go values),
`Unmarshal` of `d`, the encoded `k`, `t.Bencode()`, `e` into a struct with a settable `[]byte`
field annotated with `k` (its other fields settable, none of them with the key `k`) returns
no error and stores the bytes `t.Bencode()` in that field; the other fields are as before. -/
theorem Unmarshal_raw_bytes (maxAlloc : Nat) (k : List Nat) (t : Value)
    (hk : validString maxAlloc k = true) (ht : t.Valid maxAlloc = true)
    (pre post : List StructField) (vpre vpost : List GoValue) (old : GoValue)
    (hlen : vpre.length = pre.length)
    (hpre : ∀ f ∈ pre, f.Exported = true ∧ f.Tag.getD [] ≠ k)
    (hpost : ∀ f ∈ post, f.Exported = true ∧ f.Tag.getD [] ≠ k) :
    Unmarshal maxAlloc (100 :: (String.Bencode k ++ t.Bencode ++ [101]))
        (.ptr (.struct (pre ++ ⟨some k, true, .slice .uint8⟩ :: post))
          (.struct (vpre ++ old :: vpost))) =
      .ret none
        (.ptr (.struct (pre ++ ⟨some k, true, .slice .uint8⟩ :: post))
          (.struct (vpre ++ .slice (t.Bencode.map GoValue.uint8) :: vpost))) := by
  have hparse := Parse_pairs maxAlloc [(k, t)] (by simp [Value.ValidMap, hk, ht])
  simp only [bencodePairs, List.append_nil, List.foldl_cons, List.foldl_nil] at hparse
  have hget : ((NewDict []).Set k t).Get k = some t := by
    simp [Dict.Get, Dict.Set, GoMap.get_set_self]
  have habs : ∀ k2, k2 ≠ k → ((NewDict []).Set k t).Get k2 = none := by
    intro k2 h2
    rw [Dict.Get, Dict.Set]
    simp only [GoMap.get_set_other _ _ _ _ h2]
    rfl
  simp only [Unmarshal, NewDecoder, Decoder.Decode, hparse, Decoder.put, GoValue.fieldValues]
  rw [putStructFields_absent pre _ vpre _ _ hlen
    (fun f hf => ⟨(hpre f hf).1, habs _ (hpre f hf).2⟩)]
  simp only [Decoder.putStructFields, Bool.true_eq_false, if_false, Option.getD_some, hget,
    Decoder.put, Decoder.putBencode]
  rw [putStructFields_all_absent post vpost _
    (fun f hf => ⟨(hpost f hf).1, habs _ (hpost f hf).2⟩)]

/-- Witness of C19: the raw field `raw` between two other fields, and a dict as the tree. -/
theorem Unmarshal_raw_bytes_witness :
    (validString (2 ^ 48) (bytes "raw") = true ∧
      (Value.dict (NewDict [⟨bytes "b", .int 1⟩, ⟨bytes "a", .int 2⟩])).Valid (2 ^ 48) = true) ∧
    Unmarshal (2 ^ 48)
        (100 :: (String.Bencode (bytes "raw") ++
          (Value.dict (NewDict [⟨bytes "b", .int 1⟩, ⟨bytes "a", .int 2⟩])).Bencode ++ [101]))
        (.ptr (.struct ([⟨some (bytes "n"), true, .int64⟩] ++
            ⟨some (bytes "raw"), true, .slice .uint8⟩ :: [⟨none, true, .string⟩]))
          (.struct ([.int64 5] ++ .slice [] :: [.string (bytes "s")]))) =
      .ret none
        (.ptr (.struct ([⟨some (bytes "n"), true, .int64⟩] ++
            ⟨some (bytes "raw"), true, .slice .uint8⟩ :: [⟨none, true, .string⟩]))
          (.struct ([.int64 5] ++
            .slice ((Value.dict (NewDict [⟨bytes "b", .int 1⟩,
              ⟨bytes "a", .int 2⟩])).Bencode.map GoValue.uint8) ::
            [.string (bytes "s")]))) :=
  ⟨⟨by decide, by decide⟩,
    Unmarshal_raw_bytes (2 ^ 48) (bytes "raw") _ (by decide) (by decide)
      [⟨some (bytes "n"), true, .int64⟩] [⟨none, true, .string⟩] [.int64 5]
      [.string (bytes "s")] (.slice []) (by decide) (by decide) (by decide)⟩

/-- C20, the code at the failing inputs. On `lxe` the parser has read one byte when it meets
`x`, and the error says position 0; on `4spam`, a length text without `:`, it has read all
five bytes, and the error says position 0. -/
theorem Parse_error_position :
    (NewParser (bytes "lxe")).Parse (2 ^ 48) =
        .fail (some (.list [])) (.ErrSyntax { msg := bytes "unexpected token", pos := 0 })
          { reader := bytes "xe", offset := 1 } ∧
    (bytes "lxe").length - (bytes "xe").length = 1 ∧
    (NewParser (bytes "4spam")).Parse (2 ^ 48) =
        .fail (some (.string []))
          (.ErrSyntax { msg := bytes "cannot find string length delimeter", pos := 0 })
          { reader := [], offset := 0 } ∧
    (bytes "4spam").length - ([] : List Nat).length = 5 := by
  decide


/-- C21. `Parse` reads exactly one value and leaves what follows: for every tree `t` that exists
as a Go value (64-bit integers, strings the runtime can hold, every `Dict` with unique keys as
`NewDict`/`Set` build it) and every byte sequence `rest`, `Parse` on `t.Bencode() ++ rest`
returns `t` with no error, the offset is `len(t.Bencode())` and the unread bytes are `rest`,
all of it; so `Unmarshal` into a pointer puts `t` into what it points to, and on every
destination `Unmarshal` returns what it returns on `t.Bencode()` alone. -/
theorem Parse_ignores_rest (maxAlloc : Nat) (t : Value) (h : t.Valid maxAlloc = true)
    (rest : List Nat) :
    (NewParser (t.Bencode ++ rest)).Parse maxAlloc =
        .ok t { reader := rest, offset := (t.Bencode.length : Int) } ∧
      (∀ ty rv, Unmarshal maxAlloc (t.Bencode ++ rest) (.ptr ty rv) =
        .ret (Decoder.put ty rv t).1 (.ptr ty (Decoder.put ty rv t).2)) ∧
      (∀ i, Unmarshal maxAlloc (t.Bencode ++ rest) i = Unmarshal maxAlloc t.Bencode i) := by
  have hp : (NewParser (t.Bencode ++ rest)).Parse maxAlloc =
      .ok t { reader := rest, offset := (t.Bencode.length : Int) } := by
    have := parseValue_Bencode maxAlloc t h (3 * (t.Bencode ++ rest).length + 1) rest 0
      (by simp only [List.length_append]; omega)
    simpa [NewParser, Parser.Parse] using this
  have hq : (NewParser t.Bencode).Parse maxAlloc =
      .ok t { reader := [], offset := (t.Bencode.length : Int) } := by
    have := parseValue_Bencode maxAlloc t h (3 * t.Bencode.length + 1) [] 0 (le_refl _)
    simpa [NewParser, Parser.Parse] using this
  refine ⟨hp, ?_, ?_⟩
  · intro ty rv
    simp only [Unmarshal, NewDecoder, Decoder.Decode, hp]
  · intro i
    cases i with
    | ptr ty rv => simp only [Unmarshal, NewDecoder, Decoder.Decode, hp, hq]
    | nil => rfl
    | value ty rv => rfl
    | nilPtr ty => rfl

/-- Witness of C21 on a list that holds a string, a negative integer and a dict, followed by
bytes that are no bencode at all. -/
theorem Parse_ignores_rest_witness :
    (Value.list [.string (bytes "spam"), .int (-42),
        .dict (NewDict [⟨bytes "a", .int 1⟩, ⟨bytes "b", .list []⟩])]).Valid (2 ^ 48) = true ∧
    (NewParser ((Value.list [.string (bytes "spam"), .int (-42),
        .dict (NewDict [⟨bytes "a", .int 1⟩, ⟨bytes "b", .list []⟩])]).Bencode ++
          bytes "x:?")).Parse (2 ^ 48) =
      .ok (Value.list [.string (bytes "spam"), .int (-42),
        .dict (NewDict [⟨bytes "a", .int 1⟩, ⟨bytes "b", .list []⟩])])
        { reader := bytes "x:?",
          offset := ((Value.list [.string (bytes "spam"), .int (-42),
            .dict (NewDict [⟨bytes "a", .int 1⟩, ⟨bytes "b", .list []⟩])]).Bencode.length :
              Int) } :=
  ⟨by decide, (Parse_ignores_rest (2 ^ 48) _ (by decide) (bytes "x:?")).1⟩

/-- C22. `Parse` terminates on every input: the call budget `Parse` starts with is never used
up, and a larger budget gives the same outcome; every `parseValue` call that returns a value
or the end-of-value signal has consumed at least one byte; so the loop of a `parseList` and of
a `parseDict` call runs at most as many iterations as there are unread bytes, and at most that
many `parseValue` calls are nested inside a `parseValue` call at any time. -/
theorem Parse_terminates (maxAlloc : Nat) :
    (∀ p : Parser, p.Parse maxAlloc ≠ .outOfFuel) ∧
    (∀ (p : Parser) (fuel : Nat), 3 * p.reader.length + 1 ≤ fuel →
      Parser.parseValue maxAlloc fuel p = p.Parse maxAlloc) ∧
    (∀ (fuel : Nat) (p p1 : Parser) (v : Value),
      Parser.parseValue maxAlloc fuel p = .ok v p1 → p1.reader.length < p.reader.length) ∧
    (∀ (fuel : Nat) (p p1 : Parser) (v : Option Value),
      Parser.parseValue maxAlloc fuel p = .fail v .errValueEnd p1 →
        p1.reader.length < p.reader.length) ∧
    (∀ (fuel : Nat) (p : Parser),
      Parser.parseListIterations maxAlloc fuel p ≤ p.reader.length ∧
        Parser.parseDictIterations maxAlloc fuel p ≤ p.reader.length) ∧
    (∀ (fuel : Nat) (p : Parser), Parser.parseValueNesting maxAlloc fuel p ≤ p.reader.length) :=
  ⟨Parser.parseValue_fuel maxAlloc,
    fun p fuel h => parseValue_eq_Parse maxAlloc p fuel h,
    fun fuel p p1 v h => parseValue_ok_lt maxAlloc fuel p p1 v h,
    fun fuel p p1 v h => parseValue_end_lt maxAlloc fuel p p1 v h,
    fun fuel p => ⟨parseListIterations_le maxAlloc fuel p, parseDictIterations_le maxAlloc fuel p⟩,
    fun fuel p => (parse_Nesting_le maxAlloc fuel).1 p⟩

/-- Witness of C22 on the input `ll1:aed1:bleee`: `Parse` returns the tree, under a budget of
a hundred calls as well, and has consumed the fourteen bytes; the loop of the outer list runs
three iterations and three `parseValue` calls are nested at the deepest point. -/
theorem Parse_terminates_witness :
    (NewParser (bytes "ll1:aed1:bleee")).Parse (2 ^ 48) =
        .ok (.list [.list [.string (bytes "a")], .dict (NewDict [⟨bytes "b", .list []⟩])])
          { reader := [], offset := 14 } ∧
      Parser.parseValue (2 ^ 48) 100 (NewParser (bytes "ll1:aed1:bleee")) =
        (NewParser (bytes "ll1:aed1:bleee")).Parse (2 ^ 48) ∧
      ({ reader := [], offset := 14 } : Parser).reader.length <
        (NewParser (bytes "ll1:aed1:bleee")).reader.length ∧
      Parser.parseListIterations (2 ^ 48) 100 (NewParser (bytes "ll1:aed1:bleee")) = 3 ∧
      Parser.parseValueNesting (2 ^ 48) 100 (NewParser (bytes "ll1:aed1:bleee")) = 3 ∧
      Parser.parseValueNesting (2 ^ 48) 100 (NewParser (bytes "ll1:aed1:bleee")) ≤
        (NewParser (bytes "ll1:aed1:bleee")).reader.length :=
  ⟨by decide,
    (Parse_terminates (2 ^ 48)).2.1 (NewParser (bytes "ll1:aed1:bleee")) 100 (by decide),
    (Parse_terminates (2 ^ 48)).2.2.1 43 (NewParser (bytes "ll1:aed1:bleee")) _
      (.list [.list [.string (bytes "a")], .dict (NewDict [⟨bytes "b", .list []⟩])]) (by decide),
    by decide, by decide,
    (Parse_terminates (2 ^ 48)).2.2.2.2.2 100 (NewParser (bytes "ll1:aed1:bleee"))⟩


/-- The input of the test `Some complex case` parses to `TestStructInput`. -/
theorem TestStructInput_Parse :
    (NewParser (bytes "d1:ai1e1:b4:spam1:cl4:spam4:eggse1:dd4:spam4:eggse1:ed1:ai42eee")).Parse
        (2 ^ 48) = .ok (.dict TestStructInput) { reader := [], offset := 63 } := by
  have hb : (Value.dict TestStructInput).Bencode =
      bytes "d1:ai1e1:b4:spam1:cl4:spam4:eggse1:dd4:spam4:eggse1:ed1:ai42eee" := by decide
  have := parseValue_Bencode (2 ^ 48) (.dict TestStructInput) (by decide)
    (3 * (Value.dict TestStructInput).Bencode.length + 1) [] 0 (le_refl _)
  rw [hb] at this
  simpa [NewParser, Parser.Parse, bytes] using this

/-- C15, counterexamples. (a) The destination `[]int64{1, 2, 3}`, which shares no storage,
and the source list `[7]`: the decode succeeds and the destination holds `[7 2 3]`, three
elements and not one. (b) The destination `[][]int64{s, s}` with `s := []int64{1}`, whose
two elements are one slice, and the source list `[[7], [8]]`: the decode succeeds and element
0 holds `[8]`, while decoding the first item into element 0 gives `[7]`. -/
theorem putSlice_counterexample :
    ((Memory.ofVar (.slice 1 0 3 3) [[.int64 1, .int64 2, .int64 3]]).Separated
        (.slice .int64) Loc.var = true ∧
      (Decoder.putAt (fun _ _ => 0) (.slice .int64)
        (Memory.ofVar (.slice 1 0 3 3) [[.int64 1, .int64 2, .int64 3]]) Loc.var
        (.list [.int 7])).1 = none ∧
      (Decoder.putAt (fun _ _ => 0) (.slice .int64)
        (Memory.ofVar (.slice 1 0 3 3) [[.int64 1, .int64 2, .int64 3]]) Loc.var
        (.list [.int 7])).2.value (.slice .int64) Loc.var =
          .slice [.int64 7, .int64 2, .int64 3] ∧
      ([.int64 7, .int64 2, .int64 3] : List GoValue).length ≠ ([.int 7] : List Value).length) ∧
    ((Memory.ofVar (.slice 1 0 2 2) [[.slice 2 0 1 1, .slice 2 0 1 1], [.int64 1]]).value
        (.slice (.slice .int64)) Loc.var = .slice [.slice [.int64 1], .slice [.int64 1]] ∧
      (Decoder.putAt (fun _ _ => 0) (.slice (.slice .int64))
        (Memory.ofVar (.slice 1 0 2 2) [[.slice 2 0 1 1, .slice 2 0 1 1], [.int64 1]]) Loc.var
        (.list [.list [.int 7], .list [.int 8]])).1 = none ∧
      (Decoder.putAt (fun _ _ => 0) (.slice (.slice .int64))
        (Memory.ofVar (.slice 1 0 2 2) [[.slice 2 0 1 1, .slice 2 0 1 1], [.int64 1]]) Loc.var
        (.list [.list [.int 7], .list [.int 8]])).2.value (.slice (.slice .int64)) Loc.var =
          .slice [.slice [.int64 8], .slice [.int64 8]] ∧
      (Decoder.putAt (fun _ _ => 0) (.slice .int64)
        (Memory.ofVar (.slice 1 0 2 2) [[.slice 2 0 1 1, .slice 2 0 1 1], [.int64 1]])
        ((Memory.ofVar (.slice 1 0 2 2) [[.slice 2 0 1 1, .slice 2 0 1 1], [.int64 1]]).Index
          Loc.var 0)
        (.list [.int 7])).2.value (.slice .int64)
          ((Memory.ofVar (.slice 1 0 2 2) [[.slice 2 0 1 1, .slice 2 0 1 1], [.int64 1]]).Index
            Loc.var 0) = .slice [.int64 7]) := by
  decide

/-- C15, amended. For every source list `l` and every slice destination whose elements are
not bytes and that shares no storage (it is well formed, no backing array and no map object
is reached from it twice, the variable that holds it is not in an array it reaches), whatever
its length: after a successful decode the destination has the larger of its old length and
`len(l)` elements; the element at a position `i` below `len(l)` is the result of decoding
`l[i]` into the element that was at `i` (into a zero element if there was none), which for
an element that was there is what `put` of `l[i]` into it alone leaves in it; and the
elements from position `len(l)` on are as before. -/
theorem putSlice_resize (grow : Nat → Nat → Nat) (elem : GoType) (helem : elem ≠ .uint8)
    (m : Memory) (loc : Loc) (l : List Value)
    (hsep : m.Separated (.slice elem) loc = true)
    (hok : (Decoder.putAt grow (.slice elem) m loc (.list l)).1 = none) :
    ∃ old new : List GoValue,
      m.value (.slice elem) loc = .slice old ∧
      (Decoder.putAt grow (.slice elem) m loc (.list l)).2.value (.slice elem) loc =
        .slice new ∧
      new.length = max old.length l.length ∧
      (∀ (i : Nat) (v : Value), l[i]? = some v →
        new[i]? = some (Decoder.put elem ((old[i]?).getD elem.zero) v).2) ∧
      (∀ (i : Nat) (v : Value), l[i]? = some v → i < old.length →
        new[i]? = some
          ((Decoder.putAt grow elem m (m.Index loc i) v).2.value elem (m.Index loc i))) ∧
      (∀ i : Nat, l.length ≤ i → new[i]? = old[i]?) := by
  obtain ⟨_, hview, _, _, _⟩ := putAt_Refines grow (.slice elem) m loc (.list l) hsep
  have hold : m.view (.slice elem) (m.load loc) =
      .slice ((m.elems (m.load loc)).map (m.view elem)) := by
    simp only [Memory.view]
  obtain ⟨res, hput, hlen, hlt, hge⟩ :=
    put_slice_elems elem helem ((m.elems (m.load loc)).map (m.view elem)) l
  refine ⟨_, res, hold, ?_, hlen, hlt, ?_, hge⟩
  · simp only [Memory.value]
    rw [hview, hold, hput]
  · intro i v hv hi
    rw [hlt i v hv]
    -- the element at `i`, alone
    have hs0 := hsep
    rw [Memory.Separated_iff] at hs0
    obtain ⟨a, off, n, cap, hl⟩ : ∃ a off n cap, m.load loc = .slice a off n cap := by
      cases hc : m.load loc with
      | slice a off n cap => exact ⟨a, off, n, cap, rfl⟩
      | _ => rw [hc] at hs0; simp [Memory.WellFormed] at hs0
    obtain ⟨_, hnc, hcap, hlenE, _⟩ := Memory.Separated_slice m elem loc a off n cap hsep hl
    rw [hl, List.length_map, hlenE] at hi
    obtain ⟨hsepE, hloadE⟩ := Memory.Separated_Index m elem loc a off n cap i hsep hl hi
    obtain ⟨_, hviewE, _, _, _⟩ := putAt_Refines grow elem m (m.Index loc i) v hsepE
    simp only [Memory.value]
    rw [hviewE, hloadE, hl, List.getElem?_map,
      List.getElem?_eq_getElem (by rw [hlenE]; exact hi)]
    simp [List.getD_eq_getElem?_getD, List.getElem?_eq_getElem (hlenE.symm ▸ hi)]

/-- Witness of C15 (amended): the destination `[]int64{1}` with capacity for three elements,
in an array that holds 5 and 6 behind it, and a source list of two elements; the destination
holds `[7 8]` afterwards. -/
theorem putSlice_resize_witness :
    (GoType.int64 ≠ GoType.uint8 ∧
      (Memory.ofVar (.slice 1 0 1 3) [[.int64 1, .int64 5, .int64 6]]).Separated
        (.slice .int64) Loc.var = true ∧
      (Decoder.putAt (fun _ _ => 0) (.slice .int64)
        (Memory.ofVar (.slice 1 0 1 3) [[.int64 1, .int64 5, .int64 6]]) Loc.var
        (.list [.int 7, .int 8])).1 = none) ∧
    (Decoder.putAt (fun _ _ => 0) (.slice .int64)
        (Memory.ofVar (.slice 1 0 1 3) [[.int64 1, .int64 5, .int64 6]]) Loc.var
        (.list [.int 7, .int 8])).2.value (.slice .int64) Loc.var =
      .slice [.int64 7, .int64 8] ∧
    ∃ old new : List GoValue,
      (Memory.ofVar (.slice 1 0 1 3) [[.int64 1, .int64 5, .int64 6]]).value
        (.slice .int64) Loc.var = .slice old ∧
      (Decoder.putAt (fun _ _ => 0) (.slice .int64)
        (Memory.ofVar (.slice 1 0 1 3) [[.int64 1, .int64 5, .int64 6]]) Loc.var
        (.list [.int 7, .int 8])).2.value (.slice .int64) Loc.var = .slice new ∧
      new.length = max old.length ([.int 7, .int 8] : List Value).length ∧
      (∀ (i : Nat) (v : Value), ([.int 7, .int 8] : List Value)[i]? = some v →
        new[i]? = some (Decoder.put .int64 ((old[i]?).getD GoType.int64.zero) v).2) ∧
      (∀ (i : Nat) (v : Value), ([.int 7, .int 8] : List Value)[i]? = some v →
        i < old.length →
        new[i]? = some
          ((Decoder.putAt (fun _ _ => 0) .int64
            (Memory.ofVar (.slice 1 0 1 3) [[.int64 1, .int64 5, .int64 6]])
            ((Memory.ofVar (.slice 1 0 1 3) [[.int64 1, .int64 5, .int64 6]]).Index
              Loc.var i) v).2.value .int64
            ((Memory.ofVar (.slice 1 0 1 3) [[.int64 1, .int64 5, .int64 6]]).Index
              Loc.var i))) ∧
      (∀ i : Nat, ([.int 7, .int 8] : List Value).length ≤ i → new[i]? = old[i]?) :=
  ⟨⟨by decide, by decide, by decide⟩, by decide,
    putSlice_resize (fun _ _ => 0) .int64 (by decide) _ _ _ (by decide) (by decide)⟩

/-- C17, counterexample. A struct with the settable fields `A []int64` (key `a`) and
`B []int64` (key `b`) whose two fields are one slice `[]int64{1}`. With the dict
`{a: [7]}` the decode succeeds and the field `B`, whose key the dict lacks, holds `[7]` and
not `[1]` as before. With the dict `{a: [7], b: [8]}` the decode succeeds and the field `A`
holds `[8]`, while decoding `[7]` into `A` gives `[7]`. -/
theorem putStruct_counterexample :
    (Memory.ofVar (.struct [.slice 1 0 1 1, .slice 1 0 1 1]) [[.int64 1]]).value
        (.struct [⟨some (bytes "a"), true, .slice .int64⟩,
          ⟨some (bytes "b"), true, .slice .int64⟩]) Loc.var =
      .struct [.slice [.int64 1], .slice [.int64 1]] ∧
    ((NewDict [⟨bytes "a", .list [.int 7]⟩]).Get (bytes "b") = none ∧
      (Decoder.putAt (fun _ _ => 0)
        (.struct [⟨some (bytes "a"), true, .slice .int64⟩,
          ⟨some (bytes "b"), true, .slice .int64⟩])
        (Memory.ofVar (.struct [.slice 1 0 1 1, .slice 1 0 1 1]) [[.int64 1]]) Loc.var
        (.dict (NewDict [⟨bytes "a", .list [.int 7]⟩]))).1 = none ∧
      (Decoder.putAt (fun _ _ => 0)
        (.struct [⟨some (bytes "a"), true, .slice .int64⟩,
          ⟨some (bytes "b"), true, .slice .int64⟩])
        (Memory.ofVar (.struct [.slice 1 0 1 1, .slice 1 0 1 1]) [[.int64 1]]) Loc.var
        (.dict (NewDict [⟨bytes "a", .list [.int 7]⟩]))).2.value
          (.struct [⟨some (bytes "a"), true, .slice .int64⟩,
            ⟨some (bytes "b"), true, .slice .int64⟩]) Loc.var =
        .struct [.slice [.int64 7], .slice [.int64 7]]) ∧
    ((Decoder.putAt (fun _ _ => 0)
        (.struct [⟨some (bytes "a"), true, .slice .int64⟩,
          ⟨some (bytes "b"), true, .slice .int64⟩])
        (Memory.ofVar (.struct [.slice 1 0 1 1, .slice 1 0 1 1]) [[.int64 1]]) Loc.var
        (.dict (NewDict [⟨bytes "a", .list [.int 7]⟩, ⟨bytes "b", .list [.int 8]⟩]))).1 =
        none ∧
      (Decoder.putAt (fun _ _ => 0)
        (.struct [⟨some (bytes "a"), true, .slice .int64⟩,
          ⟨some (bytes "b"), true, .slice .int64⟩])
        (Memory.ofVar (.struct [.slice 1 0 1 1, .slice 1 0 1 1]) [[.int64 1]]) Loc.var
        (.dict (NewDict [⟨bytes "a", .list [.int 7]⟩, ⟨bytes "b", .list [.int 8]⟩]))).2.value
          (.struct [⟨some (bytes "a"), true, .slice .int64⟩,
            ⟨some (bytes "b"), true, .slice .int64⟩]) Loc.var =
        .struct [.slice [.int64 8], .slice [.int64 8]] ∧
      (Decoder.putAt (fun _ _ => 0) (.slice .int64)
        (Memory.ofVar (.struct [.slice 1 0 1 1, .slice 1 0 1 1]) [[.int64 1]])
        (Loc.var.Field 0) (.list [.int 7])).2.value (.slice .int64) (Loc.var.Field 0) =
        .slice [.int64 7]) := by
  decide

/-- C17, amended. Record decoding by wire key: for every source `Dict` and every struct
destination whose fields are all settable and that shares no storage (it is well formed, no
backing array and no map object is reached from it twice, the variable that holds it is not
in an array it reaches), after a successful decode a field annotated with a key the dict
binds holds the result of decoding the value of the key into it, which is what `put` of
that value into the field alone leaves in it: the number of an `Int` in an `int64` field, the
bytes of a `String` in a `string` field, the encoding of the value in a `[]byte` field, its
native value in an `interface{}` field; a field annotated with a key the dict lacks is as
before; and the outcome depends on the dict through the keys of the fields only (other keys
are ignored). -/
theorem putStruct_by_key (grow : Nat → Nat → Nat) (fields : List StructField) (m : Memory)
    (loc : Loc) (d : Dict)
    (hsep : m.Separated (.struct fields) loc = true)
    (hset : ∀ f ∈ fields, f.Exported = true)
    (hok : (Decoder.putAt grow (.struct fields) m loc (.dict d)).1 = none) :
    ∃ old new : List GoValue,
      m.value (.struct fields) loc = .struct old ∧
      (Decoder.putAt grow (.struct fields) m loc (.dict d)).2.value (.struct fields) loc =
        .struct new ∧
      old.length = fields.length ∧ new.length = fields.length ∧
      (∀ (i : Nat) (key : List Nat) (ty : GoType) (value : Value),
        fields[i]? = some ⟨some key, true, ty⟩ → d.Get key = some value →
        new[i]? = some (Decoder.put ty ((old[i]?).getD ty.zero) value).2 ∧
        new[i]? = some
          ((Decoder.putAt grow ty m (loc.Field i) value).2.value ty (loc.Field i))) ∧
      (∀ (i : Nat) (key : List Nat) (n : Int),
        fields[i]? = some ⟨some key, true, .int64⟩ → d.Get key = some (.int n) →
        new[i]? = some (.int64 n)) ∧
      (∀ (i : Nat) (key s : List Nat),
        fields[i]? = some ⟨some key, true, .string⟩ → d.Get key = some (.string s) →
        new[i]? = some (.string s)) ∧
      (∀ (i : Nat) (key : List Nat) (value : Value),
        fields[i]? = some ⟨some key, true, .slice .uint8⟩ → d.Get key = some value →
        new[i]? = some (.slice (value.Bencode.map GoValue.uint8))) ∧
      (∀ (i : Nat) (key : List Nat) (value : Value),
        fields[i]? = some ⟨some key, true, .iface⟩ → d.Get key = some value →
        new[i]? = some (.iface value.Interface)) ∧
      (∀ (i : Nat) (key : List Nat) (ty : GoType),
        fields[i]? = some ⟨some key, true, ty⟩ → d.Get key = none → new[i]? = old[i]?) ∧
      (∀ d2 : Dict, (∀ f ∈ fields, d2.Get (f.Tag.getD []) = d.Get (f.Tag.getD [])) →
        Decoder.putAt grow (.struct fields) m loc (.dict d2) =
          Decoder.putAt grow (.struct fields) m loc (.dict d)) := by
  obtain ⟨herr, hview, _, _, _⟩ := putAt_Refines grow (.struct fields) m loc (.dict d) hsep
  obtain ⟨old, hold, holdlen⟩ := Memory.view_struct m fields loc hsep
  rw [hold] at herr hview
  rw [hok] at herr
  obtain ⟨res, hput, hreslen, hpresent, habsent, _⟩ :=
    put_struct_fields fields old d holdlen hset herr.symm
  have hget : ∀ (i : Nat) (f : StructField), fields[i]? = some f →
      ∃ oldv, old[i]? = some oldv := by
    intro i f hf
    have hi : i < old.length := by
      rw [holdlen]
      rcases Nat.lt_or_ge i fields.length with h | h
      · exact h
      · rw [List.getElem?_eq_none h] at hf; cases hf
    exact ⟨old[i], List.getElem?_eq_getElem hi⟩
  have hmain : ∀ (i : Nat) (key : List Nat) (ty : GoType) (value : Value),
      fields[i]? = some ⟨some key, true, ty⟩ → d.Get key = some value →
      res[i]? = some (Decoder.put ty ((old[i]?).getD ty.zero) value).2 := by
    intro i key ty value hf hg
    obtain ⟨oldv, ho⟩ := hget i _ hf
    rw [hpresent i key ty oldv value hf ho hg, ho, Option.getD_some]
  refine ⟨old, res, hold, ?_, holdlen, hreslen, ?_, ?_, ?_, ?_, ?_, ?_, ?_⟩
  · simp only [Memory.value]
    rw [hview, hput]
  · intro i key ty value hf hg
    refine ⟨hmain i key ty value hf hg, ?_⟩
    rw [hmain i key ty value hf hg]
    obtain ⟨hsepF, hfv⟩ := Memory.Separated_Field m fields loc i _ hsep hf
    obtain ⟨_, hviewF, _, _, _⟩ := putAt_Refines grow ty m (loc.Field i) value hsepF
    simp only [Memory.value]
    rw [hviewF]
    rw [hold] at hfv
    simp only [GoValue.fieldValues] at hfv
    rw [hfv, Option.getD_some]
  · intro i key n hf hg
    rw [hmain i key .int64 (.int n) hf hg]
    simp [Decoder.put, Decoder.putInt]
  · intro i key s hf hg
    rw [hmain i key .string (.string s) hf hg]
    simp [Decoder.put, Decoder.putString]
  · intro i key value hf hg
    rw [hmain i key (.slice .uint8) value hf hg]
    simp [Decoder.put, Decoder.putBencode]
  · intro i key value hf hg
    rw [hmain i key .iface value hf hg]
    simp [Decoder.put]
  · intro i key ty hf hg
    obtain ⟨oldv, ho⟩ := hget i _ hf
    rw [habsent i key ty oldv hf ho hg, ho]
  · intro d2 h
    simp only [Decoder.putAt]
    exact putStructFieldsAt_congr grow fields 0 m loc d d2 h

/-- Witness of C17 (amended): the test `Some complex case`, a zero `TestStruct` and the tree
of the input of the test; the struct holds afterwards what the test wants. -/
theorem putStruct_by_key_witness :
    ((Memory.ofVar (GoType.struct TestStruct).zeroMem []).Separated (.struct TestStruct) Loc.var = true ∧
      (∀ f ∈ TestStruct, f.Exported = true) ∧
      (Decoder.putAt (fun _ _ => 0) (.struct TestStruct) (Memory.ofVar (GoType.struct TestStruct).zeroMem []) Loc.var
        (.dict TestStructInput)).1 = none) ∧
    (Decoder.putAt (fun _ _ => 0) (.struct TestStruct) (Memory.ofVar (GoType.struct TestStruct).zeroMem []) Loc.var
        (.dict TestStructInput)).2.value (.struct TestStruct) Loc.var =
      .struct [.int64 1, .string (bytes "spam"),
        .slice [.string (bytes "spam"), .string (bytes "eggs")],
        .map [(.string (bytes "spam"), .string (bytes "eggs"))], .struct [.int64 42]] ∧
    ∃ old new : List GoValue,
      (Memory.ofVar (GoType.struct TestStruct).zeroMem []).value (.struct TestStruct) Loc.var = .struct old ∧
      (Decoder.putAt (fun _ _ => 0) (.struct TestStruct) (Memory.ofVar (GoType.struct TestStruct).zeroMem []) Loc.var
        (.dict TestStructInput)).2.value (.struct TestStruct) Loc.var = .struct new ∧
      old.length = TestStruct.length ∧ new.length = TestStruct.length ∧
      (∀ (i : Nat) (key : List Nat) (ty : GoType) (value : Value),
        TestStruct[i]? = some ⟨some key, true, ty⟩ → TestStructInput.Get key = some value →
        new[i]? = some (Decoder.put ty ((old[i]?).getD ty.zero) value).2 ∧
        new[i]? = some
          ((Decoder.putAt (fun _ _ => 0) ty (Memory.ofVar (GoType.struct TestStruct).zeroMem []) (Loc.var.Field i) value).2.value ty
            (Loc.var.Field i))) ∧
      (∀ (i : Nat) (key : List Nat) (n : Int),
        TestStruct[i]? = some ⟨some key, true, .int64⟩ →
        TestStructInput.Get key = some (.int n) → new[i]? = some (.int64 n)) ∧
      (∀ (i : Nat) (key s : List Nat),
        TestStruct[i]? = some ⟨some key, true, .string⟩ →
        TestStructInput.Get key = some (.string s) → new[i]? = some (.string s)) ∧
      (∀ (i : Nat) (key : List Nat) (value : Value),
        TestStruct[i]? = some ⟨some key, true, .slice .uint8⟩ →
        TestStructInput.Get key = some value →
        new[i]? = some (.slice (value.Bencode.map GoValue.uint8))) ∧
      (∀ (i : Nat) (key : List Nat) (value : Value),
        TestStruct[i]? = some ⟨some key, true, .iface⟩ →
        TestStructInput.Get key = some value → new[i]? = some (.iface value.Interface)) ∧
      (∀ (i : Nat) (key : List Nat) (ty : GoType),
        TestStruct[i]? = some ⟨some key, true, ty⟩ → TestStructInput.Get key = none →
        new[i]? = old[i]?) ∧
      (∀ d2 : Dict,
        (∀ f ∈ TestStruct, d2.Get (f.Tag.getD []) = TestStructInput.Get (f.Tag.getD [])) →
        Decoder.putAt (fun _ _ => 0) (.struct TestStruct) (Memory.ofVar (GoType.struct TestStruct).zeroMem []) Loc.var (.dict d2) =
          Decoder.putAt (fun _ _ => 0) (.struct TestStruct) (Memory.ofVar (GoType.struct TestStruct).zeroMem []) Loc.var
            (.dict TestStructInput)) :=
  ⟨⟨by decide, by decide, by decide⟩, by decide,
    putStruct_by_key (fun _ _ => 0) TestStruct _ Loc.var TestStructInput (by decide)
      (by decide) (by decide)⟩

end Bencode
